import Mathlib

/-!
# Request-coalescing entity loader (`internal/graphql/dataloaders`)

A shallow embedding of `user_loader.go` and `product_loader.go`.  The two files are
the same program up to the entity type (`user.User` / `product.Product`), so the
embedding is written once over an entity type `α`.

The loader is concurrent: `Load` is called from many goroutines and every first
waiter of a key spawns a `startBatch` goroutine.  The embedding is an interleaving
semantics: every goroutine is cut at the points where it touches shared state (the
cache under `mutex`, the pending table under `batchMutex`, a result channel, the
repository), and `step` executes one such atomic section of one goroutine.  Time is
abstracted: a job in `time.Sleep` may wake up at any step, and a `GetByID` in flight may
return at any step with any pair.  `Load`, `startBatch` and `LoadMany` are the same sections
run in program order with no other goroutine in between.

The sequential packages follow: the in-memory repositories and the services of
`internal/user`, `internal/product` and `internal/order`, and the converters of
`internal/graphql/resolvers`.  A map is the list of its pairs, a pointer to a stored record
is the record, machine integers are integers that wrap around at their width, and a panic
is an `Except.error`.
-/

namespace Dataloaders

/-- Entity ids are Go strings. -/
abbrev Key := String

/-- The pair carried by a result channel (`userResult`, and `productResult` with
`product.Product` for `α`): a pointer to the entity, which may be nil (`none`), and a Go
`error`, which is nil (`none`) on success. -/
structure userResult (α : Type) where
  user : Option α
  err : Option String
  deriving DecidableEq, Repr

/-- The zero value of `userResult`, which a receive on a closed, empty channel yields. -/
def userResult.zero {α : Type} : userResult α := ⟨none, none⟩

/-- The fields of `UserLoader` (and of `ProductLoader`, the same structure with
`product.Product` for `α`) other than the repository and the two locks.
`cache` is `map[string]*user.User` (an entry may hold a nil pointer), `batch` is
`map[string][]chan userResult`; a channel is named by the number of the `Load` call that
made it. -/
structure UserLoader (α : Type) where
  cache : Key → Option (Option α)
  batch : Key → Option (List Nat)
  maxBatch : Nat
  wait : Nat

/-- `NewUserLoader` (and `NewProductLoader`): empty maps, `maxBatch` 100, `wait` one
millisecond (kept in nanoseconds, as `time.Duration` does). -/
def NewUserLoader (α : Type) : UserLoader α :=
  { cache := fun _ => none, batch := fun _ => none, maxBatch := 100, wait := 1000000 }

/-- The `productResult` of `product_loader.go` is `userResult` over products. -/
abbrev productResult := userResult

/-- The `ProductLoader` of `product_loader.go` is `UserLoader` over products: the two files
differ in the entity type and in nothing else. -/
abbrev ProductLoader := UserLoader

/-- `NewProductLoader`: as `NewUserLoader`. -/
def NewProductLoader (α : Type) : ProductLoader α := NewUserLoader α

/-- Reading `ul.batch[id]`: a missing key reads as the nil slice. -/
def UserLoader.pending {α : Type} (l : UserLoader α) (id : Key) : List Nat :=
  (l.batch id).getD []

/-- `Prime` (lines 83-87): `ul.cache[id] = user` under the write lock. -/
def UserLoader.Prime {α : Type} (l : UserLoader α) (id : Key) (user : Option α) : UserLoader α :=
  { l with cache := Function.update l.cache id (some user) }

/-- `Clear` (lines 90-94): `delete(ul.cache, id)` under the write lock. -/
def UserLoader.Clear {α : Type} (l : UserLoader α) (id : Key) : UserLoader α :=
  { l with cache := Function.update l.cache id none }

/-- Where a `Load` call stands once it has read the cache. -/
inductive LoadPC (α : Type) where
  /-- Lines 49-52: the cache had no entry, the channel is made, `batchMutex` not yet taken. -/
  | checked : LoadPC α
  /-- Line 66: the channel is in the pending table, the call blocks on `<-result`. -/
  | waiting : LoadPC α
  /-- Lines 47 and 67: the call has returned this `(value, error)` pair. -/
  | returned : userResult α → LoadPC α

/-- One `Load` call: its key, its program point, and its channel `result` of capacity one
(the buffered value, and whether the channel is closed). -/
structure LoadCall (α : Type) where
  id : Key
  pc : LoadPC α
  chan : Option (userResult α)
  closed : Bool

/-- Program points of a `startBatch` goroutine. -/
inductive BatchPC where
  /-- Line 98: in `time.Sleep(ul.wait)`. -/
  | sleeping
  /-- Line 103: the pending list is detached, `GetByID` not yet called. -/
  | drained
  /-- Line 106: `GetByID` is in flight. -/
  | fetching
  /-- Line 106: `GetByID` has returned. -/
  | fetched
  /-- Line 116: about to send on `batch[i]`. -/
  | sending
  /-- Line 117: about to close `batch[i]`. -/
  | closing
  /-- Line 119: returned. -/
  | done
  deriving DecidableEq, Repr

/-- One `startBatch(id)` goroutine with its locals: the detached slice `batch`, the pair
returned by `GetByID` (`none` before it returns) and the index of the `range` loop. -/
structure BatchJob (α : Type) where
  id : Key
  pc : BatchPC
  batch : List Nat
  result : Option (userResult α)
  i : Nat

/-- A loader together with the goroutines working on it.  `fetchLog` and `sendLog` are
history variables, oldest entry first: every `GetByID` invocation as (number of the calling
`startBatch`, key), and every send on a result channel as (channel, pair sent). -/
structure State (α : Type) where
  loader : UserLoader α
  calls : List (LoadCall α)
  jobs : List (BatchJob α)
  fetchLog : List (Nat × Key)
  sendLog : List (Nat × userResult α)

/-- A fresh loader with no goroutine on it. -/
def State.init (α : Type) : State α :=
  { loader := NewUserLoader α, calls := [], jobs := [], fetchLog := [], sendLog := [] }

/-- One atomic section of one goroutine. -/
inductive Event (α : Type) where
  /-- A goroutine calls `Load(id)` and runs lines 44-52 (cache read under `RLock`). -/
  | Load : Key → Event α
  /-- `Load` call `t` runs lines 55-63 under `batchMutex`. -/
  | enqueue : Nat → Event α
  /-- `Load` call `t` runs lines 66-67. -/
  | receive : Nat → Event α
  /-- A goroutine calls `Prime(id, user)`. -/
  | Prime : Key → Option α → Event α
  /-- A goroutine calls `Clear(id)`. -/
  | Clear : Key → Event α
  /-- `startBatch` job `d` wakes up and runs lines 100-103 under `batchMutex`. -/
  | drain : Nat → Event α
  /-- Job `d` invokes `GetByID` (line 106). -/
  | fetchCall : Nat → Event α
  /-- The `GetByID` of job `d` returns the given pair (line 106). -/
  | fetchReturn : Nat → userResult α → Event α
  /-- Job `d` runs lines 109-114: caches a successful result and enters the loop. -/
  | cacheResult : Nat → Event α
  /-- Job `d` runs `ch <- result` (line 116). -/
  | send : Nat → Event α
  /-- Job `d` runs `close(ch)` (line 117) and advances the loop. -/
  | close : Nat → Event α

/-- Program point of the `range batch` loop at index `i`: the body, or the function's end. -/
def loopPC (batch : List Nat) (i : Nat) : BatchPC :=
  if i < batch.length then BatchPC.sending else BatchPC.done

/-- Lines 44-52 of `Load`: on a hit the call returns `(cached, nil)` at once; on a miss it
makes its channel and goes on to the pending table. -/
def doLoad {α : Type} (s : State α) (id : Key) : State α :=
  match s.loader.cache id with
  | some cached =>
      { s with calls := s.calls ++ [⟨id, LoadPC.returned ⟨cached, none⟩, none, false⟩] }
  | none => { s with calls := s.calls ++ [⟨id, LoadPC.checked, none, false⟩] }

/-- Lines 55-63 of `Load`: append the channel to `ul.batch[id]` and, when the list now has
length one, start `startBatch(id)`. -/
def doEnqueue {α : Type} (s : State α) (t : Nat) : Option (State α) :=
  match s.calls[t]? with
  | some c =>
      match c.pc with
      | LoadPC.checked =>
          let batch := s.loader.pending c.id ++ [t]
          some { s with
            loader := { s.loader with batch := Function.update s.loader.batch c.id (some batch) }
            calls := s.calls.set t { c with pc := LoadPC.waiting }
            jobs := if batch.length = 1
              then s.jobs ++ [⟨c.id, BatchPC.sleeping, [], none, 0⟩] else s.jobs }
      | _ => none
  | none => none

/-- Lines 66-67 of `Load`: take the buffered pair; a closed, empty channel yields the zero
pair; an open, empty channel blocks. -/
def doReceive {α : Type} (s : State α) (t : Nat) : Option (State α) :=
  match s.calls[t]? with
  | some c =>
      match c.pc with
      | LoadPC.waiting =>
          match c.chan with
          | some r =>
              some { s with
                calls := s.calls.set t { c with pc := LoadPC.returned r, chan := none } }
          | none =>
              if c.closed then
                some { s with
                  calls := s.calls.set t { c with pc := LoadPC.returned userResult.zero } }
              else none
      | _ => none
  | none => none

/-- Lines 100-103 of `startBatch`: detach `ul.batch[id]` and delete the key. -/
def doDrain {α : Type} (s : State α) (d : Nat) : Option (State α) :=
  match s.jobs[d]? with
  | some j =>
      match j.pc with
      | BatchPC.sleeping =>
          some { s with
            loader := { s.loader with batch := Function.update s.loader.batch j.id none }
            jobs := s.jobs.set d { j with pc := BatchPC.drained, batch := s.loader.pending j.id } }
      | _ => none
  | none => none

/-- Line 106, the call: `GetByID(id)` is invoked. -/
def doFetchCall {α : Type} (s : State α) (d : Nat) : Option (State α) :=
  match s.jobs[d]? with
  | some j =>
      match j.pc with
      | BatchPC.drained =>
          some { s with
            jobs := s.jobs.set d { j with pc := BatchPC.fetching }
            fetchLog := s.fetchLog ++ [(d, j.id)] }
      | _ => none
  | none => none

/-- Line 106, the return: `user, err` receive what the repository answered. -/
def doFetchReturn {α : Type} (s : State α) (d : Nat) (r : userResult α) : Option (State α) :=
  match s.jobs[d]? with
  | some j =>
      match j.pc with
      | BatchPC.fetching =>
          some { s with jobs := s.jobs.set d { j with pc := BatchPC.fetched, result := some r } }
      | _ => none
  | none => none

/-- Lines 109-114 of `startBatch`: `Prime` the cache when `err == nil`, then enter the loop. -/
def doCacheResult {α : Type} (s : State α) (d : Nat) : Option (State α) :=
  match s.jobs[d]? with
  | some j =>
      match j.pc, j.result with
      | BatchPC.fetched, some r =>
          some { s with
            loader := if r.err.isNone then s.loader.Prime j.id r.user else s.loader
            jobs := s.jobs.set d { j with pc := loopPC j.batch 0, i := 0 } }
      | _, _ => none
  | none => none

/-- Line 116: `ch <- result` on `batch[i]`.  The send goes through when the buffer is empty
and the channel open; on a full buffer it blocks and on a closed channel it panics. -/
def doSend {α : Type} (s : State α) (d : Nat) : Option (State α) :=
  match s.jobs[d]? with
  | some j =>
      match j.pc, j.result, j.batch[j.i]? with
      | BatchPC.sending, some r, some t =>
          match s.calls[t]? with
          | some c =>
              if c.chan.isNone ∧ c.closed = false then
                some { s with
                  calls := s.calls.set t { c with chan := some r }
                  jobs := s.jobs.set d { j with pc := BatchPC.closing }
                  sendLog := s.sendLog ++ [(t, r)] }
              else none
          | none => none
      | _, _, _ => none
  | none => none

/-- Line 117: `close(ch)` on `batch[i]` (closing a closed channel panics), then the loop
moves to `i + 1`. -/
def doClose {α : Type} (s : State α) (d : Nat) : Option (State α) :=
  match s.jobs[d]? with
  | some j =>
      match j.pc, j.batch[j.i]? with
      | BatchPC.closing, some t =>
          match s.calls[t]? with
          | some c =>
              if c.closed = false then
                some { s with
                  calls := s.calls.set t { c with closed := true }
                  jobs := s.jobs.set d { j with pc := loopPC j.batch (j.i + 1), i := j.i + 1 } }
              else none
          | none => none
      | _, _ => none
  | none => none

/-- One step of the loader: the atomic section named by the event, or `none` when that
section cannot run in this state (no such goroutine, wrong program point, blocked). -/
def step {α : Type} (s : State α) : Event α → Option (State α)
  | Event.Load id => some (doLoad s id)
  | Event.enqueue t => doEnqueue s t
  | Event.receive t => doReceive s t
  | Event.Prime id user => some { s with loader := s.loader.Prime id user }
  | Event.Clear id => some { s with loader := s.loader.Clear id }
  | Event.drain d => doDrain s d
  | Event.fetchCall d => doFetchCall s d
  | Event.fetchReturn d r => doFetchReturn s d r
  | Event.cacheResult d => doCacheResult s d
  | Event.send d => doSend s d
  | Event.close d => doClose s d

/-- Run a schedule, oldest event first. -/
def run {α : Type} (s : State α) : List (Event α) → Option (State α)
  | [] => some s
  | e :: es => (step s e).bind fun s1 => run s1 es

/-- The states some interleaving reaches from a fresh loader. -/
def Reachable {α : Type} (s : State α) : Prop :=
  ∃ es : List (Event α), run (State.init α) es = some s

/-- The repository as a loader sees it (`repo.GetByID`): the pair it answers for a key, which
may depend on every key asked before (oldest first), so that any repository behaviour, also a
failing or a changing one, is a `Fetcher`. -/
abbrev Fetcher (α : Type) := List Key → Key → userResult α

/-- The keys `GetByID` has been invoked with so far, oldest first. -/
def State.asked {α : Type} (s : State α) : List Key :=
  s.fetchLog.map Prod.snd

/-- The `range batch` loop of `startBatch` job `d` (lines 115-118), `n` rounds of it run
without another goroutine in between. -/
def deliver {α : Type} (s : State α) (d : Nat) : Nat → Option (State α)
  | 0 => some s
  | n + 1 => (doSend s d).bind fun s1 => (doClose s1 d).bind fun s2 => deliver s2 d n

/-- One whole run of `startBatch` job `d` (lines 98-119) from its wake-up to its return, with
no other goroutine in between and the repository answering `r`. -/
def startBatch {α : Type} (s : State α) (d : Nat) (r : userResult α) : Option (State α) :=
  (doDrain s d).bind fun s1 =>
  (doFetchCall s1 d).bind fun s2 =>
  (doFetchReturn s2 d r).bind fun s3 =>
  (doCacheResult s3 d).bind fun s4 =>
  deliver s4 d ((s4.jobs[d]?.map BatchJob.batch).getD []).length

/-- The pair a `Load` call has returned, if it has. -/
def State.outcome {α : Type} (s : State α) (t : Nat) : Option (userResult α) :=
  match s.calls[t]? with
  | some c =>
      match c.pc with
      | LoadPC.returned r => some r
      | _ => none
  | none => none

/-- One `Load(id)` call run to its return on a loader with no other activity, against the
repository `f`: the call reads the cache and on a miss registers its channel, which starts
`startBatch` job number `s.jobs.length`; that job runs to its end and the call receives.
The result is the state after the call and the pair it returned; `none` when the call cannot
finish this way (its key already had a pending entry, served by some other job). -/
def Load {α : Type} (f : Fetcher α) (s : State α) (id : Key) :
    Option (State α × userResult α) :=
  let t := s.calls.length
  let s1 := doLoad s id
  match s1.outcome t with
  | some r => some (s1, r)
  | none =>
      (doEnqueue s1 t).bind fun s2 =>
      (startBatch s2 s.jobs.length (f s.asked id)).bind fun s3 =>
      (doReceive s3 t).bind fun s4 =>
      (s4.outcome t).map fun r => (s4, r)

/-- `LoadMany` (lines 71-80): one blocking `Load` per id, in order, filling `users[i]` and
`errors[i]`. -/
def LoadMany {α : Type} (f : Fetcher α) :
    State α → List Key → Option (State α × List (Option α) × List (Option String))
  | s, [] => some (s, [], [])
  | s, id :: ids =>
      (Load f s id).bind fun p =>
      (LoadMany f p.1 ids).map fun q => (q.1, p.2.user :: q.2.1, p.2.err :: q.2.2)

/-! ## Predicates on states -/

/-- A registered channel nobody has sent on or closed; its call blocks on the receive. -/
def LoadCall.Untouched {α : Type} (c : LoadCall α) : Prop :=
  c.pc = LoadPC.waiting ∧ c.chan = none ∧ c.closed = false

/-- A channel that was sent the pair `res` (still buffered, or already received and returned
by its call), closed or not as `closed` says. -/
def LoadCall.Delivered {α : Type} (res : Option (userResult α)) (closed : Bool)
    (c : LoadCall α) : Prop :=
  c.closed = closed ∧ ∃ r, res = some r ∧
    ((c.pc = LoadPC.waiting ∧ c.chan = some r) ∨ (c.pc = LoadPC.returned r ∧ c.chan = none))

/-- What the program point of a `startBatch` job says about the call `c` behind `batch[n]`:
before the loop reaches index `n` the channel is untouched, after the send it holds (or has
handed over) the fetched pair, after the close it is closed. -/
def slotOk {α : Type} (j : BatchJob α) (n : Nat) (c : LoadCall α) : Prop :=
  match j.pc with
  | BatchPC.sleeping => False
  | BatchPC.drained => c.Untouched
  | BatchPC.fetching => c.Untouched
  | BatchPC.fetched => c.Untouched
  | BatchPC.sending => if n < j.i then c.Delivered j.result true else c.Untouched
  | BatchPC.closing =>
      if n < j.i then c.Delivered j.result true
      else if n = j.i then c.Delivered j.result false else c.Untouched
  | BatchPC.done => c.Delivered j.result true

/-- Who holds which channel: a channel sits in the pending list of its key or in the detached
slice of one job, never twice, and its call is in the state its holder implies. -/
structure WellFormed {α : Type} (s : State α) : Prop where
  pending_ok : ∀ (k : Key) (t : Nat), t ∈ s.loader.pending k →
    ∃ c : LoadCall α, s.calls[t]? = some c ∧ c.id = k ∧ c.Untouched
  pending_nodup : ∀ k : Key, (s.loader.pending k).Nodup
  checked_fresh : ∀ (t : Nat) (c : LoadCall α), s.calls[t]? = some c → c.pc = LoadPC.checked →
    c.chan = none ∧ c.closed = false
  pending_job : ∀ (k : Key) (t d : Nat) (j : BatchJob α), t ∈ s.loader.pending k →
    s.jobs[d]? = some j → t ∉ j.batch
  job_job : ∀ (d1 d2 : Nat) (j1 j2 : BatchJob α) (t : Nat), s.jobs[d1]? = some j1 →
    s.jobs[d2]? = some j2 → t ∈ j1.batch → t ∈ j2.batch → d1 = d2
  batch_nodup : ∀ (d : Nat) (j : BatchJob α), s.jobs[d]? = some j → j.batch.Nodup
  slot_ok : ∀ (d : Nat) (j : BatchJob α) (n t : Nat), s.jobs[d]? = some j →
    j.batch[n]? = some t → ∃ c : LoadCall α, s.calls[t]? = some c ∧ c.id = j.id ∧ slotOk j n c

/-- Sleeping jobs and pending entries go together: a key has a pending entry exactly when one
job sleeps on it, and a pending entry is never an empty list. -/
structure Sleepers {α : Type} (s : State α) : Prop where
  entry_nonempty : ∀ (k : Key) (l : List Nat), s.loader.batch k = some l → l ≠ []
  sleeper_entry : ∀ (d : Nat) (j : BatchJob α), s.jobs[d]? = some j → j.pc = BatchPC.sleeping →
    s.loader.batch j.id ≠ none
  sleeper_unique : ∀ (d1 d2 : Nat) (j1 j2 : BatchJob α), s.jobs[d1]? = some j1 →
    s.jobs[d2]? = some j2 → j1.pc = BatchPC.sleeping → j2.pc = BatchPC.sleeping →
    j1.id = j2.id → d1 = d2
  entry_sleeper : ∀ k : Key, s.loader.batch k ≠ none →
    ∃ (d : Nat) (j : BatchJob α), s.jobs[d]? = some j ∧ j.pc = BatchPC.sleeping ∧ j.id = k

/-- The fetch log against the jobs: a job is in the log exactly once it has passed its
`GetByID` call, under its own key, and never twice. -/
structure FetchLogOk {α : Type} (s : State α) : Prop where
  logged_job : ∀ (d : Nat) (k : Key), (d, k) ∈ s.fetchLog →
    ∃ j : BatchJob α, s.jobs[d]? = some j ∧ j.id = k ∧
      j.pc ≠ BatchPC.sleeping ∧ j.pc ≠ BatchPC.drained
  logged_once : (s.fetchLog.map Prod.fst).Nodup
  job_logged : ∀ (d : Nat) (j : BatchJob α), s.jobs[d]? = some j →
    j.pc ≠ BatchPC.sleeping → j.pc ≠ BatchPC.drained → (d, j.id) ∈ s.fetchLog

/-! ## Measures and sample states -/

/-- The number of `startBatch` goroutines of key `k` that have not yet woken up. -/
def State.sleeping {α : Type} (s : State α) (k : Key) : Nat :=
  s.jobs.countP fun j => decide (j.id = k) && decide (j.pc = BatchPC.sleeping)

/-- The number of `GetByID(k)` invocations that have been made and have not yet returned. -/
def State.inFlight {α : Type} (s : State α) (k : Key) : Nat :=
  s.jobs.countP fun j => decide (j.id = k) && decide (j.pc = BatchPC.fetching)

/-- The `GetByID` invocations made by `startBatch` job `d`. -/
def State.fetchesOf {α : Type} (s : State α) (d : Nat) : List (Nat × Key) :=
  s.fetchLog.filter fun e => decide (e.1 = d)

/-- Two `Load("u1")` calls have registered and their `startBatch` still sleeps. -/
def twoWaiting : State Nat :=
  (run (State.init Nat)
    [Event.Load "u1", Event.Load "u1", Event.enqueue 0, Event.enqueue 1]).getD (State.init Nat)

/-- The two calls of `twoWaiting` after their `startBatch` has fetched user 7 and served both. -/
def twoServed : State Nat :=
  (run twoWaiting
    [Event.drain 0, Event.fetchCall 0, Event.fetchReturn 0 ⟨some 7, none⟩, Event.cacheResult 0,
      Event.send 0, Event.close 0, Event.send 0, Event.close 0,
      Event.receive 0, Event.receive 1]).getD (State.init Nat)

/-- One `Load("u1")` call has registered, a second one has checked the cache and not yet
registered. -/
def oneWaiting : State Nat :=
  (run (State.init Nat)
    [Event.Load "u1", Event.Load "u1", Event.enqueue 0]).getD (State.init Nat)

/-! ## Blocked callers -/

/-- A `Load` call that blocks on its channel (registered, no result yet). -/
def LoadPC.isWaiting {α : Type} : LoadPC α → Bool
  | LoadPC.waiting => true
  | _ => false

/-- Every blocked call is held: its channel sits in the pending list of its key or in the
detached slice of a job. -/
def Held {α : Type} (s : State α) : Prop :=
  ∀ (t : Nat) (c : LoadCall α), s.calls[t]? = some c → c.pc = LoadPC.waiting →
    t ∈ s.loader.pending c.id ∨ ∃ (d : Nat) (j : BatchJob α), s.jobs[d]? = some j ∧ t ∈ j.batch

/-- The `Load(k)` callers that are registered and have not yet received their result. -/
def State.waiters {α : Type} (s : State α) (k : Key) : List Nat :=
  (List.range s.calls.length).filter fun t =>
    match s.calls[t]? with
    | some c => decide (c.id = k) && c.pc.isWaiting
    | none => false

/-- Whether some `startBatch` has detached the channel of call `t` from the pending table. -/
def State.detached {α : Type} (s : State α) (t : Nat) : Bool :=
  s.jobs.any fun j => j.batch.contains t

/-! ## Schedules and late arrivals -/

/-- The schedule of `n` calls `Load(k)` that each miss the cache and register, one after the
other, while no `startBatch` wakes up; `t` is the number of the first call. -/
def loadsBeforeDrain (α : Type) (k : Key) : Nat → Nat → List (Event α)
  | _, 0 => []
  | t, n + 1 => Event.Load k :: Event.enqueue t :: loadsBeforeDrain α k (t + 1) n

/-- Job `d1` of key `k` is the one that serves channel `t`: while it sleeps the channel sits
in the pending list of `k`, once it has drained the channel is in its detached slice. -/
def Serves {α : Type} (s : State α) (d1 t : Nat) (k : Key) : Prop :=
  ∃ j1 : BatchJob α, s.jobs[d1]? = some j1 ∧ j1.id = k ∧
    ((j1.pc = BatchPC.sleeping ∧ t ∈ s.loader.pending k) ∨
      (j1.pc ≠ BatchPC.sleeping ∧ t ∈ j1.batch))

/-- Job 0 has drained the pending list `[0]` of `u1`, and a second `Load("u1")` has missed
the cache and not yet registered. -/
def drainedOne : State Nat :=
  (run (State.init Nat)
    [Event.Load "u1", Event.enqueue 0, Event.drain 0, Event.Load "u1"]).getD (State.init Nat)

/-- The second call of `drainedOne` has registered, after the drain of job 0. -/
def lateRegistered : State Nat :=
  (run drainedOne [Event.enqueue 1]).getD (State.init Nat)

/-! ## The loaders in the request context (`dataloaders.go`, `server.go`) -/

/-- A key of `context.WithValue`: a value of the unexported string type `contextKey` of
package `dataloaders`, or a key of some other type, which equals no `contextKey`. -/
inductive CtxKey where
  | contextKey : String → CtxKey
  | foreign : String → CtxKey
  deriving DecidableEq, Repr

/-- The key under which the loaders travel: `contextKey("dataloaders")`. -/
def loadersKey : CtxKey := CtxKey.contextKey "dataloaders"

/-- A value stored in a context, by its dynamic type: a `*Loaders` (the address of a
`Loaders` object, or the nil pointer `none`), or a value of another type. -/
inductive CtxValue where
  | loaders : Option Nat → CtxValue
  | other : String → CtxValue
  deriving DecidableEq, Repr

/-- A `context.Context` as far as its values go: the pairs `context.WithValue` has added,
newest first. -/
structure Context where
  values : List (CtxKey × CtxValue)
  deriving DecidableEq, Repr

/-- `context.WithValue(parent, key, val)`. -/
def WithValue (parent : Context) (key : CtxKey) (val : CtxValue) : Context :=
  ⟨(key, val) :: parent.values⟩

/-- `ctx.Value(key)`: the newest value stored under `key`; `none` is the nil interface. -/
def Context.Value (ctx : Context) (key : CtxKey) : Option CtxValue :=
  (ctx.values.find? fun p => decide (p.1 = key)).map Prod.snd

/-- The `Loaders` struct with the two loaders it points to (each with its goroutines) and
the repository each loader was built on. -/
structure Loaders (υ π : Type) where
  UserLoader : State υ
  userRepo : Fetcher υ
  ProductLoader : State π
  productRepo : Fetcher π

/-- The `Loaders` objects allocated so far; a `*Loaders` is an index into this list. -/
abbrev Heap (υ π : Type) := List (Loaders υ π)

/-- `NewLoaders`: allocates one `Loaders` with a fresh loader per entity kind and returns its
address. -/
def NewLoaders {υ π : Type} (userRepo : Fetcher υ) (productRepo : Fetcher π) (h : Heap υ π) :
    Heap υ π × Option Nat :=
  (h ++ [⟨State.init υ, userRepo, State.init π, productRepo⟩], some h.length)

/-- An `http.Request` as far as the middleware goes: its context, and the rest of it. -/
structure Request where
  ctx : Context
  rest : String
  deriving DecidableEq, Repr

/-- `r.Context()`. -/
def Request.Context (r : Request) : Context := r.ctx

/-- `r.WithContext(ctx)`. -/
def Request.WithContext (r : Request) (ctx : Dataloaders.Context) : Request :=
  { r with ctx := ctx }

/-- An `http.Handler`, by what `ServeHTTP` does with a request. -/
abbrev Handler (β : Type) := Request → β

/-- `Middleware(loaders)(next)`: stores the pointer under `loadersKey` in the context of the
request and hands the request on. -/
def Middleware {β : Type} (loaders : Option Nat) (next : Handler β) : Handler β :=
  fun r =>
    let ctx := WithValue r.Context loadersKey (CtxValue.loaders loaders)
    next (r.WithContext ctx)

/-- `FromContext`: the type assertion `ctx.Value(loadersKey).(*Loaders)`; when it fails the
function panics, which is the `error` here. -/
def FromContext (ctx : Context) : Except String (Option Nat) :=
  match ctx.Value loadersKey with
  | some (CtxValue.loaders loaders) => Except.ok loaders
  | _ => Except.error "dataloaders not found in context"

/-- Dereferencing a `*Loaders`; the nil pointer panics. -/
def Heap.deref {υ π : Type} (h : Heap υ π) (loaders : Option Nat) :
    Except String (Nat × Loaders υ π) :=
  match loaders with
  | some a =>
      match h[a]? with
      | some l => Except.ok (a, l)
      | none => Except.error "invalid memory address or nil pointer dereference"
  | none => Except.error "invalid memory address or nil pointer dereference"

/-- `GetUser`: `FromContext(ctx)`, then `loaders.UserLoader.Load(ctx, id)`.  A panic is an
`error`; `none` is a `Load` that does not return. -/
def GetUser {υ π : Type} (h : Heap υ π) (ctx : Context) (id : Key) :
    Except String (Option (Heap υ π × userResult υ)) :=
  match FromContext ctx with
  | Except.error e => Except.error e
  | Except.ok loaders =>
      match h.deref loaders with
      | Except.error e => Except.error e
      | Except.ok (a, l) =>
          Except.ok ((Load l.userRepo l.UserLoader id).map fun q =>
            (h.set a { l with UserLoader := q.1 }, q.2))

/-- `GetProduct`: `FromContext(ctx)`, then `loaders.ProductLoader.Load(ctx, id)`. -/
def GetProduct {υ π : Type} (h : Heap υ π) (ctx : Context) (id : Key) :
    Except String (Option (Heap υ π × productResult π)) :=
  match FromContext ctx with
  | Except.error e => Except.error e
  | Except.ok loaders =>
      match h.deref loaders with
      | Except.error e => Except.error e
      | Except.ok (a, l) =>
          Except.ok ((Load l.productRepo l.ProductLoader id).map fun q =>
            (h.set a { l with ProductLoader := q.1 }, q.2))

/-- `GetUsers`: `FromContext(ctx)`, then `loaders.UserLoader.LoadMany(ctx, ids)`. -/
def GetUsers {υ π : Type} (h : Heap υ π) (ctx : Context) (ids : List Key) :
    Except String (Option (Heap υ π × List (Option υ) × List (Option String))) :=
  match FromContext ctx with
  | Except.error e => Except.error e
  | Except.ok loaders =>
      match h.deref loaders with
      | Except.error e => Except.error e
      | Except.ok (a, l) =>
          Except.ok ((LoadMany l.userRepo l.UserLoader ids).map fun q =>
            (h.set a { l with UserLoader := q.1 }, q.2))

/-- `GetProducts`: `FromContext(ctx)`, then `loaders.ProductLoader.LoadMany(ctx, ids)`. -/
def GetProducts {υ π : Type} (h : Heap υ π) (ctx : Context) (ids : List Key) :
    Except String (Option (Heap υ π × List (Option π) × List (Option String))) :=
  match FromContext ctx with
  | Except.error e => Except.error e
  | Except.ok loaders =>
      match h.deref loaders with
      | Except.error e => Except.error e
      | Except.ok (a, l) =>
          Except.ok ((LoadMany l.productRepo l.ProductLoader ids).map fun q =>
            (h.set a { l with ProductLoader := q.1 }, q.2))

/-- The `Server` of `server.go`, its GraphQL handler only. -/
structure Server (β : Type) where
  handler : Handler β

/-- `NewServer`: one call of `NewLoaders`, whose pointer goes to the resolver (and so to the
GraphQL handler `gqlHandler` built on it) and to `Middleware`, which wraps that handler. -/
def NewServer {υ π β : Type} (userRepo : Fetcher υ) (productRepo : Fetcher π)
    (gqlHandler : Option Nat → Handler β) (h : Heap υ π) : Heap υ π × Server β :=
  let p := NewLoaders userRepo productRepo h
  (p.1, ⟨Middleware p.2 (gqlHandler p.2)⟩)

/-- `ServeHTTP` of the server: `s.handler.ServeHTTP(w, r)`. -/
def Server.ServeHTTP {β : Type} (s : Server β) (r : Request) : β := s.handler r

/-- The number of `GetByID` calls each user loader of the heap has made. -/
def Heap.userFetches {υ π : Type} (h : Heap υ π) : List Nat :=
  h.map fun l => l.UserLoader.fetchLog.length

/-- A server on an empty heap whose GraphQL handler answers with the context it is served. -/
def sampleServer : Heap Nat Nat × Server Context :=
  NewServer (fun _ _ => ⟨some 7, none⟩) (fun _ _ => ⟨some 8, none⟩) (fun _ r => r.Context) []

/-- The heap a call has left behind (the empty heap when it has not returned). -/
def heapAfter {υ π β : Type} (x : Except String (Option (Heap υ π × β))) : Heap υ π :=
  match x with
  | Except.ok (some q) => q.1
  | _ => []

/-- What a call has returned and how many fetches each user loader has made by then. -/
def observed {υ π β : Type} (x : Except String (Option (Heap υ π × β))) :
    Option (β × List Nat) :=
  match x with
  | Except.ok (some q) => some (q.2, q.1.userFetches)
  | _ => none

end Dataloaders

namespace UserRepository

/-! ## The user repository (`internal/user/repository.go`) -/

/-- The `User` domain model of package `user`; a `time.Time` is a number of nanoseconds. -/
structure User where
  ID : String
  Name : String
  Email : String
  Phone : String
  CreatedAt : Nat
  UpdatedAt : Nat
  deriving DecidableEq, Repr

/-- The two error values of the package. -/
inductive Err where
  | ErrUserNotFound : Err
  | ErrUserAlreadyExists : Err
  deriving DecidableEq, Repr

/-- The `InMemoryRepository` without its lock: `users` is `map[string]*User`, kept as the
list of its key-value pairs.  A stored user is kept by value: a caller builds a `User` for
one call and does not write to it afterwards (as `Service` does). -/
structure InMemoryRepository where
  users : List (String × User)
  deriving DecidableEq, Repr

/-- `NewInMemoryRepository`: the empty map. -/
def NewInMemoryRepository : InMemoryRepository := ⟨[]⟩

/-- The map read `r.users[id]`. -/
def InMemoryRepository.get (r : InMemoryRepository) (id : String) : Option User :=
  (r.users.find? fun p => decide (p.1 = id)).map Prod.snd

/-- The map write `r.users[id] = user`. -/
def InMemoryRepository.put (r : InMemoryRepository) (id : String) (user : User) :
    InMemoryRepository :=
  ⟨(id, user) :: r.users.filter fun p => decide (p.1 ≠ id)⟩

/-- The map delete `delete(r.users, id)`. -/
def InMemoryRepository.remove (r : InMemoryRepository) (id : String) : InMemoryRepository :=
  ⟨r.users.filter fun p => decide (p.1 ≠ id)⟩

/-- `Create` (lines 50-76): the repository after the call and what the call returns; `uuid`
is what `uuid.New().String()` yields, `now` what `time.Now()` yields. -/
def Create (r : InMemoryRepository) (user : User) (uuid : String) (now : Nat) :
    InMemoryRepository × Except Err User :=
  if r.users.any (fun p => decide (p.2.Email = user.Email)) then
    (r, Except.error Err.ErrUserAlreadyExists)
  else
    let user1 := if user.ID = "" then { user with ID := uuid } else user
    let user2 := { user1 with CreatedAt := now, UpdatedAt := now }
    (r.put user2.ID user2, Except.ok user2)

/-- `Update` (lines 105-132). -/
def Update (r : InMemoryRepository) (user : User) (now : Nat) :
    InMemoryRepository × Except Err User :=
  match r.get user.ID with
  | none => (r, Except.error Err.ErrUserNotFound)
  | some existingUser =>
      if user.Email ≠ existingUser.Email ∧
          r.users.any (fun p => decide (p.2.ID ≠ user.ID) && decide (p.2.Email = user.Email))
      then (r, Except.error Err.ErrUserAlreadyExists)
      else
        let user1 := { user with CreatedAt := existingUser.CreatedAt, UpdatedAt := now }
        (r.put user.ID user1, Except.ok user1)

/-- `Delete` (lines 134-145): the repository after the call and the error, nil or not. -/
def Delete (r : InMemoryRepository) (id : String) : InMemoryRepository × Option Err :=
  match r.get id with
  | none => (r, some Err.ErrUserNotFound)
  | some _ => (r.remove id, none)

/-- One call on the repository, with what the clock and the id generator yield in it. -/
inductive Call where
  | Create : User → String → Nat → Call
  | Update : User → Nat → Call
  | Delete : String → Call
  deriving DecidableEq, Repr

/-- The repository after a call. -/
def Call.run (r : InMemoryRepository) : Call → InMemoryRepository
  | Call.Create user uuid now => (UserRepository.Create r user uuid now).1
  | Call.Update user now => (UserRepository.Update r user now).1
  | Call.Delete id => (UserRepository.Delete r id).1

/-- The repository after a sequence of calls on `NewInMemoryRepository()`, oldest first. -/
def runCalls (calls : List Call) : InMemoryRepository :=
  calls.foldl Call.run NewInMemoryRepository

/-- The map is a map, every user is stored under its own `ID`, and no two stored users have
the same `Email`. -/
structure Consistent (r : InMemoryRepository) : Prop where
  keys_nodup : (r.users.map Prod.fst).Nodup
  key_is_id : ∀ p ∈ r.users, p.2.ID = p.1
  emails_nodup : (r.users.map fun p => p.2.Email).Nodup

end UserRepository

/-! ## Go integers, floats, maps and slices -/

namespace Golang

/-- The value a signed integer of `bits` bits holds after an operation whose exact result is
`x`: Go wraps around on overflow (two's complement). -/
def wrap (bits : Nat) (x : Int) : Int :=
  (x + 2 ^ (bits - 1)) % 2 ^ bits - 2 ^ (bits - 1)

/-- The values of a signed integer type of `bits` bits. -/
def InRange (bits : Nat) (x : Int) : Prop :=
  -(2 ^ (bits - 1)) ≤ x ∧ x < 2 ^ (bits - 1)

/-- A `float64`, by its 64 bits; where the code computes with floats the operations are
parameters. -/
structure float64 where
  bits : Nat
  deriving DecidableEq, Repr

/-- The map read `m[key]` on a `map[string]*T` kept as the list of its pairs. -/
def mapGet {β : Type} (m : List (String × β)) (key : String) : Option β :=
  (m.find? fun p => decide (p.1 = key)).map Prod.snd

/-- The map write `m[key] = v`. -/
def mapPut {β : Type} (m : List (String × β)) (key : String) (v : β) : List (String × β) :=
  (key, v) :: m.filter fun p => decide (p.1 ≠ key)

/-- The map delete `delete(m, key)`. -/
def mapDelete {β : Type} (m : List (String × β)) (key : String) : List (String × β) :=
  m.filter fun p => decide (p.1 ≠ key)

end Golang

/-! ## The product repository and service (`internal/product`) -/

namespace ProductRepository

open Golang

/-- The `Product` domain model of package `product`; `Stock` is an `int32`, a `time.Time` is
a number of nanoseconds. -/
structure Product where
  ID : String
  Name : String
  Description : String
  Price : float64
  Stock : Int
  Category : String
  CreatedAt : Nat
  UpdatedAt : Nat
  deriving DecidableEq, Repr

/-- The error values of the package. -/
inductive Err where
  | ErrProductNotFound : Err
  | ErrProductAlreadyExists : Err
  | ErrInsufficientStock : Err
  deriving DecidableEq, Repr

/-- The `InMemoryRepository` of package `product` without its lock: `products` is
`map[string]*Product`, kept as the list of its pairs. -/
structure InMemoryRepository where
  products : List (String × Product)
  deriving DecidableEq, Repr

/-- `UpdateStock` of the repository (lines 158-182): the repository after the call and what
the call returns; `now` is what `time.Now()` yields.  The sum is an `int32` sum. -/
def UpdateStock (r : InMemoryRepository) (productID : String) (quantity : Int) (now : Nat) :
    InMemoryRepository × Except Err Product :=
  match mapGet r.products productID with
  | none => (r, Except.error Err.ErrProductNotFound)
  | some product =>
      let newStock := wrap 32 (product.Stock + quantity)
      if newStock < 0 then (r, Except.error Err.ErrInsufficientStock)
      else
        let updatedProduct := { product with Stock := newStock, UpdatedAt := now }
        (⟨mapPut r.products productID updatedProduct⟩, Except.ok updatedProduct)

/-- `Service.UpdateStock` (lines 96-102 of `service.go`). -/
def Service.UpdateStock (r : InMemoryRepository) (productID : String) (quantity : Int)
    (now : Nat) : InMemoryRepository × Except Err Product :=
  if productID = "" then (r, Except.error Err.ErrProductNotFound)
  else ProductRepository.UpdateStock r productID quantity now

/-- A repository that holds one product, with the largest `int32` as its stock. -/
def fullShelf : InMemoryRepository :=
  ⟨[("p1", ⟨"p1", "pen", "a pen", ⟨0⟩, 2147483647, "office", 5, 5⟩)]⟩

end ProductRepository

namespace Golang

/-- A Go slice `[]T`, by its elements. -/
abbrev Slice (β : Type) := List β

/-- The slice expression `s[low:high]`; out-of-range indices panic, which is the `error`.
The bound on `high` is the length: an index between length and capacity, which Go accepts,
does not arise where the callers clamp `high` to the length. -/
def slice {β : Type} (s : List β) (low high : Int) : Except String (List β) :=
  if 0 ≤ low ∧ low ≤ high ∧ high ≤ s.length then
    Except.ok ((s.drop low.toNat).take (high - low).toNat)
  else Except.error "slice bounds out of range"

end Golang

/-! ## Pagination in the services and the repositories -/

namespace Paging

open Golang

/-- The arguments the four listing services pass to their repository, `(offset, limit)`:
the text shared by `ListUsers` (lines 75-88), `ListProducts` (lines 79-92), `ListOrders`
(lines 176-189) and `ListOrdersByUser` (lines 157-170), on `int`s of `bits` bits. -/
def window (bits : Nat) (page pageSize : Int) : Int × Int :=
  let pageSize := if pageSize ≤ 0 then 10 else pageSize
  let pageSize := if pageSize > 100 then 100 else pageSize
  let page := if page ≤ 0 then 1 else page
  let offset := wrap bits (wrap bits (page - 1) * pageSize)
  (offset, pageSize)

/-- The pagination the four repository listings end with, on the slice `items` they have
collected: `total`, `start`, `end`, and the slice expression, on `int`s of `bits` bits. -/
def paginate {β : Type} (bits : Nat) (items : List β) (offset limit : Int) :
    Except String (List β × Int) :=
  let total : Int := items.length
  let start := if offset > total then total else offset
  let end_ := wrap bits (start + limit)
  let end_ := if end_ > total then total else end_
  if start ≥ total then Except.ok ([], total)
  else (slice items start end_).map fun page => (page, total)

/-- What the listings are claimed to return, for the stored pairs `stored`, the filter
`keep`, an offset and a limit: `limit` items or as many as are left after `offset`, each a
stored item that passes the filter, none twice, and the number of stored items that pass the
filter. -/
def Correct {β : Type} (stored : List (String × β)) (keep : β → Bool) (offset limit : Int)
    (out : Except String (List β × Int)) : Prop :=
  ∃ (entries : List (String × β)) (total : Int),
    out = Except.ok (entries.map Prod.snd, total) ∧
    total = ((stored.filter fun p => keep p.2).length : Int) ∧
    (entries.length : Int) = min limit (max 0 (total - offset)) ∧
    entries.Sublist stored ∧ (∀ e ∈ entries, keep e.2 = true) ∧
    (entries.map Prod.fst).Nodup

end Paging

namespace UserRepository

/-- `List` of the user repository (lines 147-176); the order of `r.users` is the order in
which `range` yields the entries in this call, which Go leaves open. -/
def InMemoryRepository.List (bits : Nat) (r : InMemoryRepository) (offset limit : Int) :
    Except String (Golang.Slice User × Int) :=
  Paging.paginate bits (r.users.map Prod.snd) offset limit

/-- `Service.ListUsers` (lines 73-90 of `service.go`). -/
def ListUsers (bits : Nat) (r : InMemoryRepository) (page pageSize : Int) :
    Except String (Golang.Slice User × Int) :=
  r.List bits (Paging.window bits page pageSize).1
    (Paging.window bits page pageSize).2

end UserRepository

namespace ProductRepository

/-- `List` of the product repository (lines 125-156), with the optional category filter. -/
def InMemoryRepository.List (bits : Nat) (r : InMemoryRepository) (offset limit : Int)
    (category : String) :
    Except String (Golang.Slice Product × Int) :=
  Paging.paginate bits
    ((r.products.map Prod.snd).filter fun product =>
      decide (category = "") || decide (product.Category = category)) offset limit

/-- `Service.ListProducts` (lines 77-94 of `service.go`). -/
def ListProducts (bits : Nat) (r : InMemoryRepository) (page pageSize : Int)
    (category : String) : Except String (Golang.Slice Product × Int) :=
  r.List bits (Paging.window bits page pageSize).1
    (Paging.window bits page pageSize).2 category

end ProductRepository

/-! ## The order repository and service (`internal/order`) -/

namespace OrderRepository

open Golang

/-- `OrderStatus` is an `int32`. -/
abbrev OrderStatus := Int

/-- `OrderStatusUnspecified`. -/
def OrderStatusUnspecified : OrderStatus := 0
/-- `OrderStatusPending`. -/
def OrderStatusPending : OrderStatus := 1
/-- `OrderStatusConfirmed`. -/
def OrderStatusConfirmed : OrderStatus := 2
/-- `OrderStatusProcessing`. -/
def OrderStatusProcessing : OrderStatus := 3
/-- `OrderStatusShipped`. -/
def OrderStatusShipped : OrderStatus := 4
/-- `OrderStatusDelivered`. -/
def OrderStatusDelivered : OrderStatus := 5
/-- `OrderStatusCancelled`. -/
def OrderStatusCancelled : OrderStatus := 6

/-- An `OrderItem`; `Quantity` is an `int32`. -/
structure OrderItem where
  ID : String
  ProductID : String
  ProductName : String
  ProductPrice : float64
  Quantity : Int
  Total : float64
  deriving DecidableEq, Repr

/-- The `Order` domain model, its items by value. -/
structure Order where
  ID : String
  UserID : String
  Items : List OrderItem
  TotalAmount : float64
  Status : OrderStatus
  CreatedAt : Nat
  UpdatedAt : Nat
  deriving DecidableEq, Repr

/-- The error values of the package. -/
inductive Err where
  | ErrOrderNotFound : Err
  | ErrOrderAlreadyExists : Err
  deriving DecidableEq, Repr

/-- The `InMemoryRepository` of package `order` without its lock: `orders` is
`map[string]*Order`, kept as the list of its pairs. -/
structure InMemoryRepository where
  orders : List (String × Order)
  deriving DecidableEq, Repr

/-- `UpdateStatus` (lines 119-138): the repository after the call and what the call returns;
`now` is what `time.Now()` yields. -/
def UpdateStatus (r : InMemoryRepository) (id : String) (status : OrderStatus) (now : Nat) :
    InMemoryRepository × Except Err Order :=
  match mapGet r.orders id with
  | none => (r, Except.error Err.ErrOrderNotFound)
  | some order =>
      let updatedOrder := { order with Status := status, UpdatedAt := now }
      (⟨mapPut r.orders id updatedOrder⟩, Except.ok updatedOrder)

/-- `ListByUser` (lines 140-171). -/
def InMemoryRepository.ListByUser (bits : Nat) (r : InMemoryRepository) (userID : String)
    (offset limit : Int) :
    Except String (Golang.Slice Order × Int) :=
  Paging.paginate bits
    ((r.orders.map Prod.snd).filter fun order => decide (order.UserID = userID)) offset limit

/-- `List` of the order repository (lines 173-204), with the optional status filter. -/
def InMemoryRepository.List (bits : Nat) (r : InMemoryRepository) (offset limit : Int)
    (status : OrderStatus) :
    Except String (Golang.Slice Order × Int) :=
  Paging.paginate bits
    ((r.orders.map Prod.snd).filter fun order =>
      decide (status = OrderStatusUnspecified) || decide (order.Status = status)) offset limit

/-- `Service.ListOrdersByUser` (lines 151-172 of `service.go`): `none` is the validation
error "user ID is required", returned before the repository is called. -/
def ListOrdersByUser (bits : Nat) (r : InMemoryRepository) (userID : String)
    (page pageSize : Int) : Option (Except String (Golang.Slice Order × Int)) :=
  if userID = "" then none
  else some (r.ListByUser bits userID (Paging.window bits page pageSize).1
    (Paging.window bits page pageSize).2)

/-- `Service.ListOrders` (lines 174-191 of `service.go`). -/
def ListOrders (bits : Nat) (r : InMemoryRepository) (page pageSize : Int)
    (status : OrderStatus) : Except String (Golang.Slice Order × Int) :=
  r.List bits (Paging.window bits page pageSize).1
    (Paging.window bits page pageSize).2 status

end OrderRepository

namespace Paging

open Golang

/-- The limit the services are claimed to pass: 10 for a page size of at most 0, 100 for one
above 100, the page size otherwise. -/
def claimedLimit (pageSize : Int) : Int :=
  if pageSize ≤ 0 then 10 else if pageSize > 100 then 100 else pageSize

/-- The offset the services are claimed to pass: `(p - 1) * limit` with `p = 1` for a page
of at most 0 and `p = page` otherwise. -/
def claimedOffset (page pageSize : Int) : Int :=
  ((if page ≤ 0 then 1 else page) - 1) * claimedLimit pageSize

/-- Two stored users. -/
def twoUsers : UserRepository.InMemoryRepository :=
  ⟨[("id-2", ⟨"id-2", "Bob", "bob@x.org", "2", 20, 20⟩),
    ("id-1", ⟨"id-1", "Ann", "ann@x.org", "1", 10, 10⟩)]⟩

/-- Two stored products, one of them in the category `office`. -/
def twoProducts : ProductRepository.InMemoryRepository :=
  ⟨[("p2", ⟨"p2", "cup", "a cup", ⟨0⟩, 3, "kitchen", 6, 6⟩),
    ("p1", ⟨"p1", "pen", "a pen", ⟨0⟩, 7, "office", 5, 5⟩)]⟩

/-- Two stored orders of one user, one pending and one shipped. -/
def twoOrders : OrderRepository.InMemoryRepository :=
  ⟨[("o2", ⟨"o2", "id-1", [], ⟨0⟩, 4, 8, 8⟩), ("o1", ⟨"o1", "id-1", [], ⟨0⟩, 1, 7, 7⟩)]⟩

end Paging

namespace OrderRepository

open Golang

/-- `Create` of the order repository (lines 73-104): the repository after the call and what
the call returns; `uuid` and `itemIDs i` are what `uuid.New().String()` yields for the order
and for the item at index `i`, `now` what `time.Now()` yields. -/
def Create (r : InMemoryRepository) (order : Order) (uuid : String) (itemIDs : Nat → String)
    (now : Nat) : InMemoryRepository × Except Err Order :=
  let order := if order.ID = "" then { order with ID := uuid } else order
  let items := List.zipWith
    (fun i (item : OrderItem) => if item.ID = "" then { item with ID := itemIDs i } else item)
    (List.range order.Items.length) order.Items
  match mapGet r.orders order.ID with
  | some _ => (r, Except.error Err.ErrOrderAlreadyExists)
  | none =>
      let order := { order with Items := items, CreatedAt := now, UpdatedAt := now }
      (⟨mapPut r.orders order.ID order⟩, Except.ok order)

/-- An `OrderItemRequest`; `Quantity` is an `int32`. -/
structure OrderItemRequest where
  ProductID : String
  Quantity : Int
  deriving DecidableEq, Repr

/-- An error of a gRPC client, by what `status.Code` yields for it and its text. -/
structure ClientErr where
  code : Nat
  message : String
  deriving DecidableEq, Repr

/-- `codes.NotFound`. -/
def NotFound : Nat := 5

/-- The fields of `productpb.Product` that `CreateOrder` reads (the generated package is not
among the sources); `Stock` is an `int32`. -/
structure pbProduct where
  Id : String
  Name : String
  Price : float64
  Stock : Int
  deriving DecidableEq, Repr

/-- The two clients of the service and the float operations it uses: `GetUser` by user id,
`GetProduct` by the number of `GetProduct` calls made before in this `CreateOrder` and the
product id (so that the product service may answer anything, each time), the product of two
floats, their sum and the conversion `float64(q)` of an `int32`. -/
structure Clients where
  GetUser : String → Except ClientErr Unit
  GetProduct : Nat → String → Except ClientErr pbProduct
  mul : float64 → float64 → float64
  add : float64 → float64 → float64
  ofInt32 : Int → float64

/-- The errors `CreateOrder` returns: a `ValidationError` with its message, or one of the
three wrapped errors. -/
inductive CreateErr where
  | ValidationError : String → CreateErr
  | verifyUser : ClientErr → CreateErr
  | getProduct : ClientErr → CreateErr
  | createOrder : Err → CreateErr
  deriving DecidableEq, Repr

/-- What `CreateOrder` does to the world outside, in the order it does it: it has the
repository store an order, and it calls `UpdateStock` of the product service. -/
inductive Effect where
  | saved : String → Effect
  | UpdateStock : String → Int → Effect
  deriving DecidableEq, Repr

/-- The loop over the requested items (lines 60-100): `n` items have been processed,
`orderItems` and `totalAmount` are what they have left. -/
def processItems (c : Clients) :
    Nat → List OrderItemRequest → List OrderItem → float64 →
      Except CreateErr (List OrderItem × float64)
  | _, [], orderItems, totalAmount => Except.ok (orderItems, totalAmount)
  | n, itemReq :: items, orderItems, totalAmount =>
      if itemReq.ProductID = "" then
        Except.error (CreateErr.ValidationError "product ID is required for all items")
      else if itemReq.Quantity ≤ 0 then
        Except.error (CreateErr.ValidationError "quantity must be greater than 0")
      else
        match c.GetProduct n itemReq.ProductID with
        | Except.error err =>
            if err.code = NotFound then
              Except.error (CreateErr.ValidationError
                ("product " ++ itemReq.ProductID ++ " not found"))
            else Except.error (CreateErr.getProduct err)
        | Except.ok product =>
            if product.Stock < itemReq.Quantity then
              Except.error (CreateErr.ValidationError
                ("insufficient stock for product " ++ product.Name))
            else
              let itemTotal := c.mul product.Price (c.ofInt32 itemReq.Quantity)
              processItems c (n + 1) items
                (orderItems ++ [⟨"", product.Id, product.Name, product.Price,
                  itemReq.Quantity, itemTotal⟩])
                (c.add totalAmount itemTotal)

/-- What a call of `CreateOrder` leaves: the repository, the effects in their order, and the
result. -/
structure Outcome where
  repo : InMemoryRepository
  effects : List Effect
  result : Except CreateErr Order

/-- `Service.CreateOrder` (lines 34-127 of `service.go`) on the in-memory repository.  What
an `UpdateStock` call returns is logged and dropped by the code, so only the call is kept. -/
def CreateOrder (r : InMemoryRepository) (c : Clients) (userID : String)
    (items : List OrderItemRequest) (uuid : String) (itemIDs : Nat → String) (now : Nat) :
    Outcome :=
  if userID = "" then ⟨r, [], Except.error (CreateErr.ValidationError "user ID is required")⟩
  else if items.length = 0 then
    ⟨r, [], Except.error (CreateErr.ValidationError "at least one item is required")⟩
  else
    match c.GetUser userID with
    | Except.error err =>
        if err.code = NotFound then
          ⟨r, [], Except.error (CreateErr.ValidationError "user not found")⟩
        else ⟨r, [], Except.error (CreateErr.verifyUser err)⟩
    | Except.ok _ =>
        match processItems c 0 items [] ⟨0⟩ with
        | Except.error err => ⟨r, [], Except.error err⟩
        | Except.ok (orderItems, totalAmount) =>
            match Create r ⟨"", userID, orderItems, totalAmount, OrderStatusPending, 0, 0⟩
                uuid itemIDs now with
            | (r1, Except.error err) => ⟨r1, [], Except.error (CreateErr.createOrder err)⟩
            | (r1, Except.ok savedOrder) =>
                ⟨r1, Effect.saved savedOrder.ID ::
                  orderItems.map (fun item =>
                    Effect.UpdateStock item.ProductID (wrap 32 (-item.Quantity))),
                  Except.ok savedOrder⟩

/-- The items a successful `CreateOrder` has checked: request `i` has a product id and a
positive quantity, the product service knew the product and had enough of it, and the order
holds the item with that product and quantity at index `i`. -/
def Checked (c : Clients) (items : List OrderItemRequest) (o : Order) : Prop :=
  o.Items.length = items.length ∧
  ∀ (i : Nat) (req : OrderItemRequest), items[i]? = some req →
    req.ProductID ≠ "" ∧ 0 < req.Quantity ∧
    ∃ p item, c.GetProduct i req.ProductID = Except.ok p ∧ req.Quantity ≤ p.Stock ∧
      o.Items[i]? = some item ∧ item.ProductID = p.Id ∧ item.Quantity = req.Quantity

/-- A product service that knows the product `p1` with a stock of 5, and a user service that
knows every user; floats are not computed with. -/
def sampleClients : Clients :=
  { GetUser := fun _ => Except.ok ()
    GetProduct := fun _ id =>
      if id = "p1" then Except.ok ⟨"p1", "pen", ⟨0⟩, 5⟩ else Except.error ⟨NotFound, "no"⟩
    mul := fun x _ => x
    add := fun x _ => x
    ofInt32 := fun _ => ⟨0⟩ }

end OrderRepository

namespace UserRepository

/-- `unicode.IsSpace`: the white space characters of Latin-1 and the other characters with
the Unicode property White_Space. -/
def isSpace (c : Char) : Bool :=
  c.toNat ∈ [0x09, 0x0A, 0x0B, 0x0C, 0x0D, 0x20, 0x85, 0xA0, 0x1680, 0x2028, 0x2029, 0x202F,
    0x205F, 0x3000] || (0x2000 ≤ c.toNat && c.toNat ≤ 0x200A)

/-- `strings.TrimSpace` on a string kept as the list of its characters: the leading and then
the trailing white space is cut off. -/
def TrimSpace (s : List Char) : List Char :=
  (((s.dropWhile isSpace).reverse).dropWhile isSpace).reverse

/-- `strings.Split(s, sep)` for a separator of one character. -/
def Split : List Char → Char → List (List Char)
  | [], _ => [[]]
  | c :: cs, sep =>
      if c = sep then [] :: Split cs sep
      else
        match Split cs sep with
        | [] => [[c]]
        | part :: parts => (c :: part) :: parts

/-- `strings.Contains(s, substr)` for a `substr` of one character. -/
def Contains (s : List Char) (c : Char) : Bool := decide (c ∈ s)

/-- `strings.ToLower`: every character goes through `unicode.ToLower`, the table `lower`. -/
def ToLower (lower : Char → Char) (s : List Char) : List Char := s.map lower

/-- `isValidEmail` (lines 113-135 of `service.go`). -/
def isValidEmail (email : List Char) : Bool :=
  let email := TrimSpace email
  if email = [] then false
  else
    let parts := Split email '@'
    if parts.length ≠ 2 then false
    else if (parts[0]?.getD []).length = 0 ∨ (parts[1]?.getD []).length = 0 then false
    else if !Contains (parts[1]?.getD []) '.' then false
    else true

/-- `validateUser` (lines 92-111): the message of the `ValidationError`, or `none` for nil. -/
def validateUser (name email phone : List Char) : Option String :=
  if TrimSpace name = [] then some "name is required"
  else if TrimSpace email = [] then some "email is required"
  else if !isValidEmail email then some "invalid email format"
  else if TrimSpace phone = [] then some "phone is required"
  else none

/-- `Service.CreateUser` (lines 20-34): the validation, then `Create` of the repository on
the trimmed fields, the email lower-cased as well; the error is the message of a
`ValidationError` or an error of the repository. -/
def CreateUser (lower : Char → Char) (r : InMemoryRepository) (name email phone : List Char)
    (uuid : String) (now : Nat) : InMemoryRepository × Except (String ⊕ Err) User :=
  match validateUser name email phone with
  | some message => (r, Except.error (Sum.inl message))
  | none =>
      match Create r
        ⟨"", String.mk (TrimSpace name), String.mk (ToLower lower (TrimSpace email)),
          String.mk (TrimSpace phone), 0, 0⟩ uuid now with
      | (r1, Except.error err) => (r1, Except.error (Sum.inr err))
      | (r1, Except.ok user) => (r1, Except.ok user)

/-- What an email is claimed to need: with the surrounding white space removed it contains
exactly one `@`, at least one character before it and at least one after it, and the part
after the `@` contains a `.`. -/
def WellFormedEmail (e : List Char) : Prop :=
  (TrimSpace e).count '@' = 1 ∧
    ∃ a b, TrimSpace e = a ++ '@' :: b ∧ a ≠ [] ∧ b ≠ [] ∧ '.' ∈ b

/-- What the proofs use of `unicode.ToLower`: it leaves `@` and `.` as they are, and it maps
no other character to `@` and no character that is not white space to white space. -/
structure LowerOk (lower : Char → Char) : Prop where
  at_fixed : lower '@' = '@'
  dot_fixed : lower '.' = '.'
  only_at : ∀ c, lower c = '@' → c = '@'
  no_space : ∀ c, isSpace c = false → isSpace (lower c) = false

/-- A string with no white space at either end. -/
def Trimmed (t : List Char) : Prop :=
  (∀ c, t.head? = some c → isSpace c = false) ∧
    ∀ c, t.reverse.head? = some c → isSpace c = false

end UserRepository

/-! ## The GraphQL converters (`internal/graphql/resolvers/converters.go`) -/

namespace Resolvers

open Golang

/-- The three constants of `models.StockStatus` that the converters name; the generated
package `models` is not among the sources, so its values are a parameter. -/
structure StockStatusNames (σ : Type) where
  StockStatusOutOfStock : σ
  StockStatusLowStock : σ
  StockStatusInStock : σ

/-- `getStockStatus` (lines 64-73 of `converters.go`) on an `int32` stock. -/
def getStockStatus {σ : Type} (m : StockStatusNames σ) (stock : Int) : σ :=
  if stock = 0 then m.StockStatusOutOfStock
  else if stock ≤ 10 then m.StockStatusLowStock
  else m.StockStatusInStock

/-- The fields of `models.Product` that `domainProductToGraphQL` fills. -/
structure Product (σ : Type) where
  ID : String
  Name : String
  Description : String
  Price : float64
  Stock : Int
  Category : String
  CreatedAt : String
  UpdatedAt : String
  IsInStock : Bool
  StockStatus : σ

/-- `domainProductToGraphQL` (lines 37-54): nil for nil; `format` is `time.Time.Format` with
the layout of the converters. -/
def domainProductToGraphQL {σ : Type} (m : StockStatusNames σ) (format : Nat → String)
    (p : Option ProductRepository.Product) : Option (Product σ) :=
  match p with
  | none => none
  | some p =>
      some
        { ID := p.ID
          Name := p.Name
          Description := p.Description
          Price := p.Price
          Stock := p.Stock
          Category := p.Category
          CreatedAt := format p.CreatedAt
          UpdatedAt := format p.UpdatedAt
          IsInStock := decide (p.Stock > 0)
          StockStatus := getStockStatus m p.Stock }

/-- The six constants of `models.OrderStatus` that the converters name; a parameter, as the
generated package `models` is not among the sources. -/
structure OrderStatusNames (σ : Type) where
  OrderStatusPending : σ
  OrderStatusConfirmed : σ
  OrderStatusProcessing : σ
  OrderStatusShipped : σ
  OrderStatusDelivered : σ
  OrderStatusCancelled : σ

/-- The constants in the order of the `case`s. -/
def OrderStatusNames.all {σ : Type} (m : OrderStatusNames σ) : List σ :=
  [m.OrderStatusPending, m.OrderStatusConfirmed, m.OrderStatusProcessing,
    m.OrderStatusShipped, m.OrderStatusDelivered, m.OrderStatusCancelled]

/-- `domainOrderStatusToGraphQL` (lines 122-139). -/
def domainOrderStatusToGraphQL {σ : Type} (m : OrderStatusNames σ)
    (status : OrderRepository.OrderStatus) : σ :=
  if status = OrderRepository.OrderStatusPending then m.OrderStatusPending
  else if status = OrderRepository.OrderStatusConfirmed then m.OrderStatusConfirmed
  else if status = OrderRepository.OrderStatusProcessing then m.OrderStatusProcessing
  else if status = OrderRepository.OrderStatusShipped then m.OrderStatusShipped
  else if status = OrderRepository.OrderStatusDelivered then m.OrderStatusDelivered
  else if status = OrderRepository.OrderStatusCancelled then m.OrderStatusCancelled
  else m.OrderStatusPending

/-- `graphQLOrderStatusToDomain` (lines 141-158). -/
def graphQLOrderStatusToDomain {σ : Type} [DecidableEq σ] (m : OrderStatusNames σ)
    (status : σ) : OrderRepository.OrderStatus :=
  if status = m.OrderStatusPending then OrderRepository.OrderStatusPending
  else if status = m.OrderStatusConfirmed then OrderRepository.OrderStatusConfirmed
  else if status = m.OrderStatusProcessing then OrderRepository.OrderStatusProcessing
  else if status = m.OrderStatusShipped then OrderRepository.OrderStatusShipped
  else if status = m.OrderStatusDelivered then OrderRepository.OrderStatusDelivered
  else if status = m.OrderStatusCancelled then OrderRepository.OrderStatusCancelled
  else OrderRepository.OrderStatusPending

/-- The names of the stock statuses as GraphQL enum values. -/
def stockNames : StockStatusNames String :=
  ⟨"OUT_OF_STOCK", "LOW_STOCK", "IN_STOCK"⟩

/-- The names of the order statuses as GraphQL enum values. -/
def orderNames : OrderStatusNames String :=
  ⟨"PENDING", "CONFIRMED", "PROCESSING", "SHIPPED", "DELIVERED", "CANCELLED"⟩

end Resolvers

/-! # Theorems -/

namespace Dataloaders

/-! ## Lists -/

theorem getElem?_set_some {β : Type} {l : List β} {i j : Nat} {a b : β}
    (h : (l.set i a)[j]? = some b) : (i = j ∧ b = a) ∨ (i ≠ j ∧ l[j]? = some b) := by
  rw [List.getElem?_set] at h
  by_cases hij : i = j
  · left
    rw [if_pos hij] at h
    split at h
    · exact ⟨hij, (Option.some.inj h).symm⟩
    · cases h
  · right
    rw [if_neg hij] at h
    exact ⟨hij, h⟩

theorem getElem?_snoc_some {β : Type} {l : List β} {j : Nat} {a b : β}
    (h : (l ++ [a])[j]? = some b) : l[j]? = some b ∨ (j = l.length ∧ b = a) := by
  rcases Nat.lt_trichotomy j l.length with hlt | heq | hgt
  · left; rwa [List.getElem?_append_left hlt] at h
  · right; subst heq; simp at h; exact ⟨rfl, h.symm⟩
  · rw [List.getElem?_append_right (Nat.le_of_lt hgt)] at h
    have : j - l.length ≠ 0 := by omega
    obtain ⟨m, hm⟩ := Nat.exists_eq_succ_of_ne_zero this
    rw [hm] at h
    simp at h

theorem getElem?_snoc_of_some {β : Type} {l : List β} {j : Nat} {a b : β}
    (h : l[j]? = some b) : (l ++ [a])[j]? = some b := by
  have hlt : j < l.length := by
    by_contra hge
    rw [List.getElem?_eq_none (Nat.le_of_not_lt hge)] at h
    cases h
  rw [List.getElem?_append_left hlt]; exact h

theorem lt_length_of_getElem? {β : Type} {l : List β} {j : Nat} {b : β}
    (h : l[j]? = some b) : j < l.length := by
  by_contra hge
  rw [List.getElem?_eq_none (Nat.le_of_not_lt hge)] at h
  cases h

/-! ## Appending and updating -/

theorem set_snoc_length {β : Type} (l : List β) (a b : β) :
    (l ++ [a]).set l.length b = l ++ [b] := by
  induction l with
  | nil => rfl
  | cons x xs ih => simp [List.set, ih]

theorem update_none_of_none {β : Type} (g : Key → Option β) (id : Key) (h : g id = none) :
    Function.update g id none = g := by
  rw [← h]; exact Function.update_eq_self id g

/-! ## A `Load` run alone -/

/-- A `Load` that finds its key in the cache returns the cached pointer and touches nothing
but its own call record. -/
theorem Load_hit {α : Type} (f : Fetcher α) (s : State α) (id : Key) (v : Option α)
    (h : s.loader.cache id = some v) :
    Load f s id =
      some ({ s with calls := s.calls ++ [⟨id, LoadPC.returned ⟨v, none⟩, none, false⟩] },
        ⟨v, none⟩) := by
  simp [Load, doLoad, h, State.outcome]

/-- A `Load` that misses the cache on a key with an empty pending list: one job is started,
fetches once, primes the cache on success and serves the call. -/
theorem Load_miss {α : Type} (f : Fetcher α) (s : State α) (id : Key)
    (h : s.loader.cache id = none) (hb : s.loader.pending id = []) :
    Load f s id = some (
      { loader :=
          if (f s.asked id).err.isNone then
            { s.loader with batch := Function.update s.loader.batch id none }.Prime id
              (f s.asked id).user
          else { s.loader with batch := Function.update s.loader.batch id none }
        calls := s.calls ++ [⟨id, LoadPC.returned (f s.asked id), none, true⟩]
        jobs := s.jobs ++ [⟨id, BatchPC.done, [s.calls.length], some (f s.asked id), 1⟩]
        fetchLog := s.fetchLog ++ [(s.jobs.length, id)]
        sendLog := s.sendLog ++ [(s.calls.length, f s.asked id)] }, f s.asked id) := by
  have hb1 : (s.loader.batch id).getD [] = [] := hb
  simp [Load, doLoad, h, State.outcome, doEnqueue, hb1, set_snoc_length, startBatch,
    doDrain, doFetchCall, doFetchReturn, doCacheResult, deliver, doSend, doClose, doReceive,
    loopPC, UserLoader.pending]

/-- A `Load` that misses the cache on a key whose pending list is not empty does not start a
job of its own, so it cannot finish alone. -/
theorem Load_joined {α : Type} (f : Fetcher α) (s : State α) (id : Key)
    (h : s.loader.cache id = none) (hb : s.loader.pending id ≠ []) :
    Load f s id = none := by
  have hl : ¬ (s.loader.batch id).getD [] = [] := hb
  simp [Load, doLoad, h, State.outcome, doEnqueue, set_snoc_length, startBatch, doDrain, hl,
    UserLoader.pending]

theorem pending_eq_nil_of_batch_none {α : Type} (l : UserLoader α) (id : Key)
    (h : l.batch id = none) : l.pending id = [] := by
  simp [UserLoader.pending, h]

/-- A finished solo `Load` leaves every key without pending entry without one. -/
theorem Load_batch_none {α : Type} (f : Fetcher α) (s s1 : State α) (id k : Key)
    (r : userResult α) (h : Load f s id = some (s1, r)) (hk : s.loader.batch k = none) :
    s1.loader.batch k = none := by
  cases hc : s.loader.cache id with
  | some v =>
      rw [Load_hit f s id v hc] at h
      simp only [Option.some.injEq, Prod.mk.injEq] at h
      rw [← h.1]; exact hk
  | none =>
      by_cases hb : s.loader.pending id = []
      · rw [Load_miss f s id hc hb] at h
        simp only [Option.some.injEq, Prod.mk.injEq] at h
        rw [← h.1]
        by_cases hki : k = id
        · subst hki; split <;> simp [UserLoader.Prime]
        · split <;> simp [UserLoader.Prime, Function.update, hki, hk]
      · rw [Load_joined f s id hc hb] at h
        cases h

/-- A solo `Load` is a schedule of the interleaving semantics: on a hit the one step of the
call, on a miss the call and the job it starts, each running its sections in program order
with nothing in between. -/
theorem Load_eq_run {α : Type} (f : Fetcher α) (s : State α) (id : Key)
    (hb : s.loader.pending id = []) :
    Load f s id =
      match s.loader.cache id with
      | some v => (run s [Event.Load id]).map fun s1 => (s1, ⟨v, none⟩)
      | none =>
          (run s [Event.Load id, Event.enqueue s.calls.length, Event.drain s.jobs.length,
            Event.fetchCall s.jobs.length, Event.fetchReturn s.jobs.length (f s.asked id),
            Event.cacheResult s.jobs.length, Event.send s.jobs.length,
            Event.close s.jobs.length, Event.receive s.calls.length]).map
            fun s1 => (s1, f s.asked id) := by
  cases hc : s.loader.cache id with
  | some v =>
      rw [Load_hit f s id v hc]
      simp [run, step, doLoad, hc]
  | none =>
      rw [Load_miss f s id hc hb]
      have hb1 : (s.loader.batch id).getD [] = [] := hb
      simp [run, step, doLoad, hc, doEnqueue, hb1, set_snoc_length, doDrain, doFetchCall,
        doFetchReturn, doCacheResult, doSend, doClose, doReceive, loopPC, UserLoader.pending]

/-! ## What a step that goes through says about the state before it -/

theorem doEnqueue_some {α : Type} {s s1 : State α} {t : Nat} (h : doEnqueue s t = some s1) :
    ∃ c, s.calls[t]? = some c ∧ c.pc = LoadPC.checked ∧
      s1 = { s with
        loader := { s.loader with
          batch := Function.update s.loader.batch c.id (some (s.loader.pending c.id ++ [t])) }
        calls := s.calls.set t { c with pc := LoadPC.waiting }
        jobs := if (s.loader.pending c.id ++ [t]).length = 1
          then s.jobs ++ [⟨c.id, BatchPC.sleeping, [], none, 0⟩] else s.jobs } := by
  unfold doEnqueue at h
  split at h
  · rename_i c hc
    split at h
    · rename_i hpc
      exact ⟨c, hc, hpc, (Option.some.inj h).symm⟩
    · cases h
  · cases h

theorem doReceive_some {α : Type} {s s1 : State α} {t : Nat} (h : doReceive s t = some s1) :
    ∃ c, s.calls[t]? = some c ∧ c.pc = LoadPC.waiting ∧
      ((∃ r, c.chan = some r ∧
          s1 = { s with calls := s.calls.set t { c with pc := LoadPC.returned r, chan := none } }) ∨
       (c.chan = none ∧ c.closed = true ∧
          s1 = { s with calls := s.calls.set t { c with pc := LoadPC.returned userResult.zero } })) := by
  unfold doReceive at h
  split at h
  · rename_i c hc
    split at h
    · rename_i hpc
      split at h
      · rename_i r hr
        exact ⟨c, hc, hpc, Or.inl ⟨r, hr, (Option.some.inj h).symm⟩⟩
      · rename_i hr
        split at h
        · rename_i hcl
          exact ⟨c, hc, hpc, Or.inr ⟨hr, hcl, (Option.some.inj h).symm⟩⟩
        · cases h
    · cases h
  · cases h

theorem doDrain_some {α : Type} {s s1 : State α} {d : Nat} (h : doDrain s d = some s1) :
    ∃ j, s.jobs[d]? = some j ∧ j.pc = BatchPC.sleeping ∧
      s1 = { s with
        loader := { s.loader with batch := Function.update s.loader.batch j.id none }
        jobs := s.jobs.set d { j with pc := BatchPC.drained, batch := s.loader.pending j.id } } := by
  unfold doDrain at h
  split at h
  · rename_i j hj
    split at h
    · rename_i hpc
      exact ⟨j, hj, hpc, (Option.some.inj h).symm⟩
    · cases h
  · cases h

theorem doFetchCall_some {α : Type} {s s1 : State α} {d : Nat} (h : doFetchCall s d = some s1) :
    ∃ j, s.jobs[d]? = some j ∧ j.pc = BatchPC.drained ∧
      s1 = { s with
        jobs := s.jobs.set d { j with pc := BatchPC.fetching }
        fetchLog := s.fetchLog ++ [(d, j.id)] } := by
  unfold doFetchCall at h
  split at h
  · rename_i j hj
    split at h
    · rename_i hpc
      exact ⟨j, hj, hpc, (Option.some.inj h).symm⟩
    · cases h
  · cases h

theorem doFetchReturn_some {α : Type} {s s1 : State α} {d : Nat} {r : userResult α}
    (h : doFetchReturn s d r = some s1) :
    ∃ j, s.jobs[d]? = some j ∧ j.pc = BatchPC.fetching ∧
      s1 = { s with jobs := s.jobs.set d { j with pc := BatchPC.fetched, result := some r } } := by
  unfold doFetchReturn at h
  split at h
  · rename_i j hj
    split at h
    · rename_i hpc
      exact ⟨j, hj, hpc, (Option.some.inj h).symm⟩
    · cases h
  · cases h

theorem doCacheResult_some {α : Type} {s s1 : State α} {d : Nat}
    (h : doCacheResult s d = some s1) :
    ∃ j r, s.jobs[d]? = some j ∧ j.pc = BatchPC.fetched ∧ j.result = some r ∧
      s1 = { s with
        loader := if r.err.isNone then s.loader.Prime j.id r.user else s.loader
        jobs := s.jobs.set d { j with pc := loopPC j.batch 0, i := 0 } } := by
  unfold doCacheResult at h
  split at h
  · rename_i j hj
    split at h
    · rename_i r hpc hr
      exact ⟨j, r, hj, hpc, hr, (Option.some.inj h).symm⟩
    · cases h
  · cases h

theorem doSend_some {α : Type} {s s1 : State α} {d : Nat} (h : doSend s d = some s1) :
    ∃ j r t c, s.jobs[d]? = some j ∧ j.pc = BatchPC.sending ∧ j.result = some r ∧
      j.batch[j.i]? = some t ∧ s.calls[t]? = some c ∧ c.chan = none ∧ c.closed = false ∧
      s1 = { s with
        calls := s.calls.set t { c with chan := some r }
        jobs := s.jobs.set d { j with pc := BatchPC.closing }
        sendLog := s.sendLog ++ [(t, r)] } := by
  unfold doSend at h
  split at h
  · rename_i j hj
    split at h
    · rename_i r t hpc hr ht
      split at h
      · rename_i c hc
        split at h
        · rename_i hcc
          refine ⟨j, r, t, c, hj, hpc, hr, ht, hc, ?_, hcc.2, (Option.some.inj h).symm⟩
          simpa using hcc.1
        · cases h
      · cases h
    · cases h
  · cases h

theorem doClose_some {α : Type} {s s1 : State α} {d : Nat} (h : doClose s d = some s1) :
    ∃ j t c, s.jobs[d]? = some j ∧ j.pc = BatchPC.closing ∧
      j.batch[j.i]? = some t ∧ s.calls[t]? = some c ∧ c.closed = false ∧
      s1 = { s with
        calls := s.calls.set t { c with closed := true }
        jobs := s.jobs.set d { j with pc := loopPC j.batch (j.i + 1), i := j.i + 1 } } := by
  unfold doClose at h
  split at h
  · rename_i j hj
    split at h
    · rename_i t hpc ht
      split at h
      · rename_i c hc
        split at h
        · rename_i hcc
          exact ⟨j, t, c, hj, hpc, ht, hc, hcc, (Option.some.inj h).symm⟩
        · cases h
      · cases h
    · cases h
  · cases h

/-! ## Every step keeps the channels well-formed -/

theorem wf_init (α : Type) : WellFormed (State.init α) where
  pending_ok := by intro k t h; simp [State.init, NewUserLoader, UserLoader.pending] at h
  pending_nodup := by intro k; simp [State.init, NewUserLoader, UserLoader.pending]
  checked_fresh := by intro t c h; simp [State.init] at h
  pending_job := by intro k t d j h; simp [State.init, NewUserLoader, UserLoader.pending] at h
  job_job := by intro d1 d2 j1 j2 t h; simp [State.init] at h
  batch_nodup := by intro d j h; simp [State.init] at h
  slot_ok := by intro d j n t h; simp [State.init] at h

theorem wf_push_call {α : Type} {s : State α} (hw : WellFormed s) (c0 : LoadCall α)
    (h0 : c0.chan = none ∧ c0.closed = false) :
    WellFormed { s with calls := s.calls ++ [c0] } where
  pending_ok := by
    intro k t ht
    obtain ⟨c, hc, hid, hu⟩ := hw.pending_ok k t ht
    exact ⟨c, getElem?_snoc_of_some hc, hid, hu⟩
  pending_nodup := hw.pending_nodup
  checked_fresh := by
    intro t c hc hpc
    rcases getElem?_snoc_some hc with h | ⟨_, rfl⟩
    · exact hw.checked_fresh t c h hpc
    · exact h0
  pending_job := hw.pending_job
  job_job := hw.job_job
  batch_nodup := hw.batch_nodup
  slot_ok := by
    intro d j n t hj ht
    obtain ⟨c, hc, hid, hs⟩ := hw.slot_ok d j n t hj ht
    exact ⟨c, getElem?_snoc_of_some hc, hid, hs⟩

theorem wf_doLoad {α : Type} {s : State α} (hw : WellFormed s) (id : Key) :
    WellFormed (doLoad s id) := by
  unfold doLoad
  split
  · exact wf_push_call hw _ ⟨rfl, rfl⟩
  · exact wf_push_call hw _ ⟨rfl, rfl⟩

/-- A call in a slot of a job is past its registration. -/
theorem slotOk_not_checked {α : Type} {j : BatchJob α} {n : Nat} {c : LoadCall α}
    (h : slotOk j n c) : c.pc ≠ LoadPC.checked := by
  intro hc
  unfold slotOk at h
  have hu : ¬ c.Untouched := fun hu => by rw [hu.1] at hc; cases hc
  have hd : ∀ res b, ¬ c.Delivered res b := by
    rintro res b ⟨_, r, _, h1 | h1⟩ <;> · rw [h1.1] at hc; cases hc
  split at h
  · exact h
  · exact hu h
  · exact hu h
  · exact hu h
  · split at h
    · exact hd _ _ h
    · exact hu h
  · split at h
    · exact hd _ _ h
    · split at h
      · exact hd _ _ h
      · exact hu h
  · exact hd _ _ h

theorem wf_prime {α : Type} {s : State α} (hw : WellFormed s) (l : UserLoader α)
    (hl : l.batch = s.loader.batch) : WellFormed { s with loader := l } := by
  have hp : ∀ k, l.pending k = s.loader.pending k := fun k => by simp [UserLoader.pending, hl]
  exact {
    pending_ok := fun k t ht => hw.pending_ok k t (by rwa [hp] at ht)
    pending_nodup := fun k => by simpa [hp] using hw.pending_nodup k
    checked_fresh := hw.checked_fresh
    pending_job := fun k t d j ht => hw.pending_job k t d j (by rwa [hp] at ht)
    job_job := hw.job_job
    batch_nodup := hw.batch_nodup
    slot_ok := hw.slot_ok }

/-- A job moves on without touching a channel or the pending table. -/
theorem wf_job_step {α : Type} {s s1 : State α} (hw : WellFormed s) {d : Nat}
    {j : BatchJob α} (j1 : BatchJob α) (hj : s.jobs[d]? = some j) (hb : j1.batch = j.batch)
    (hid : j1.id = j.id)
    (hs : ∀ n c, n < j.batch.length → slotOk j n c → slotOk j1 n c)
    (h1 : s1.loader.batch = s.loader.batch) (h2 : s1.calls = s.calls)
    (h3 : s1.jobs = s.jobs.set d j1) : WellFormed s1 := by
  have hp : ∀ k, s1.loader.pending k = s.loader.pending k := fun k => by
    simp [UserLoader.pending, h1]
  have hjob : ∀ (d2 : Nat) (j2 : BatchJob α), s1.jobs[d2]? = some j2 →
      ∃ j3 : BatchJob α, s.jobs[d2]? = some j3 ∧ j2.batch = j3.batch ∧ j2.id = j3.id ∧
        ∀ n c, n < j3.batch.length → slotOk j3 n c → slotOk j2 n c := by
    intro d2 j2 h
    rw [h3] at h
    rcases getElem?_set_some h with ⟨rfl, rfl⟩ | ⟨_, h⟩
    · exact ⟨j, hj, hb, hid, hs⟩
    · exact ⟨j2, h, rfl, rfl, fun _ _ _ x => x⟩
  exact {
    pending_ok := fun k t ht => by
      rw [h2]; exact hw.pending_ok k t (by rwa [hp] at ht)
    pending_nodup := fun k => by rw [hp]; exact hw.pending_nodup k
    checked_fresh := by rw [h2]; exact hw.checked_fresh
    pending_job := fun k t d2 j2 ht h => by
      obtain ⟨j3, h3, hb3, _, _⟩ := hjob d2 j2 h
      rw [hb3]; exact hw.pending_job k t d2 j3 (by rwa [hp] at ht) h3
    job_job := fun d2 d3 j2 j3 t h2 h3 ht2 ht3 => by
      obtain ⟨j4, h4, hb4, _, _⟩ := hjob d2 j2 h2
      obtain ⟨j5, h5, hb5, _, _⟩ := hjob d3 j3 h3
      exact hw.job_job d2 d3 j4 j5 t h4 h5 (hb4 ▸ ht2) (hb5 ▸ ht3)
    batch_nodup := fun d2 j2 h => by
      obtain ⟨j3, h3, hb3, _, _⟩ := hjob d2 j2 h
      rw [hb3]; exact hw.batch_nodup d2 j3 h3
    slot_ok := fun d2 j2 n t h ht => by
      obtain ⟨j3, h3, hb3, hid3, hs3⟩ := hjob d2 j2 h
      rw [hb3] at ht
      obtain ⟨c, hc, hcid, hsl⟩ := hw.slot_ok d2 j3 n t h3 ht
      exact ⟨c, by rw [h2]; exact hc, by rw [hid3]; exact hcid,
        hs3 n c (lt_length_of_getElem? ht) hsl⟩ }

theorem wf_doFetchCall {α : Type} {s s1 : State α} {d : Nat} (hw : WellFormed s)
    (h : doFetchCall s d = some s1) : WellFormed s1 := by
  obtain ⟨j, hj, hpc, rfl⟩ := doFetchCall_some h
  refine wf_job_step hw { j with pc := BatchPC.fetching } hj rfl rfl ?_ rfl rfl rfl
  intro n c _ hs
  simpa [slotOk, hpc] using hs

theorem wf_doFetchReturn {α : Type} {s s1 : State α} {d : Nat} {r : userResult α}
    (hw : WellFormed s) (h : doFetchReturn s d r = some s1) : WellFormed s1 := by
  obtain ⟨j, hj, hpc, rfl⟩ := doFetchReturn_some h
  refine wf_job_step hw { j with pc := BatchPC.fetched, result := some r } hj rfl rfl ?_
    rfl rfl rfl
  intro n c _ hs
  simpa [slotOk, hpc] using hs

theorem wf_doCacheResult {α : Type} {s s1 : State α} {d : Nat} (hw : WellFormed s)
    (h : doCacheResult s d = some s1) : WellFormed s1 := by
  obtain ⟨j, r, hj, hpc, hr, rfl⟩ := doCacheResult_some h
  refine wf_job_step hw { j with pc := loopPC j.batch 0, i := 0 } hj rfl rfl ?_ ?_ rfl rfl
  · intro n c hn hs
    simp only [slotOk, hpc] at hs
    simp [slotOk, loopPC, Nat.lt_of_le_of_lt (Nat.zero_le n) hn, hs]
  · show (if r.err.isNone = true then s.loader.Prime j.id r.user else s.loader).batch = _
    split <;> rfl

/-- A job acts on the channel in slot `m` of its slice. -/
theorem wf_slot_step {α : Type} {s s1 : State α} (hw : WellFormed s) {d m t : Nat}
    {j : BatchJob α} {c : LoadCall α} (j1 : BatchJob α) (c1 : LoadCall α)
    (hj : s.jobs[d]? = some j) (hm : j.batch[m]? = some t) (hc : s.calls[t]? = some c)
    (hb : j1.batch = j.batch) (hid : j1.id = j.id) (hcid : c1.id = c.id) (hcpc : c1.pc = c.pc)
    (hso : ∀ n x, n ≠ m → n < j.batch.length → slotOk j n x → slotOk j1 n x)
    (hsm : slotOk j m c → slotOk j1 m c1)
    (h1 : s1.loader.batch = s.loader.batch) (h2 : s1.calls = s.calls.set t c1)
    (h3 : s1.jobs = s.jobs.set d j1) : WellFormed s1 := by
  have hp : ∀ k, s1.loader.pending k = s.loader.pending k := fun k => by
    simp [UserLoader.pending, h1]
  have htj : t ∈ j.batch := List.getElem?_mem hm
  have hslot : c.id = j.id ∧ slotOk j m c := by
    obtain ⟨c2, hc2, hi2, hs2⟩ := hw.slot_ok d j m t hj hm
    rw [hc] at hc2
    cases hc2
    exact ⟨hi2, hs2⟩
  have hjob : ∀ (d2 : Nat) (j2 : BatchJob α), s1.jobs[d2]? = some j2 →
      (d2 = d ∧ j2 = j1) ∨ (d2 ≠ d ∧ s.jobs[d2]? = some j2) := by
    intro d2 j2 h
    rw [h3] at h
    rcases getElem?_set_some h with ⟨rfl, rfl⟩ | ⟨hne, h⟩
    · exact Or.inl ⟨rfl, rfl⟩
    · exact Or.inr ⟨fun e => hne e.symm, h⟩
  have hjob2 : ∀ (d2 : Nat) (j2 : BatchJob α), s1.jobs[d2]? = some j2 →
      ∃ j3 : BatchJob α, s.jobs[d2]? = some j3 ∧ j2.batch = j3.batch := by
    intro d2 j2 h
    rcases hjob d2 j2 h with ⟨rfl, rfl⟩ | ⟨_, h⟩
    · exact ⟨j, hj, hb⟩
    · exact ⟨j2, h, rfl⟩
  have hcall : ∀ (t2 : Nat) (c2 : LoadCall α), t2 ≠ t → s.calls[t2]? = some c2 →
      s1.calls[t2]? = some c2 := by
    intro t2 c2 hne h
    rw [h2, List.getElem?_set_ne (fun e => hne e.symm)]; exact h
  have hcallt : s1.calls[t]? = some c1 := by
    rw [h2, List.getElem?_set_self (lt_length_of_getElem? hc)]
  exact {
    pending_ok := fun k t2 ht => by
      rw [hp] at ht
      obtain ⟨c2, hc2, hid2, hu⟩ := hw.pending_ok k t2 ht
      have hne : t2 ≠ t := fun e => hw.pending_job k t2 d j ht hj (e ▸ htj)
      exact ⟨c2, hcall t2 c2 hne hc2, hid2, hu⟩
    pending_nodup := fun k => by rw [hp]; exact hw.pending_nodup k
    checked_fresh := fun t2 c2 h hpc => by
      by_cases hne : t2 = t
      · subst hne
        rw [hcallt] at h
        cases h
        exact absurd (hcpc ▸ hpc) (slotOk_not_checked hslot.2)
      · rw [h2, List.getElem?_set_ne (fun e => hne e.symm)] at h
        exact hw.checked_fresh t2 c2 h hpc
    pending_job := fun k t2 d2 j2 ht h => by
      obtain ⟨j3, h3, hb3⟩ := hjob2 d2 j2 h
      rw [hb3]; exact hw.pending_job k t2 d2 j3 (by rwa [hp] at ht) h3
    job_job := fun d2 d3 j2 j3 t2 h2 h3 ht2 ht3 => by
      obtain ⟨j4, h4, hb4⟩ := hjob2 d2 j2 h2
      obtain ⟨j5, h5, hb5⟩ := hjob2 d3 j3 h3
      exact hw.job_job d2 d3 j4 j5 t2 h4 h5 (hb4 ▸ ht2) (hb5 ▸ ht3)
    batch_nodup := fun d2 j2 h => by
      obtain ⟨j3, h3, hb3⟩ := hjob2 d2 j2 h
      rw [hb3]; exact hw.batch_nodup d2 j3 h3
    slot_ok := fun d2 j2 n t2 h ht => by
      rcases hjob d2 j2 h with ⟨rfl, rfl⟩ | ⟨hne, h⟩
      · rw [hb] at ht
        by_cases hnm : n = m
        · subst hnm
          rw [hm] at ht
          cases ht
          exact ⟨c1, hcallt, by rw [hcid, hid]; exact hslot.1, hsm hslot.2⟩
        · obtain ⟨c2, hc2, hid2, hs2⟩ := hw.slot_ok d2 j n t2 hj ht
          have hne : t2 ≠ t := by
            intro e
            subst e
            exact hnm (List.getElem?_inj (lt_length_of_getElem? ht)
              (hw.batch_nodup d2 j hj) (ht.trans hm.symm))
          exact ⟨c2, hcall t2 c2 hne hc2, by rw [hid]; exact hid2,
            hso n c2 hnm (lt_length_of_getElem? ht) hs2⟩
      · obtain ⟨c2, hc2, hid2, hs2⟩ := hw.slot_ok d2 j2 n t2 h ht
        have hne : t2 ≠ t := by
          intro e
          subst e
          exact hne (hw.job_job d2 d j2 j t2 h hj (List.getElem?_mem ht) htj)
        exact ⟨c2, hcall t2 c2 hne hc2, hid2, hs2⟩ }

theorem wf_doSend {α : Type} {s s1 : State α} {d : Nat} (hw : WellFormed s)
    (h : doSend s d = some s1) : WellFormed s1 := by
  obtain ⟨j, r, t, c, hj, hpc, hr, ht, hc, hch, hcl, rfl⟩ := doSend_some h
  refine wf_slot_step hw { j with pc := BatchPC.closing } { c with chan := some r } hj ht hc
    rfl rfl rfl rfl ?_ ?_ rfl rfl rfl
  · intro n x hn _ hs
    simp only [slotOk, hpc] at hs
    simp only [slotOk]
    by_cases h1 : n < j.i
    · simpa [h1] using hs
    · simpa [h1, hn] using hs
  · intro hs
    simp only [slotOk, hpc, Nat.lt_irrefl, if_false] at hs
    simp only [slotOk, Nat.lt_irrefl, if_false, if_true]
    exact ⟨hcl, r, hr, Or.inl ⟨hs.1, rfl⟩⟩

theorem wf_doClose {α : Type} {s s1 : State α} {d : Nat} (hw : WellFormed s)
    (h : doClose s d = some s1) : WellFormed s1 := by
  obtain ⟨j, t, c, hj, hpc, ht, hc, hcl, rfl⟩ := doClose_some h
  have hlt : j.i < j.batch.length := lt_length_of_getElem? ht
  refine wf_slot_step hw { j with pc := loopPC j.batch (j.i + 1), i := j.i + 1 }
    { c with closed := true } hj ht hc rfl rfl rfl rfl ?_ ?_ rfl rfl rfl
  · intro n x hn hnl hs
    simp only [slotOk, hpc, hn, if_false] at hs
    by_cases h1 : n < j.i
    · have h2 : n < j.i + 1 := Nat.lt_succ_of_lt h1
      simp only [h1, if_true] at hs
      unfold loopPC
      split <;> simp [slotOk, h2, hs]
    · have h2 : ¬ n < j.i + 1 := by omega
      simp only [h1, if_false] at hs
      have h3 : j.i + 1 < j.batch.length := by omega
      simp [loopPC, h3, slotOk, h2, hs]
  · intro hs
    simp only [slotOk, hpc, Nat.lt_irrefl, if_false, if_true] at hs
    have hd : LoadCall.Delivered j.result true { c with closed := true } := ⟨rfl, hs.2⟩
    unfold loopPC
    split <;> simp [slotOk, hd]

/-- A blocked call whose channel sits in a slot can only receive the pair of that slot. -/
theorem slotOk_receive {α : Type} {j : BatchJob α} {n : Nat} {c : LoadCall α}
    (h : slotOk j n c) (hpc : c.pc = LoadPC.waiting) :
    (c.chan = none → c.closed = true → False) ∧
    ∀ r, c.chan = some r → slotOk j n { c with pc := LoadPC.returned r, chan := none } := by
  have hu : ∀ P : userResult α → Prop, c.Untouched →
      (c.chan = none → c.closed = true → False) ∧ ∀ r, c.chan = some r → P r := by
    intro P hu
    refine ⟨fun _ hcl => ?_, fun r hr => ?_⟩
    · rw [hu.2.2] at hcl; cases hcl
    · rw [hu.2.1] at hr; cases hr
  have hd : ∀ b, c.Delivered j.result b → (c.chan = none → c.closed = true → False) ∧
      ∀ r, c.chan = some r →
        LoadCall.Delivered j.result b { c with pc := LoadPC.returned r, chan := none } := by
    rintro b ⟨hb, r1, hr1, h1 | h1⟩
    · refine ⟨fun hn _ => ?_, fun r hr => ?_⟩
      · rw [h1.2] at hn; cases hn
      · rw [h1.2] at hr
        cases hr
        exact ⟨hb, r1, hr1, Or.inr ⟨rfl, rfl⟩⟩
    · rw [h1.1] at hpc; cases hpc
  cases hj : j.pc <;> simp only [slotOk, hj] at h ⊢
  · exact hu _ h
  · exact hu _ h
  · exact hu _ h
  · by_cases h1 : n < j.i
    · simp only [h1, if_true] at h ⊢
      exact hd _ h
    · simp only [h1, if_false] at h ⊢
      exact hu _ h
  · by_cases h1 : n < j.i
    · simp only [h1, if_true] at h ⊢
      exact hd _ h
    · by_cases h2 : n = j.i
      · subst h2
        simp only [Nat.lt_irrefl, if_false, if_true] at h ⊢
        exact hd _ h
      · simp only [h1, h2, if_false] at h ⊢
        exact hu _ h
  · exact hd _ h

/-- A `Load` call takes its result off its channel. -/
theorem wf_doReceive {α : Type} {s s1 : State α} {t : Nat} (hw : WellFormed s)
    (h : doReceive s t = some s1) : WellFormed s1 := by
  obtain ⟨c, hc, hpc, hcase⟩ := doReceive_some h
  -- the record of call `t` after the step
  obtain ⟨c1, hc1pc, hc1id, h2, hjobs, hload, hkind⟩ :
      ∃ c1 : LoadCall α, c1.pc ≠ LoadPC.checked ∧ c1.id = c.id ∧
        s1.calls = s.calls.set t c1 ∧ s1.jobs = s.jobs ∧ s1.loader = s.loader ∧
        ((c.chan = none ∧ c.closed = true) ∨
          ∃ r, c.chan = some r ∧ c1 = { c with pc := LoadPC.returned r, chan := none }) := by
    rcases hcase with ⟨r, hr, rfl⟩ | ⟨hn, hcl, rfl⟩
    · exact ⟨{ c with pc := LoadPC.returned r, chan := none }, by simp, rfl, rfl, rfl, rfl,
        Or.inr ⟨r, hr, rfl⟩⟩
    · exact ⟨{ c with pc := LoadPC.returned userResult.zero }, by simp, rfl, rfl, rfl, rfl,
        Or.inl ⟨hn, hcl⟩⟩
  have hnp : ∀ k, t ∉ s.loader.pending k := by
    intro k hk
    obtain ⟨c2, hc2, _, hu⟩ := hw.pending_ok k t hk
    rw [hc] at hc2
    cases hc2
    rcases hkind with ⟨_, hcl⟩ | ⟨r, hr, _⟩
    · rw [hu.2.2] at hcl; cases hcl
    · rw [hu.2.1] at hr; cases hr
  have hcall : ∀ (t2 : Nat) (c2 : LoadCall α), t2 ≠ t → s.calls[t2]? = some c2 →
      s1.calls[t2]? = some c2 := by
    intro t2 c2 hne h
    rw [h2, List.getElem?_set_ne (fun e => hne e.symm)]; exact h
  have hcallt : s1.calls[t]? = some c1 := by
    rw [h2, List.getElem?_set_self (lt_length_of_getElem? hc)]
  exact {
    pending_ok := fun k t2 ht => by
      rw [hload] at ht
      obtain ⟨c2, hc2, hid2, hu⟩ := hw.pending_ok k t2 ht
      have hne : t2 ≠ t := fun e => hnp k (e ▸ ht)
      exact ⟨c2, hcall t2 c2 hne hc2, hid2, hu⟩
    pending_nodup := fun k => by rw [hload]; exact hw.pending_nodup k
    checked_fresh := fun t2 c2 hx hpc2 => by
      by_cases hne : t2 = t
      · subst hne
        rw [hcallt] at hx
        cases hx
        exact absurd hpc2 hc1pc
      · rw [h2, List.getElem?_set_ne (fun e => hne e.symm)] at hx
        exact hw.checked_fresh t2 c2 hx hpc2
    pending_job := fun k t2 d2 j2 ht hx => by
      rw [hload] at ht; rw [hjobs] at hx
      exact hw.pending_job k t2 d2 j2 ht hx
    job_job := by rw [hjobs]; exact hw.job_job
    batch_nodup := by rw [hjobs]; exact hw.batch_nodup
    slot_ok := fun d2 j2 n t2 hx ht => by
      rw [hjobs] at hx
      obtain ⟨c2, hc2, hid2, hs2⟩ := hw.slot_ok d2 j2 n t2 hx ht
      by_cases hne : t2 = t
      · subst hne
        rw [hc] at hc2
        cases hc2
        have hrec := slotOk_receive hs2 hpc
        rcases hkind with ⟨hn, hcl⟩ | ⟨r, hr, rfl⟩
        · exact absurd hcl (fun hcl => hrec.1 hn hcl)
        · exact ⟨_, hcallt, hid2, hrec.2 r hr⟩
      · exact ⟨c2, hcall t2 c2 hne hc2, hid2, hs2⟩ }

theorem pending_update {α : Type} (l : UserLoader α) (id k : Key) (v : Option (List Nat)) :
    UserLoader.pending { l with batch := Function.update l.batch id v } k =
      if k = id then v.getD [] else l.pending k := by
  unfold UserLoader.pending
  by_cases h : k = id
  · subst h; simp
  · simp [Function.update, h]

/-- A `Load` call registers its channel. -/
theorem wf_doEnqueue {α : Type} {s s1 : State α} {t : Nat} (hw : WellFormed s)
    (h : doEnqueue s t = some s1) : WellFormed s1 := by
  obtain ⟨c, hc, hpc, rfl⟩ := doEnqueue_some h
  have hfresh := hw.checked_fresh t c hc hpc
  have hnp : ∀ k, t ∉ s.loader.pending k := by
    intro k hk
    obtain ⟨c2, hc2, _, hu⟩ := hw.pending_ok k t hk
    rw [hc] at hc2
    cases hc2
    rw [hu.1] at hpc
    cases hpc
  have hnj : ∀ (d : Nat) (j : BatchJob α), s.jobs[d]? = some j → t ∉ j.batch := by
    intro d j hj ht
    obtain ⟨n, hn⟩ := List.getElem?_of_mem ht
    obtain ⟨c2, hc2, _, hs⟩ := hw.slot_ok d j n t hj hn
    rw [hc] at hc2
    cases hc2
    exact slotOk_not_checked hs hpc
  have hjob : ∀ (d : Nat) (j : BatchJob α),
      (if (s.loader.pending c.id ++ [t]).length = 1
        then s.jobs ++ [⟨c.id, BatchPC.sleeping, [], none, 0⟩] else s.jobs)[d]? = some j →
      s.jobs[d]? = some j ∨ j.batch = [] := by
    intro d j hj
    split at hj
    · rcases getElem?_snoc_some hj with h1 | ⟨_, rfl⟩
      · exact Or.inl h1
      · exact Or.inr rfl
    · exact Or.inl hj
  have hcall : ∀ (t2 : Nat) (c2 : LoadCall α), t2 ≠ t → s.calls[t2]? = some c2 →
      (s.calls.set t { c with pc := LoadPC.waiting })[t2]? = some c2 := by
    intro t2 c2 hne hx
    rw [List.getElem?_set_ne (fun e => hne e.symm)]; exact hx
  have hcallt : (s.calls.set t { c with pc := LoadPC.waiting })[t]? =
      some { c with pc := LoadPC.waiting } := by
    rw [List.getElem?_set_self (lt_length_of_getElem? hc)]
  have hmem : ∀ (k : Key) (t2 : Nat) (l : UserLoader α),
      l = { s.loader with
        batch := Function.update s.loader.batch c.id (some (s.loader.pending c.id ++ [t])) } →
      t2 ∈ l.pending k → (t2 ∈ s.loader.pending k) ∨ (t2 = t ∧ k = c.id) := by
    intro k t2 l hl ht
    rw [hl, pending_update] at ht
    split at ht
    · rename_i hk
      subst hk
      simp only [Option.getD_some, List.mem_append, List.mem_singleton] at ht
      rcases ht with ht | ht
      · exact Or.inl ht
      · exact Or.inr ⟨ht, rfl⟩
    · exact Or.inl ht
  exact {
    pending_ok := fun k t2 ht => by
      rcases hmem k t2 _ rfl ht with ht | ⟨rfl, rfl⟩
      · obtain ⟨c2, hc2, hid2, hu⟩ := hw.pending_ok k t2 ht
        have hne : t2 ≠ t := fun e => hnp k (e ▸ ht)
        exact ⟨c2, hcall t2 c2 hne hc2, hid2, hu⟩
      · exact ⟨_, hcallt, rfl, rfl, hfresh.1, hfresh.2⟩
    pending_nodup := fun k => by
      rw [pending_update]
      split
      · simp only [Option.getD_some]
        refine List.Nodup.append (hw.pending_nodup _) (List.nodup_singleton t) ?_
        intro x hx hx2
        rw [List.mem_singleton] at hx2
        subst hx2
        exact hnp _ hx
      · exact hw.pending_nodup k
    checked_fresh := fun t2 c2 hx hpc2 => by
      by_cases hne : t2 = t
      · subst hne
        rw [hcallt] at hx
        cases hx
        cases hpc2
      · rw [List.getElem?_set_ne (fun e => hne e.symm)] at hx
        exact hw.checked_fresh t2 c2 hx hpc2
    pending_job := fun k t2 d2 j2 ht hx => by
      rcases hjob d2 j2 hx with hj | hj
      · rcases hmem k t2 _ rfl ht with ht | ⟨rfl, rfl⟩
        · exact hw.pending_job k t2 d2 j2 ht hj
        · exact hnj d2 j2 hj
      · rw [hj]; exact List.not_mem_nil _
    job_job := fun d2 d3 j2 j3 t2 h2 h3 ht2 ht3 => by
      rcases hjob d2 j2 h2 with h2 | h2
      · rcases hjob d3 j3 h3 with h3 | h3
        · exact hw.job_job d2 d3 j2 j3 t2 h2 h3 ht2 ht3
        · rw [h3] at ht3; exact absurd ht3 (List.not_mem_nil _)
      · rw [h2] at ht2; exact absurd ht2 (List.not_mem_nil _)
    batch_nodup := fun d2 j2 hx => by
      rcases hjob d2 j2 hx with hj | hj
      · exact hw.batch_nodup d2 j2 hj
      · rw [hj]; exact List.nodup_nil
    slot_ok := fun d2 j2 n t2 hx ht => by
      rcases hjob d2 j2 hx with hj | hj
      · obtain ⟨c2, hc2, hid2, hs2⟩ := hw.slot_ok d2 j2 n t2 hj ht
        have hne : t2 ≠ t := fun e => hnj d2 j2 hj (e ▸ List.getElem?_mem ht)
        exact ⟨c2, hcall t2 c2 hne hc2, hid2, hs2⟩
      · rw [hj] at ht; simp at ht }

/-- A job wakes up and detaches the pending list of its key. -/
theorem wf_doDrain {α : Type} {s s1 : State α} {d : Nat} (hw : WellFormed s)
    (h : doDrain s d = some s1) : WellFormed s1 := by
  obtain ⟨j, hj, hpc, rfl⟩ := doDrain_some h
  have hmem : ∀ (k : Key) (t2 : Nat) (l : UserLoader α),
      l = { s.loader with batch := Function.update s.loader.batch j.id none } →
      t2 ∈ l.pending k → t2 ∈ s.loader.pending k ∧ k ≠ j.id := by
    intro k t2 l hl ht
    rw [hl, pending_update] at ht
    split at ht
    · simp at ht
    · rename_i hk; exact ⟨ht, hk⟩
  have hjob : ∀ (d2 : Nat) (j2 : BatchJob α),
      (s.jobs.set d { j with pc := BatchPC.drained, batch := s.loader.pending j.id })[d2]? =
        some j2 →
      (d2 = d ∧ j2 = { j with pc := BatchPC.drained, batch := s.loader.pending j.id }) ∨
        (d2 ≠ d ∧ s.jobs[d2]? = some j2) := by
    intro d2 j2 hx
    rcases getElem?_set_some hx with ⟨rfl, rfl⟩ | ⟨hne, hx⟩
    · exact Or.inl ⟨rfl, rfl⟩
    · exact Or.inr ⟨fun e => hne e.symm, hx⟩
  exact {
    pending_ok := fun k t2 ht => hw.pending_ok k t2 (hmem k t2 _ rfl ht).1
    pending_nodup := fun k => by
      rw [pending_update]
      split
      · exact List.nodup_nil
      · exact hw.pending_nodup k
    checked_fresh := hw.checked_fresh
    pending_job := fun k t2 d2 j2 ht hx => by
      obtain ⟨hold, hk⟩ := hmem k t2 _ rfl ht
      rcases hjob d2 j2 hx with ⟨rfl, rfl⟩ | ⟨_, hy⟩
      · intro ht2
        obtain ⟨c2, hc2, hid2, _⟩ := hw.pending_ok k t2 hold
        obtain ⟨c3, hc3, hid3, _⟩ := hw.pending_ok j.id t2 ht2
        rw [hc2] at hc3
        cases hc3
        exact hk (hid2.symm.trans hid3)
      · exact hw.pending_job k t2 d2 j2 hold hy
    job_job := fun d2 d3 j2 j3 t2 hx2 hx3 ht2 ht3 => by
      rcases hjob d2 j2 hx2 with ⟨rfl, rfl⟩ | ⟨_, hy2⟩
      · rcases hjob d3 j3 hx3 with ⟨rfl, rfl⟩ | ⟨_, hy3⟩
        · rfl
        · exact absurd ht3 (hw.pending_job j.id t2 d3 j3 ht2 hy3)
      · rcases hjob d3 j3 hx3 with ⟨rfl, rfl⟩ | ⟨_, hy3⟩
        · exact absurd ht2 (hw.pending_job j.id t2 d2 j2 ht3 hy2)
        · exact hw.job_job d2 d3 j2 j3 t2 hy2 hy3 ht2 ht3
    batch_nodup := fun d2 j2 hx => by
      rcases hjob d2 j2 hx with ⟨rfl, rfl⟩ | ⟨_, hx⟩
      · exact hw.pending_nodup j.id
      · exact hw.batch_nodup d2 j2 hx
    slot_ok := fun d2 j2 n t2 hx ht => by
      rcases hjob d2 j2 hx with ⟨rfl, rfl⟩ | ⟨_, hx⟩
      · obtain ⟨c2, hc2, hid2, hu⟩ := hw.pending_ok j.id t2 (List.getElem?_mem ht)
        exact ⟨c2, hc2, hid2, by simpa [slotOk] using hu⟩
      · exact hw.slot_ok d2 j2 n t2 hx ht }

/-- Every step keeps the state well-formed. -/
theorem wf_step {α : Type} {s s1 : State α} {e : Event α} (hw : WellFormed s)
    (h : step s e = some s1) : WellFormed s1 := by
  cases e with
  | Load id =>
      simp only [step, Option.some.injEq] at h
      subst h
      exact wf_doLoad hw id
  | enqueue t => exact wf_doEnqueue hw h
  | receive t => exact wf_doReceive hw h
  | Prime id v =>
      simp only [step, Option.some.injEq] at h
      subst h
      exact wf_prime hw _ rfl
  | Clear id =>
      simp only [step, Option.some.injEq] at h
      subst h
      exact wf_prime hw _ rfl
  | drain d => exact wf_doDrain hw h
  | fetchCall d => exact wf_doFetchCall hw h
  | fetchReturn d r => exact wf_doFetchReturn hw h
  | cacheResult d => exact wf_doCacheResult hw h
  | send d => exact wf_doSend hw h
  | close d => exact wf_doClose hw h

/-- An invariant of the steps holds in every reachable state. -/
theorem run_invariant {α : Type} (P : State α → Prop)
    (hstep : ∀ s s1 e, P s → step s e = some s1 → P s1) :
    ∀ (es : List (Event α)) (s s1 : State α), P s → run s es = some s1 → P s1 := by
  intro es
  induction es with
  | nil =>
      intro s s1 hp h
      simp only [run, Option.some.injEq] at h
      exact h ▸ hp
  | cons e es ih =>
      intro s s1 hp h
      simp only [run] at h
      cases hs : step s e with
      | none => rw [hs] at h; cases h
      | some s2 =>
          rw [hs] at h
          exact ih s2 s1 (hstep s s2 e hp hs) h

theorem reachable_wf {α : Type} {s : State α} (h : Reachable s) : WellFormed s := by
  obtain ⟨es, hes⟩ := h
  exact run_invariant WellFormed (fun _ _ _ hw hs => wf_step hw hs) es _ s (wf_init α) hes

/-! ## Sleeping jobs and pending entries -/

theorem sleepers_init (α : Type) : Sleepers (State.init α) where
  entry_nonempty := by intro k l h; simp [State.init, NewUserLoader] at h
  sleeper_entry := by intro d j h; simp [State.init] at h
  sleeper_unique := by intro d1 d2 j1 j2 h; simp [State.init] at h
  entry_sleeper := by intro k h; simp [State.init, NewUserLoader] at h

/-- Steps that leave the pending table and the jobs alone. -/
theorem sleepers_congr {α : Type} {s s1 : State α} (hs : Sleepers s)
    (h1 : s1.loader.batch = s.loader.batch) (h2 : s1.jobs = s.jobs) : Sleepers s1 where
  entry_nonempty := by rw [h1]; exact hs.entry_nonempty
  sleeper_entry := by rw [h1, h2]; exact hs.sleeper_entry
  sleeper_unique := by rw [h2]; exact hs.sleeper_unique
  entry_sleeper := by rw [h1, h2]; exact hs.entry_sleeper

/-- A job past its drain moves on. -/
theorem sleepers_job_step {α : Type} {s s1 : State α} (hs : Sleepers s) {d : Nat}
    {j : BatchJob α} (j1 : BatchJob α) (hj : s.jobs[d]? = some j)
    (hpc : j.pc ≠ BatchPC.sleeping) (hpc1 : j1.pc ≠ BatchPC.sleeping)
    (h1 : s1.loader.batch = s.loader.batch) (h2 : s1.jobs = s.jobs.set d j1) :
    Sleepers s1 := by
  have hjob : ∀ (d2 : Nat) (j2 : BatchJob α), s1.jobs[d2]? = some j2 →
      j2.pc = BatchPC.sleeping → s.jobs[d2]? = some j2 := by
    intro d2 j2 hx hp
    rw [h2] at hx
    rcases getElem?_set_some hx with ⟨rfl, rfl⟩ | ⟨_, hx⟩
    · exact absurd hp hpc1
    · exact hx
  exact {
    entry_nonempty := by rw [h1]; exact hs.entry_nonempty
    sleeper_entry := fun d2 j2 hx hp => by
      rw [h1]; exact hs.sleeper_entry d2 j2 (hjob d2 j2 hx hp) hp
    sleeper_unique := fun d2 d3 j2 j3 hx2 hx3 hp2 hp3 hid =>
      hs.sleeper_unique d2 d3 j2 j3 (hjob d2 j2 hx2 hp2) (hjob d3 j3 hx3 hp3) hp2 hp3 hid
    entry_sleeper := fun k hk => by
      rw [h1] at hk
      obtain ⟨d2, j2, hx, hp, hid⟩ := hs.entry_sleeper k hk
      have hne : d ≠ d2 := by
        intro e
        subst e
        rw [hj] at hx
        cases hx
        exact hpc hp
      exact ⟨d2, j2, by rw [h2, List.getElem?_set_ne hne]; exact hx, hp, hid⟩ }

theorem loopPC_ne_sleeping (batch : List Nat) (i : Nat) : loopPC batch i ≠ BatchPC.sleeping := by
  unfold loopPC; split <;> simp

theorem loopPC_ne_drained (batch : List Nat) (i : Nat) : loopPC batch i ≠ BatchPC.drained := by
  unfold loopPC; split <;> simp

theorem sleepers_doEnqueue {α : Type} {s s1 : State α} {t : Nat} (hs : Sleepers s)
    (h : doEnqueue s t = some s1) : Sleepers s1 := by
  obtain ⟨c, hc, hpc, rfl⟩ := doEnqueue_some h
  have hlen : (s.loader.pending c.id ++ [t]).length = 1 ↔ s.loader.batch c.id = none := by
    unfold UserLoader.pending
    cases hb : s.loader.batch c.id with
    | none => simp
    | some l =>
        have := hs.entry_nonempty c.id l hb
        simp [this]
  have hjob : ∀ (d : Nat) (j : BatchJob α),
      (if (s.loader.pending c.id ++ [t]).length = 1
        then s.jobs ++ [⟨c.id, BatchPC.sleeping, [], none, 0⟩] else s.jobs)[d]? = some j →
      s.jobs[d]? = some j ∨
        (d = s.jobs.length ∧ j.id = c.id ∧ s.loader.batch c.id = none) := by
    intro d j hj
    split at hj
    · rename_i hl
      rcases getElem?_snoc_some hj with h1 | ⟨h1, rfl⟩
      · exact Or.inl h1
      · exact Or.inr ⟨h1, rfl, hlen.mp hl⟩
    · exact Or.inl hj
  have hold : ∀ (d : Nat) (j : BatchJob α), s.jobs[d]? = some j →
      (if (s.loader.pending c.id ++ [t]).length = 1
        then s.jobs ++ [⟨c.id, BatchPC.sleeping, [], none, 0⟩] else s.jobs)[d]? = some j := by
    intro d j hj
    split
    · exact getElem?_snoc_of_some hj
    · exact hj
  exact {
    entry_nonempty := fun k l hl => by
      by_cases hk : k = c.id
      · subst hk
        simp only [Function.update_same, Option.some.injEq] at hl
        rw [← hl]; simp
      · simp only [Function.update, hk, dite_false] at hl
        exact hs.entry_nonempty k l hl
    sleeper_entry := fun d j hj hp => by
      by_cases hk : j.id = c.id
      · rw [hk]; simp
      · simp only [Function.update, hk, dite_false]
        rcases hjob d j hj with hj | ⟨_, hid, _⟩
        · exact hs.sleeper_entry d j hj hp
        · exact absurd hid hk
    sleeper_unique := fun d2 d3 j2 j3 hx2 hx3 hp2 hp3 hid => by
      rcases hjob d2 j2 hx2 with hy2 | ⟨hd2, hid2, hn2⟩
      · rcases hjob d3 j3 hx3 with hy3 | ⟨hd3, hid3, hn3⟩
        · exact hs.sleeper_unique d2 d3 j2 j3 hy2 hy3 hp2 hp3 hid
        · exact absurd (by rw [hid, hid3]; exact hn3) (hs.sleeper_entry d2 j2 hy2 hp2)
      · rcases hjob d3 j3 hx3 with hy3 | ⟨hd3, hid3, hn3⟩
        · exact absurd (by rw [← hid, hid2]; exact hn2) (hs.sleeper_entry d3 j3 hy3 hp3)
        · rw [hd2, hd3]
    entry_sleeper := fun k hk => by
      by_cases hkc : k = c.id
      · subst hkc
        cases hb : s.loader.batch c.id with
        | none =>
            refine ⟨s.jobs.length, ⟨c.id, BatchPC.sleeping, [], none, 0⟩, ?_, rfl, rfl⟩
            rw [if_pos (hlen.mpr hb)]
            exact List.getElem?_concat_length _ _
        | some l =>
            obtain ⟨d, j, hj, hp, hid⟩ := hs.entry_sleeper c.id (by simp [hb])
            exact ⟨d, j, hold d j hj, hp, hid⟩
      · simp only [Function.update, hkc, dite_false] at hk
        obtain ⟨d, j, hj, hp, hid⟩ := hs.entry_sleeper k hk
        exact ⟨d, j, hold d j hj, hp, hid⟩ }

theorem sleepers_doDrain {α : Type} {s s1 : State α} {d : Nat} (hs : Sleepers s)
    (h : doDrain s d = some s1) : Sleepers s1 := by
  obtain ⟨j, hj, hpc, rfl⟩ := doDrain_some h
  have hjob : ∀ (d2 : Nat) (j2 : BatchJob α),
      (s.jobs.set d { j with pc := BatchPC.drained, batch := s.loader.pending j.id })[d2]? =
        some j2 →
      j2.pc = BatchPC.sleeping → d2 ≠ d ∧ s.jobs[d2]? = some j2 ∧ j2.id ≠ j.id := by
    intro d2 j2 hx hp
    rcases getElem?_set_some hx with ⟨rfl, rfl⟩ | ⟨hne, hx⟩
    · cases hp
    · exact ⟨fun e => hne e.symm, hx, fun hid =>
        hne (hs.sleeper_unique d d2 j j2 hj hx hpc hp hid.symm)⟩
  exact {
    entry_nonempty := fun k l hl => by
      by_cases hk : k = j.id
      · subst hk; simp at hl
      · simp only [Function.update, hk, dite_false] at hl
        exact hs.entry_nonempty k l hl
    sleeper_entry := fun d2 j2 hx hp => by
      obtain ⟨_, hy, hid⟩ := hjob d2 j2 hx hp
      simp only [Function.update, hid, dite_false]
      exact hs.sleeper_entry d2 j2 hy hp
    sleeper_unique := fun d2 d3 j2 j3 hx2 hx3 hp2 hp3 hid =>
      hs.sleeper_unique d2 d3 j2 j3 (hjob d2 j2 hx2 hp2).2.1 (hjob d3 j3 hx3 hp3).2.1 hp2 hp3 hid
    entry_sleeper := fun k hk => by
      by_cases hkj : k = j.id
      · subst hkj; simp at hk
      · simp only [Function.update, hkj, dite_false] at hk
        obtain ⟨d2, j2, hx, hp, hid⟩ := hs.entry_sleeper k hk
        have hne : d ≠ d2 := by
          intro e
          subst e
          rw [hj] at hx
          cases hx
          exact hkj hid.symm
        exact ⟨d2, j2, by rw [List.getElem?_set_ne hne]; exact hx, hp, hid⟩ }

theorem sleepers_step {α : Type} {s s1 : State α} {e : Event α} (hs : Sleepers s)
    (h : step s e = some s1) : Sleepers s1 := by
  cases e with
  | Load id =>
      simp only [step, Option.some.injEq] at h
      subst h
      refine sleepers_congr hs ?_ ?_ <;> · unfold doLoad; split <;> rfl
  | enqueue t => exact sleepers_doEnqueue hs h
  | receive t =>
      obtain ⟨c, _, _, hr⟩ := doReceive_some h
      rcases hr with ⟨r, _, rfl⟩ | ⟨_, _, rfl⟩ <;> exact sleepers_congr hs rfl rfl
  | Prime id v =>
      simp only [step, Option.some.injEq] at h
      subst h
      exact sleepers_congr hs rfl rfl
  | Clear id =>
      simp only [step, Option.some.injEq] at h
      subst h
      exact sleepers_congr hs rfl rfl
  | drain d => exact sleepers_doDrain hs h
  | fetchCall d =>
      obtain ⟨j, hj, hpc, rfl⟩ := doFetchCall_some h
      exact sleepers_job_step hs { j with pc := BatchPC.fetching } hj (by simp [hpc])
        (by simp) rfl rfl
  | fetchReturn d r =>
      obtain ⟨j, hj, hpc, rfl⟩ := doFetchReturn_some h
      exact sleepers_job_step hs { j with pc := BatchPC.fetched, result := some r } hj
        (by simp [hpc]) (by simp) rfl rfl
  | cacheResult d =>
      obtain ⟨j, r, hj, hpc, hr, rfl⟩ := doCacheResult_some h
      refine sleepers_job_step hs { j with pc := loopPC j.batch 0, i := 0 } hj
        (by simp [hpc]) (loopPC_ne_sleeping _ _) ?_ rfl
      show (if r.err.isNone = true then s.loader.Prime j.id r.user else s.loader).batch = _
      split <;> rfl
  | send d =>
      obtain ⟨j, r, t, c, hj, hpc, _, _, _, _, _, rfl⟩ := doSend_some h
      exact sleepers_job_step hs { j with pc := BatchPC.closing } hj (by simp [hpc])
        (by simp) rfl rfl
  | close d =>
      obtain ⟨j, t, c, hj, hpc, _, _, _, rfl⟩ := doClose_some h
      exact sleepers_job_step hs { j with pc := loopPC j.batch (j.i + 1), i := j.i + 1 } hj
        (by simp [hpc]) (loopPC_ne_sleeping _ _) rfl rfl

theorem reachable_sleepers {α : Type} {s : State α} (h : Reachable s) : Sleepers s := by
  obtain ⟨es, hes⟩ := h
  exact run_invariant Sleepers (fun _ _ _ hw hs => sleepers_step hw hs) es _ s
    (sleepers_init α) hes

/-! ## The fetch log -/

theorem fetchlog_init (α : Type) : FetchLogOk (State.init α) where
  logged_job := by intro d k h; simp [State.init] at h
  logged_once := by simp [State.init]
  job_logged := by intro d j h; simp [State.init] at h

theorem fetchlog_congr {α : Type} {s s1 : State α} (hf : FetchLogOk s)
    (h1 : s1.jobs = s.jobs) (h2 : s1.fetchLog = s.fetchLog) : FetchLogOk s1 where
  logged_job := by rw [h1, h2]; exact hf.logged_job
  logged_once := by rw [h2]; exact hf.logged_once
  job_logged := by rw [h1, h2]; exact hf.job_logged

/-- A job moves on without calling `GetByID`. -/
theorem fetchlog_job_step {α : Type} {s s1 : State α} (hf : FetchLogOk s) {d : Nat}
    {j : BatchJob α} (j1 : BatchJob α) (hj : s.jobs[d]? = some j) (hid : j1.id = j.id)
    (hfw : j.pc ≠ BatchPC.sleeping ∧ j.pc ≠ BatchPC.drained →
      j1.pc ≠ BatchPC.sleeping ∧ j1.pc ≠ BatchPC.drained)
    (hbw : j1.pc ≠ BatchPC.sleeping ∧ j1.pc ≠ BatchPC.drained →
      j.pc ≠ BatchPC.sleeping ∧ j.pc ≠ BatchPC.drained)
    (h1 : s1.jobs = s.jobs.set d j1) (h2 : s1.fetchLog = s.fetchLog) : FetchLogOk s1 where
  logged_job := fun d2 k hk => by
    rw [h2] at hk
    obtain ⟨j2, hj2, hid2, hp⟩ := hf.logged_job d2 k hk
    by_cases hd : d2 = d
    · subst hd
      rw [hj] at hj2
      cases hj2
      exact ⟨j1, by rw [h1, List.getElem?_set_self (lt_length_of_getElem? hj)],
        hid.trans hid2, hfw hp⟩
    · exact ⟨j2, by rw [h1, List.getElem?_set_ne (fun e => hd e.symm)]; exact hj2, hid2, hp⟩
  logged_once := by rw [h2]; exact hf.logged_once
  job_logged := fun d2 j2 hx hp1 hp2 => by
    rw [h2]
    rw [h1] at hx
    rcases getElem?_set_some hx with ⟨rfl, rfl⟩ | ⟨_, hx⟩
    · rw [hid]
      exact hf.job_logged d j hj (hbw ⟨hp1, hp2⟩).1 (hbw ⟨hp1, hp2⟩).2
    · exact hf.job_logged d2 j2 hx hp1 hp2

theorem fetchlog_doEnqueue {α : Type} {s s1 : State α} {t : Nat} (hf : FetchLogOk s)
    (h : doEnqueue s t = some s1) : FetchLogOk s1 := by
  obtain ⟨c, hc, hpc, rfl⟩ := doEnqueue_some h
  exact {
    logged_job := fun d k hk => by
      obtain ⟨j, hj, hp⟩ := hf.logged_job d k hk
      refine ⟨j, ?_, hp⟩
      show (if _ then _ else _)[d]? = _
      split
      · exact getElem?_snoc_of_some hj
      · exact hj
    logged_once := hf.logged_once
    job_logged := fun d j hx hp1 hp2 => by
      have hx2 : (if (s.loader.pending c.id ++ [t]).length = 1
          then s.jobs ++ [⟨c.id, BatchPC.sleeping, [], none, 0⟩] else s.jobs)[d]? = some j := hx
      split at hx2
      · rcases getElem?_snoc_some hx2 with hy | ⟨_, rfl⟩
        · exact hf.job_logged d j hy hp1 hp2
        · exact absurd rfl hp1
      · exact hf.job_logged d j hx2 hp1 hp2 }

theorem fetchlog_doFetchCall {α : Type} {s s1 : State α} {d : Nat} (hf : FetchLogOk s)
    (h : doFetchCall s d = some s1) : FetchLogOk s1 := by
  obtain ⟨j, hj, hpc, rfl⟩ := doFetchCall_some h
  have hnew : ∀ k, (d, k) ∉ s.fetchLog := by
    intro k hk
    obtain ⟨j2, hj2, _, _, hp⟩ := hf.logged_job d k hk
    rw [hj] at hj2
    cases hj2
    exact hp hpc
  exact {
    logged_job := fun d2 k hk => by
      have hk2 : (d2, k) ∈ s.fetchLog ++ [(d, j.id)] := hk
      rw [List.mem_append, List.mem_singleton] at hk2
      rcases hk2 with hk2 | hk2
      · obtain ⟨j2, hj2, hid2, hp⟩ := hf.logged_job d2 k hk2
        have hd : d ≠ d2 := fun e => hnew k (e ▸ hk2)
        exact ⟨j2, by
          show (s.jobs.set d _)[d2]? = _
          rw [List.getElem?_set_ne hd]; exact hj2, hid2, hp⟩
      · cases hk2
        exact ⟨{ j with pc := BatchPC.fetching }, by
          show (s.jobs.set d _)[d]? = _
          rw [List.getElem?_set_self (lt_length_of_getElem? hj)], rfl, by simp, by simp⟩
    logged_once := by
      show ((s.fetchLog ++ [(d, j.id)]).map Prod.fst).Nodup
      rw [List.map_append]
      refine List.Nodup.append hf.logged_once (by simp) ?_
      intro x hx hx2
      simp only [List.map_cons, List.map_nil, List.mem_singleton] at hx2
      subst hx2
      obtain ⟨⟨d2, k⟩, hm, rfl⟩ := List.mem_map.mp hx
      exact hnew k hm
    job_logged := fun d2 j2 hx hp1 hp2 => by
      show (d2, j2.id) ∈ s.fetchLog ++ [(d, j.id)]
      have hx2 : (s.jobs.set d { j with pc := BatchPC.fetching })[d2]? = some j2 := hx
      rcases getElem?_set_some hx2 with ⟨rfl, rfl⟩ | ⟨_, hy⟩
      · simp
      · exact List.mem_append_left _ (hf.job_logged d2 j2 hy hp1 hp2) }

theorem fetchlog_step {α : Type} {s s1 : State α} {e : Event α} (hf : FetchLogOk s)
    (h : step s e = some s1) : FetchLogOk s1 := by
  cases e with
  | Load id =>
      simp only [step, Option.some.injEq] at h
      subst h
      refine fetchlog_congr hf ?_ ?_ <;> · unfold doLoad; split <;> rfl
  | enqueue t => exact fetchlog_doEnqueue hf h
  | receive t =>
      obtain ⟨c, _, _, hr⟩ := doReceive_some h
      rcases hr with ⟨r, _, rfl⟩ | ⟨_, _, rfl⟩ <;> exact fetchlog_congr hf rfl rfl
  | Prime id v =>
      simp only [step, Option.some.injEq] at h
      subst h
      exact fetchlog_congr hf rfl rfl
  | Clear id =>
      simp only [step, Option.some.injEq] at h
      subst h
      exact fetchlog_congr hf rfl rfl
  | drain d =>
      obtain ⟨j, hj, hpc, rfl⟩ := doDrain_some h
      exact fetchlog_job_step hf
        { j with pc := BatchPC.drained, batch := s.loader.pending j.id } hj rfl
        (by simp [hpc]) (by simp) rfl rfl
  | fetchCall d => exact fetchlog_doFetchCall hf h
  | fetchReturn d r =>
      obtain ⟨j, hj, hpc, rfl⟩ := doFetchReturn_some h
      exact fetchlog_job_step hf { j with pc := BatchPC.fetched, result := some r } hj rfl
        (by simp) (by simp [hpc]) rfl rfl
  | cacheResult d =>
      obtain ⟨j, r, hj, hpc, hr, rfl⟩ := doCacheResult_some h
      exact fetchlog_job_step hf { j with pc := loopPC j.batch 0, i := 0 } hj rfl
        (fun _ => ⟨loopPC_ne_sleeping _ _, loopPC_ne_drained _ _⟩) (by simp [hpc]) rfl rfl
  | send d =>
      obtain ⟨j, r, t, c, hj, hpc, _, _, _, _, _, rfl⟩ := doSend_some h
      exact fetchlog_job_step hf { j with pc := BatchPC.closing } hj rfl
        (by simp) (by simp [hpc]) rfl rfl
  | close d =>
      obtain ⟨j, t, c, hj, hpc, _, _, _, rfl⟩ := doClose_some h
      exact fetchlog_job_step hf { j with pc := loopPC j.batch (j.i + 1), i := j.i + 1 } hj rfl
        (fun _ => ⟨loopPC_ne_sleeping _ _, loopPC_ne_drained _ _⟩) (by simp [hpc]) rfl rfl

theorem reachable_fetchlog {α : Type} {s : State α} (h : Reachable s) : FetchLogOk s := by
  obtain ⟨es, hes⟩ := h
  exact run_invariant FetchLogOk (fun _ _ _ hw hs => fetchlog_step hw hs) es _ s
    (fetchlog_init α) hes

/-! ## The sequential contract: `Load`, `LoadMany`, `Prime`, `Clear` -/

/-- On a key without pending entry a solo `Load` always returns. -/
theorem Load_total {α : Type} (f : Fetcher α) (s : State α) (id : Key)
    (hb : s.loader.batch id = none) : ∃ s1 r, Load f s id = some (s1, r) := by
  cases hc : s.loader.cache id with
  | some v => exact ⟨_, _, Load_hit f s id v hc⟩
  | none => exact ⟨_, _, Load_miss f s id hc (pending_eq_nil_of_batch_none _ _ hb)⟩

/-- C7: for every key `k` and every pointer `v`, nil included, `Prime(k, v)` followed by
`Load(k)` returns `(v, nil)` and invokes `GetByID` not once. -/
theorem prime_then_load {α : Type} (f : Fetcher α) (s : State α) (k : Key) (v : Option α) :
    ∃ s1 s2, step s (Event.Prime k v) = some s1 ∧
      Load f s1 k = some (s2, ⟨v, none⟩) ∧ s2.fetchLog = s.fetchLog := by
  refine ⟨{ s with loader := s.loader.Prime k v }, _, rfl, Load_hit f _ k v ?_, rfl⟩
  simp [UserLoader.Prime]

/-- C3: on a loader with no other activity, when `Load(k)` has returned `(v, nil)` the next
`Load(k)` returns `(v, nil)` as well and invokes `GetByID` not once, whatever the repository
would answer by then. -/
theorem load_after_load {α : Type} (f g : Fetcher α) (s : State α) (k : Key) (v : Option α)
    (h : (Load f s k).map Prod.snd = some ⟨v, none⟩) :
    ∃ s1 s2, Load f s k = some (s1, ⟨v, none⟩) ∧
      Load g s1 k = some (s2, ⟨v, none⟩) ∧ s2.fetchLog = s1.fetchLog := by
  cases hc : s.loader.cache k with
  | some c =>
      rw [Load_hit f s k c hc] at h
      simp only [Option.map_some', Option.some.injEq, userResult.mk.injEq, and_true] at h
      subst h
      exact ⟨_, _, Load_hit f s k c hc, Load_hit g _ k c hc, rfl⟩
  | none =>
      by_cases hb : s.loader.pending k = []
      · have hm := Load_miss f s k hc hb
        rw [hm] at h
        simp only [Option.map_some', Option.some.injEq] at h
        rw [h] at hm
        refine ⟨_, _, hm, Load_hit g _ k v ?_, rfl⟩
        simp [UserLoader.Prime]
      · rw [Load_joined f s k hc hb] at h
        cases h

/-- C8: cached or not, on a loader with no pending entry for `k`, `Clear(k)` followed by
`Load(k)` invokes `GetByID(k)` exactly once and returns what that invocation answered. -/
theorem clear_then_load {α : Type} (f : Fetcher α) (s : State α) (k : Key)
    (h : s.loader.batch k = none) :
    ∃ s1 s2, step s (Event.Clear k) = some s1 ∧
      Load f s1 k = some (s2, f s1.asked k) ∧
      s2.fetchLog = s.fetchLog ++ [(s.jobs.length, k)] := by
  refine ⟨{ s with loader := s.loader.Clear k }, _, rfl, Load_miss f _ k ?_ ?_, rfl⟩
  · simp [UserLoader.Clear]
  · exact pending_eq_nil_of_batch_none _ _ h

/-- C10: a step of the loader changes the cache entry of a key `k` only if it is `Prime(k, v)`
(the entry becomes `v`), `Clear(k)` (the entry is removed), or the caching section of a
`startBatch(k)` whose `GetByID` returned a nil error (the entry becomes the fetched pointer);
every other step, in particular a `Load`, a failed dispatch and any step on another key,
leaves the entry as it was. -/
theorem cache_entry_frame {α : Type} (s s1 : State α) (e : Event α) (k : Key)
    (h : step s e = some s1) (hne : s1.loader.cache k ≠ s.loader.cache k) :
    (∃ v, e = Event.Prime k v ∧ s1.loader.cache k = some v) ∨
    (e = Event.Clear k ∧ s1.loader.cache k = none) ∨
    (∃ d j r, e = Event.cacheResult d ∧ s.jobs[d]? = some j ∧ j.id = k ∧
      j.result = some r ∧ r.err = none ∧ s1.loader.cache k = some r.user) := by
  cases e with
  | Load id =>
      exfalso; apply hne
      simp only [step, Option.some.injEq] at h
      subst h
      unfold doLoad
      split <;> rfl
  | enqueue t =>
      exfalso; apply hne
      obtain ⟨c, _, _, rfl⟩ := doEnqueue_some h
      rfl
  | receive t =>
      exfalso; apply hne
      obtain ⟨c, _, _, hr⟩ := doReceive_some h
      rcases hr with ⟨r, _, rfl⟩ | ⟨_, _, rfl⟩ <;> rfl
  | Prime id v =>
      simp only [step, Option.some.injEq] at h
      subst h
      by_cases hk : k = id
      · subst hk
        exact Or.inl ⟨v, rfl, by simp [UserLoader.Prime]⟩
      · exfalso; apply hne
        simp [UserLoader.Prime, Function.update, hk]
  | Clear id =>
      simp only [step, Option.some.injEq] at h
      subst h
      by_cases hk : k = id
      · subst hk
        exact Or.inr (Or.inl ⟨rfl, by simp [UserLoader.Clear]⟩)
      · exfalso; apply hne
        simp [UserLoader.Clear, Function.update, hk]
  | drain d =>
      exfalso; apply hne
      obtain ⟨j, _, _, rfl⟩ := doDrain_some h
      rfl
  | fetchCall d =>
      exfalso; apply hne
      obtain ⟨j, _, _, rfl⟩ := doFetchCall_some h
      rfl
  | fetchReturn d r =>
      exfalso; apply hne
      obtain ⟨j, _, _, rfl⟩ := doFetchReturn_some h
      rfl
  | cacheResult d =>
      obtain ⟨j, r, hj, _, hr, rfl⟩ := doCacheResult_some h
      cases he : r.err with
      | some e =>
          exfalso; apply hne
          simp [he]
      | none =>
          by_cases hk : k = j.id
          · subst hk
            refine Or.inr (Or.inr ⟨d, j, r, rfl, hj, rfl, hr, he, ?_⟩)
            simp [he, UserLoader.Prime]
          · exfalso; apply hne
            simp [he, UserLoader.Prime, Function.update, hk]
  | send d =>
      exfalso; apply hne
      obtain ⟨j, r, t, c, _, _, _, _, _, _, _, rfl⟩ := doSend_some h
      rfl
  | close d =>
      exfalso; apply hne
      obtain ⟨j, t, c, _, _, _, _, _, rfl⟩ := doClose_some h
      rfl

/-- On keys without pending entry `LoadMany` returns. -/
theorem loadMany_total {α : Type} (f : Fetcher α) (keys : List Key) :
    ∀ s : State α, (∀ k ∈ keys, s.loader.batch k = none) → (LoadMany f s keys).isSome := by
  induction keys with
  | nil => intro s _; rfl
  | cons id ids ih =>
      intro s h
      obtain ⟨s1, r1, h1⟩ := Load_total f s id (h id (List.mem_cons_self _ _))
      have hb : ∀ k ∈ ids, s1.loader.batch k = none := fun k hk =>
        Load_batch_none f s s1 id k r1 h1 (h k (List.mem_cons_of_mem _ hk))
      have h2 := ih s1 hb
      obtain ⟨q, hq⟩ := Option.isSome_iff_exists.mp h2
      simp [LoadMany, h1, hq]

/-- What `LoadMany` returns on a non-empty list: the first `Load`, then the rest. -/
theorem loadMany_cons {α : Type} {f : Fetcher α} {s : State α} {id : Key} {ids : List Key}
    {q : State α × List (Option α) × List (Option String)}
    (h : LoadMany f s (id :: ids) = some q) :
    ∃ s1 r1 q1, Load f s id = some (s1, r1) ∧ LoadMany f s1 ids = some q1 ∧
      q = (q1.1, r1.user :: q1.2.1, r1.err :: q1.2.2) := by
  simp only [LoadMany] at h
  cases h1 : Load f s id with
  | none => rw [h1] at h; cases h
  | some p =>
      rw [h1] at h
      simp only [Option.some_bind] at h
      cases h2 : LoadMany f p.1 ids with
      | none => rw [h2] at h; cases h
      | some q1 =>
          rw [h2] at h
          simp only [Option.map_some', Option.some.injEq] at h
          exact ⟨p.1, p.2, q1, rfl, h2, h.symm⟩

/-- C5: for every list of keys, `LoadMany` returns (it does whenever no key of the list has a
pending entry served by another goroutine), and what it returns is a value list and an error
list of the length of `keys` whose position `i` holds the pair that `Load` of the `i`-th key
returned, the loads being made in input order (the `i`-th one on the state the first `i` left
behind). -/
theorem loadMany_in_order {α : Type} (f : Fetcher α) (s : State α) (keys : List Key) :
    ((∀ k ∈ keys, s.loader.batch k = none) → (LoadMany f s keys).isSome) ∧
    ∀ s1 users errors, LoadMany f s keys = some (s1, users, errors) →
      users.length = keys.length ∧ errors.length = keys.length ∧
      ∀ i k, keys[i]? = some k → ∃ si sj r,
        LoadMany f s (keys.take i) = some (si, users.take i, errors.take i) ∧
        Load f si k = some (sj, r) ∧ users[i]? = some r.user ∧ errors[i]? = some r.err := by
  refine ⟨loadMany_total f keys s, ?_⟩
  induction keys generalizing s with
  | nil =>
      intro s1 users errors h
      simp only [LoadMany, Option.some.injEq, Prod.mk.injEq] at h
      obtain ⟨_, rfl, rfl⟩ := h
      exact ⟨rfl, rfl, by simp⟩
  | cons id ids ih =>
      intro s2 users errors h
      obtain ⟨s1, r1, q1, h1, h2, hq⟩ := loadMany_cons h
      simp only [Prod.mk.injEq] at hq
      obtain ⟨_, rfl, rfl⟩ := hq
      obtain ⟨hu, he, hi⟩ := ih s1 q1.1 q1.2.1 q1.2.2 h2
      refine ⟨by simp [hu], by simp [he], ?_⟩
      intro i k hk
      cases i with
      | zero =>
          simp only [List.getElem?_cons_zero, Option.some.injEq] at hk
          subst hk
          exact ⟨s, s1, r1, rfl, h1, by simp, by simp⟩
      | succ n =>
          simp only [List.getElem?_cons_succ] at hk
          obtain ⟨si, sj, r, h3, h4, h5, h6⟩ := hi n k hk
          refine ⟨si, sj, r, ?_, h4, by simpa using h5, by simpa using h6⟩
          simp [LoadMany, h1, h3]

/-- A solo `Load` against a repository that answers without error leaves its key cached,
forgets no cache entry, and invokes `GetByID` only for its own key and only when that key
was not cached. -/
theorem Load_ok {α : Type} (f : Fetcher α) (s s1 : State α) (id : Key) (r : userResult α)
    (h : Load f s id = some (s1, r)) (hok : ∀ l, (f l id).err = none) :
    s1.loader.cache id ≠ none ∧ (∀ k, s.loader.cache k ≠ none → s1.loader.cache k ≠ none) ∧
    ((s1.asked = s.asked) ∨ (s1.asked = s.asked ++ [id] ∧ s.loader.cache id = none)) := by
  cases hc : s.loader.cache id with
  | some v =>
      rw [Load_hit f s id v hc] at h
      simp only [Option.some.injEq, Prod.mk.injEq] at h
      rw [← h.1]
      exact ⟨by simp [hc], fun k hk => hk, Or.inl rfl⟩
  | none =>
      by_cases hb : s.loader.pending id = []
      · rw [Load_miss f s id hc hb] at h
        simp only [Option.some.injEq, Prod.mk.injEq] at h
        rw [← h.1]
        refine ⟨by simp [hok, UserLoader.Prime], ?_, Or.inr ⟨by simp [State.asked], rfl⟩⟩
        intro k hk
        by_cases hki : k = id
        · subst hki; exact absurd hc hk
        · simpa [hok, UserLoader.Prime, Function.update, hki] using hk
      · rw [Load_joined f s id hc hb] at h
        cases h

/-- Against a repository that fails for no key of the list, the keys `LoadMany` asks for are
pairwise distinct keys of the list that were not cached before. -/
theorem loadMany_fetches {α : Type} (f : Fetcher α) (keys : List Key) :
    ∀ (s : State α) (q : State α × List (Option α) × List (Option String)),
    (∀ l, ∀ k ∈ keys, (f l k).err = none) → LoadMany f s keys = some q →
    ∃ fetched, q.1.asked = s.asked ++ fetched ∧
      fetched.Nodup ∧ (∀ k ∈ fetched, k ∈ keys ∧ s.loader.cache k = none) ∧
      (∀ k, s.loader.cache k ≠ none → q.1.loader.cache k ≠ none) := by
  induction keys with
  | nil =>
      intro s q _ h
      simp only [LoadMany, Option.some.injEq] at h
      subst h
      exact ⟨[], by simp, List.nodup_nil, by simp, fun k hk => hk⟩
  | cons id ids ih =>
      intro s q hok h
      obtain ⟨s1, r1, q1, h1, h2, rfl⟩ := loadMany_cons h
      obtain ⟨hc1, hmono, hasked⟩ :=
        Load_ok f s s1 id r1 h1 (fun l => hok l id (List.mem_cons_self _ _))
      obtain ⟨new, ha, hnd, hmem, hmono2⟩ :=
        ih s1 q1 (fun l k hk => hok l k (List.mem_cons_of_mem _ hk)) h2
      rcases hasked with ha1 | ⟨ha1, hc0⟩
      · refine ⟨new, by simp [ha, ha1], hnd, ?_, fun k hk => hmono2 k (hmono k hk)⟩
        intro k hk
        refine ⟨List.mem_cons_of_mem _ (hmem k hk).1, ?_⟩
        by_contra hne
        exact hmono k hne (hmem k hk).2
      · refine ⟨id :: new, by simp [ha, ha1], ?_, ?_, fun k hk => hmono2 k (hmono k hk)⟩
        · refine List.nodup_cons.mpr ⟨fun hin => hc1 (hmem id hin).2, hnd⟩
        · intro k hk
          rcases List.mem_cons.mp hk with rfl | hk
          · exact ⟨List.mem_cons_self _ _, hc0⟩
          · refine ⟨List.mem_cons_of_mem _ (hmem k hk).1, ?_⟩
            by_contra hne
            exact hmono k hne (hmem k hk).2

/-- C4, as the code has it: when the repository fails for no key of the list, one `LoadMany`
call (which returns whenever no key of the list has a pending entry served by another
goroutine) invokes `GetByID` at most once per distinct key, and only for keys of the list:
the keys asked during the call form a list without repetition. -/
theorem loadMany_one_fetch_per_key {α : Type} (f : Fetcher α) (s : State α) (keys : List Key)
    (hok : ∀ l, ∀ k ∈ keys, (f l k).err = none) :
    ((∀ k ∈ keys, s.loader.batch k = none) → (LoadMany f s keys).isSome) ∧
    ∀ q, LoadMany f s keys = some q →
      ∃ fetched, q.1.asked = s.asked ++ fetched ∧ fetched.Nodup ∧ ∀ k ∈ fetched, k ∈ keys := by
  refine ⟨loadMany_total f keys s, ?_⟩
  intro q hq
  obtain ⟨new, h2, h3, h4, _⟩ := loadMany_fetches f keys s q hok hq
  exact ⟨new, h2, h3, fun k hk => (h4 k hk).1⟩

/-- C4, counterexample: against a repository that fails for `a`, `LoadMany([a, a, b])` on a
fresh loader invokes `GetByID(a)` twice. -/
theorem loadMany_refetches_failed_key :
    (LoadMany (fun _ k => if k = "a" then ⟨none, some "user not found"⟩ else ⟨some 7, none⟩)
      (State.init Nat) ["a", "a", "b"]).map (fun q => (q.1.asked, q.2)) =
      some (["a", "a", "b"],
        [none, none, some 7], [some "user not found", some "user not found", none]) := by
  decide

/-- C4, witness: `LoadMany([a, a, b])` on a fresh loader against a repository that always
answers user 7. -/
theorem loadMany_one_fetch_per_key_witness :
    (LoadMany (fun _ _ => ⟨some 7, none⟩) (State.init Nat) ["a", "a", "b"]).isSome ∧
    ∀ q, LoadMany (fun _ _ => ⟨some 7, none⟩) (State.init Nat) ["a", "a", "b"] = some q →
      ∃ fetched, q.1.asked = (State.init Nat).asked ++ fetched ∧ fetched.Nodup ∧
        ∀ k ∈ fetched, k ∈ ["a", "a", "b"] :=
  ⟨(loadMany_one_fetch_per_key (fun _ _ => ⟨some 7, none⟩) (State.init Nat) ["a", "a", "b"]
      (fun _ _ _ => rfl)).1 (fun _ _ => rfl),
    (loadMany_one_fetch_per_key (fun _ _ => ⟨some 7, none⟩) (State.init Nat) ["a", "a", "b"]
      (fun _ _ _ => rfl)).2⟩

/-! ## One run of `startBatch` -/

theorem set_eq_self_of_getElem? {β : Type} {l : List β} {i : Nat} {a : β}
    (h : l[i]? = some a) : l.set i a = l := by
  induction l generalizing i with
  | nil => rfl
  | cons x xs ih =>
      cases i with
      | zero => simp at h; simp [h]
      | succ n => simp at h; simp [ih h]

theorem drop_eq_cons_of_getElem? {β : Type} {l : List β} {i : Nat} {a : β}
    (h : l[i]? = some a) : l.drop i = a :: l.drop (i + 1) := by
  induction l generalizing i with
  | nil => simp at h
  | cons x xs ih =>
      cases i with
      | zero => simp at h; simp [h]
      | succ n => simp at h; simpa using ih h

/-- The send loop run alone is the schedule `send, close, send, close, ...` of its job. -/
theorem deliver_eq_run {α : Type} (d : Nat) :
    ∀ (n : Nat) (s : State α),
      deliver s d n = run s (List.replicate n [Event.send d, Event.close d]).flatten := by
  intro n
  induction n with
  | zero => intro s; rfl
  | succ n ih =>
      intro s
      simp only [deliver, List.replicate_succ, List.flatten_cons, List.cons_append,
        List.nil_append, run, step]
      cases doSend s d with
      | none => rfl
      | some s1 =>
          simp only [Option.some_bind]
          cases doClose s1 d with
          | none => rfl
          | some s2 => simpa using ih s2

/-- A solo run of `startBatch` is the schedule of its sections in program order. -/
theorem startBatch_eq_run {α : Type} (s : State α) (d : Nat) (r : userResult α) :
    startBatch s d r =
      (run s [Event.drain d, Event.fetchCall d, Event.fetchReturn d r,
        Event.cacheResult d]).bind fun s4 =>
        run s4 (List.replicate ((s4.jobs[d]?.map BatchJob.batch).getD []).length
          [Event.send d, Event.close d]).flatten := by
  simp only [startBatch, run, step, deliver_eq_run]
  cases doDrain s d with
  | none => rfl
  | some s1 =>
      simp only [Option.some_bind]
      cases doFetchCall s1 d with
      | none => rfl
      | some s2 =>
          simp only [Option.some_bind]
          cases doFetchReturn s2 d r with
          | none => rfl
          | some s3 =>
              simp only [Option.some_bind]
              cases doCacheResult s3 d with
              | none => rfl
              | some s4 => simp

/-- The send loop of job `d` from index `j.i` on, run alone: it sends the fetched pair once on
every remaining channel of the slice, closes it, and ends the job. -/
theorem deliver_spec {α : Type} (d : Nat) (r : userResult α) :
    ∀ (m : Nat) (s : State α) (j : BatchJob α), s.jobs[d]? = some j →
      j.pc = loopPC j.batch j.i → j.result = some r → j.i + m = j.batch.length →
      j.batch.Nodup →
      (∀ n t, j.i ≤ n → j.batch[n]? = some t →
        ∃ c, s.calls[t]? = some c ∧ c.chan = none ∧ c.closed = false) →
      ∃ s1, deliver s d m = some s1 ∧ s1.loader = s.loader ∧ s1.fetchLog = s.fetchLog ∧
        s1.jobs = s.jobs.set d { j with pc := BatchPC.done, i := j.batch.length } ∧
        s1.sendLog = s.sendLog ++ (j.batch.drop j.i).map (fun t => (t, r)) ∧
        (∀ t ∈ j.batch.drop j.i, ∀ c, s.calls[t]? = some c →
          s1.calls[t]? = some { c with chan := some r, closed := true }) ∧
        (∀ t, t ∉ j.batch.drop j.i → s1.calls[t]? = s.calls[t]?) := by
  intro m
  induction m with
  | zero =>
      intro s j hj hpc hr hi _ _
      have hi2 : j.i = j.batch.length := by omega
      have hdone : j.pc = BatchPC.done := by rw [hpc, hi2]; simp [loopPC]
      have hjj : ({ j with pc := BatchPC.done, i := j.batch.length } : BatchJob α) = j := by
        cases j; simp_all
      refine ⟨s, rfl, rfl, rfl, ?_, ?_, ?_, fun _ _ => rfl⟩
      · rw [hjj, set_eq_self_of_getElem? hj]
      · rw [hi2]; simp
      · intro t ht; rw [hi2] at ht; simp at ht
  | succ m ih =>
      intro s j hj hpc hr hi hnd hcalls
      have hlt : j.i < j.batch.length := by omega
      have hsend : j.pc = BatchPC.sending := by rw [hpc]; simp [loopPC, hlt]
      obtain ⟨t, ht⟩ : ∃ t, j.batch[j.i]? = some t :=
        ⟨j.batch[j.i], List.getElem?_eq_getElem hlt⟩
      obtain ⟨c, hc, hch, hcl⟩ := hcalls j.i t (Nat.le_refl _) ht
      have htl : t < s.calls.length := lt_length_of_getElem? hc
      have hdl : d < s.jobs.length := lt_length_of_getElem? hj
      -- the state after `ch <- result`
      have h1 : doSend s d = some { s with
          calls := s.calls.set t { c with chan := some r }
          jobs := s.jobs.set d { j with pc := BatchPC.closing }
          sendLog := s.sendLog ++ [(t, r)] } := by
        simp [doSend, hj, hsend, hr, ht, hc, hch, hcl]
      -- the state after `close(ch)`
      have h2 : doClose { s with
          calls := s.calls.set t { c with chan := some r }
          jobs := s.jobs.set d { j with pc := BatchPC.closing }
          sendLog := s.sendLog ++ [(t, r)] } d = some { s with
          calls := s.calls.set t { c with chan := some r, closed := true }
          jobs := s.jobs.set d { j with pc := loopPC j.batch (j.i + 1), i := j.i + 1 }
          sendLog := s.sendLog ++ [(t, r)] } := by
        simp [doClose, hdl, htl, ht, hcl]
      have hne : ∀ n t2, j.i + 1 ≤ n → j.batch[n]? = some t2 → t2 ≠ t := by
        intro n t2 hn hn2 e
        subst e
        have := List.getElem?_inj hlt hnd (ht.trans hn2.symm)
        omega
      obtain ⟨s1, hs1, hl, hf, hjobs, hsl, hin, hout⟩ := ih
        { s with
          calls := s.calls.set t { c with chan := some r, closed := true }
          jobs := s.jobs.set d { j with pc := loopPC j.batch (j.i + 1), i := j.i + 1 }
          sendLog := s.sendLog ++ [(t, r)] }
        { j with pc := loopPC j.batch (j.i + 1), i := j.i + 1 }
        (by simp [hdl]) rfl hr (by simp; omega) hnd
        (by
          intro n t2 hn hn2
          obtain ⟨c2, hc2, hx⟩ := hcalls n t2 (by simp at hn; omega) hn2
          refine ⟨c2, ?_, hx⟩
          simp only
          rw [List.getElem?_set_ne (fun e => hne n t2 hn hn2 e.symm)]
          exact hc2)
      have hdrop := drop_eq_cons_of_getElem? ht
      refine ⟨s1, by simp [deliver, h1, h2, hs1], hl, hf, ?_, ?_, ?_, ?_⟩
      · rw [hjobs]; simp
      · rw [hsl, hdrop]; simp
      · intro t2 ht2 c2 hc2
        rw [hdrop] at ht2
        by_cases e : t2 = t
        · subst e
          rw [hc] at hc2
          cases hc2
          have hnot : t2 ∉ j.batch.drop (j.i + 1) := by
            intro hm
            obtain ⟨n, hn⟩ := List.getElem?_of_mem hm
            rw [List.getElem?_drop] at hn
            exact hne _ t2 (Nat.le_add_right _ _) hn rfl
          rw [hout t2 hnot]
          simp [htl]
        · have hm : t2 ∈ j.batch.drop (j.i + 1) := by
            rcases List.mem_cons.mp ht2 with h3 | h3
            · exact absurd h3 e
            · exact h3
          refine hin t2 hm c2 ?_
          simp only
          rw [List.getElem?_set_ne (fun x => e x.symm)]
          exact hc2
      · intro t2 ht2
        rw [hdrop] at ht2
        have e : t2 ≠ t := fun e => ht2 (e ▸ List.mem_cons_self _ _)
        have hm : t2 ∉ j.batch.drop (j.i + 1) := fun hm => ht2 (List.mem_cons_of_mem _ hm)
        rw [hout t2 hm]
        simp only
        rw [List.getElem?_set_ne (fun x => e x.symm)]

/-- One whole run of a sleeping job on a well-formed state: the key leaves the pending table,
`GetByID` is invoked once, the cache is primed on success only, and the fetched pair is sent
once on each detached channel and on no other. -/
theorem startBatch_spec {α : Type} {s : State α} (hw : WellFormed s) {d : Nat}
    {j : BatchJob α} (hj : s.jobs[d]? = some j) (hpc : j.pc = BatchPC.sleeping)
    (r : userResult α) :
    ∃ s1, startBatch s d r = some s1 ∧
      s1.loader.batch = Function.update s.loader.batch j.id none ∧
      s1.loader.cache =
        (if r.err.isNone then Function.update s.loader.cache j.id (some r.user)
          else s.loader.cache) ∧
      s1.fetchLog = s.fetchLog ++ [(d, j.id)] ∧
      s1.jobs = s.jobs.set d
        ⟨j.id, BatchPC.done, s.loader.pending j.id, some r, (s.loader.pending j.id).length⟩ ∧
      s1.sendLog = s.sendLog ++ (s.loader.pending j.id).map (fun t => (t, r)) ∧
      (∀ t ∈ s.loader.pending j.id, ∀ c, s.calls[t]? = some c →
        s1.calls[t]? = some { c with chan := some r, closed := true }) ∧
      (∀ t, t ∉ s.loader.pending j.id → s1.calls[t]? = s.calls[t]?) := by
  have hdl : d < s.jobs.length := lt_length_of_getElem? hj
  obtain ⟨s1, hs1, hl, hf, hjobs, hsl, hin, hout⟩ := deliver_spec d r
    (s.loader.pending j.id).length
    { loader :=
        if r.err.isNone then
          UserLoader.Prime { s.loader with batch := Function.update s.loader.batch j.id none }
            j.id r.user
        else { s.loader with batch := Function.update s.loader.batch j.id none }
      calls := s.calls
      jobs := s.jobs.set d
        ⟨j.id, loopPC (s.loader.pending j.id) 0, s.loader.pending j.id, some r, 0⟩
      fetchLog := s.fetchLog ++ [(d, j.id)]
      sendLog := s.sendLog }
    ⟨j.id, loopPC (s.loader.pending j.id) 0, s.loader.pending j.id, some r, 0⟩
    (by simp [hdl]) rfl rfl (by simp) (hw.pending_nodup j.id)
    (by
      intro n t _ hn
      obtain ⟨c, hc, _, hu⟩ := hw.pending_ok j.id t (List.getElem?_mem hn)
      exact ⟨c, hc, hu.2.1, hu.2.2⟩)
  refine ⟨s1, ?_, ?_, ?_, hf, ?_, ?_, ?_, ?_⟩
  · simpa [startBatch, doDrain, doFetchCall, doFetchReturn, doCacheResult, hj, hpc, hdl]
      using hs1
  · rw [hl]; simp only; split <;> rfl
  · rw [hl]; simp only; split <;> rfl
  · rw [hjobs]; simp
  · simpa using hsl
  · simpa using hin
  · simpa using hout

theorem run_append {α : Type} (s : State α) (es fs : List (Event α)) :
    run s (es ++ fs) = (run s es).bind fun s1 => run s1 fs := by
  induction es generalizing s with
  | nil => rfl
  | cons e es ih =>
      simp only [List.cons_append, run]
      cases step s e with
      | none => rfl
      | some s2 => exact ih s2

theorem reachable_run {α : Type} {s s1 : State α} (es : List (Event α)) (h : Reachable s)
    (h1 : run s es = some s1) : Reachable s1 := by
  obtain ⟨fs, hfs⟩ := h
  exact ⟨fs ++ es, by rw [run_append, hfs]; exact h1⟩

theorem reachable_twoWaiting : Reachable twoWaiting :=
  ⟨[Event.Load "u1", Event.Load "u1", Event.enqueue 0, Event.enqueue 1], rfl⟩

theorem reachable_twoServed : Reachable twoServed :=
  reachable_run
    [Event.drain 0, Event.fetchCall 0, Event.fetchReturn 0 ⟨some 7, none⟩, Event.cacheResult 0,
      Event.send 0, Event.close 0, Event.send 0, Event.close 0,
      Event.receive 0, Event.receive 1] reachable_twoWaiting rfl

/-- In a list whose first components are pairwise distinct, the entries with a given first
component are the one entry that has it. -/
theorem filter_fst_eq {β : Type} (d : Nat) (k : β) :
    ∀ l : List (Nat × β), (l.map Prod.fst).Nodup → (d, k) ∈ l →
      l.filter (fun e => decide (e.1 = d)) = [(d, k)] := by
  intro l
  induction l with
  | nil => intro _ h; cases h
  | cons x xs ih =>
      intro hnd hm
      rw [List.map_cons, List.nodup_cons] at hnd
      rcases List.mem_cons.mp hm with h | h
      · subst h
        have hnone : xs.filter (fun e => decide (e.1 = d)) = [] := by
          rw [List.filter_eq_nil_iff]
          intro e he hd
          simp only [decide_eq_true_eq] at hd
          have hin : e.1 ∈ xs.map Prod.fst := List.mem_map_of_mem Prod.fst he
          rw [hd] at hin
          exact hnd.1 hin
        simp [List.filter_cons, hnone]
      · have hx : x.1 ≠ d := by
          intro e
          have hin : (d, k).1 ∈ xs.map Prod.fst := List.mem_map_of_mem Prod.fst h
          exact hnd.1 (e ▸ hin)
        simp [List.filter_cons, hx, ih hnd.2 h]

/-- At most one element of a list satisfies a predicate that pins down the index. -/
theorem countP_le_one {β : Type} (p : β → Bool) :
    ∀ l : List β, (∀ (i1 i2 : Nat) (a1 a2 : β), l[i1]? = some a1 → l[i2]? = some a2 →
      p a1 = true → p a2 = true → i1 = i2) → l.countP p ≤ 1 := by
  intro l
  induction l with
  | nil => intro _; simp
  | cons x xs ih =>
      intro h
      have hxs : ∀ (i1 i2 : Nat) (a1 a2 : β), xs[i1]? = some a1 → xs[i2]? = some a2 →
          p a1 = true → p a2 = true → i1 = i2 := by
        intro i1 i2 a1 a2 h1 h2 p1 p2
        have := h (i1 + 1) (i2 + 1) a1 a2 (by simpa using h1) (by simpa using h2) p1 p2
        omega
      by_cases hx : p x = true
      · have hzero : xs.countP p = 0 := by
          rw [List.countP_eq_zero]
          intro a ha pa
          obtain ⟨n, hn⟩ := List.getElem?_of_mem ha
          have := h 0 (n + 1) x a (by simp) (by simpa using hn) hx pa
          omega
        simp [List.countP_cons, hx, hzero]
      · simp only [List.countP_cons, hx]
        simpa using ih hxs

/-- A job has at most one entry in the fetch log. -/
theorem fetchesOf_length_le_one {α : Type} {s : State α} (hf : FetchLogOk s) (d : Nat) :
    (s.fetchesOf d).length ≤ 1 := by
  by_cases h : ∃ k, (d, k) ∈ s.fetchLog
  · obtain ⟨k, hk⟩ := h
    have := filter_fst_eq d k s.fetchLog hf.logged_once hk
    simp [State.fetchesOf, this]
  · have hnil : s.fetchesOf d = [] := by
      unfold State.fetchesOf
      rw [List.filter_eq_nil_iff]
      intro e he hd
      simp only [decide_eq_true_eq] at hd
      exact h ⟨e.2, by rw [← hd]; exact he⟩
    simp [hnil]

/-! ## The coalescing contract -/

/-- C1, counterexample: a `Load("u1")` issued while the `startBatch` started by an earlier
`Load("u1")` still sleeps (inside the batch window) reads the cache before the drain but
registers its channel after it.  It starts a second `startBatch`: `GetByID("u1")` is invoked
twice and the two callers return different pairs. -/
theorem late_registration_refetches :
    (run (State.init Nat) [Event.Load "u1", Event.enqueue 0, Event.Load "u1"]).map
        (fun s => (s.calls.map LoadCall.id, s.jobs.map BatchJob.pc)) =
      some (["u1", "u1"], [BatchPC.sleeping]) ∧
    (run (State.init Nat)
        [Event.Load "u1", Event.enqueue 0, Event.Load "u1",
          Event.drain 0, Event.fetchCall 0, Event.fetchReturn 0 ⟨some 1, none⟩,
          Event.cacheResult 0, Event.send 0, Event.close 0, Event.receive 0,
          Event.enqueue 1,
          Event.drain 1, Event.fetchCall 1, Event.fetchReturn 1 ⟨some 2, none⟩,
          Event.cacheResult 1, Event.send 1, Event.close 1, Event.receive 1]).map
        (fun s => (s.asked, s.outcome 0, s.outcome 1)) =
      some (["u1", "u1"], some ⟨some 1, none⟩, some ⟨some 2, none⟩) := by
  constructor <;> decide

/-- C1, as the code has it: in every reachable state, a `startBatch` job has invoked `GetByID`
at most once, and the `Load` calls whose channels it detached together (those registered
between the creation of the pending entry and its drain) all carry the key of the job; each
of them that has returned has returned the one pair this job got from `GetByID`, and by then
the job has invoked `GetByID` exactly once, with its key. -/
theorem one_fetch_per_batch {α : Type} (s : State α) (d : Nat) (j : BatchJob α)
    (hs : Reachable s) (hj : s.jobs[d]? = some j) :
    (s.fetchesOf d).length ≤ 1 ∧
    ∀ t ∈ j.batch, ∃ c, s.calls[t]? = some c ∧ c.id = j.id ∧
      ∀ r, c.pc = LoadPC.returned r → j.result = some r ∧ s.fetchesOf d = [(d, j.id)] := by
  have hw := reachable_wf hs
  have hf := reachable_fetchlog hs
  refine ⟨fetchesOf_length_le_one hf d, ?_⟩
  intro t ht
  obtain ⟨n, hn⟩ := List.getElem?_of_mem ht
  obtain ⟨c, hc, hid, hslot⟩ := hw.slot_ok d j n t hj hn
  refine ⟨c, hc, hid, ?_⟩
  intro r hr
  have hu : ¬ c.Untouched := fun hu => by rw [hu.1] at hr; cases hr
  have hd : ∀ b, c.Delivered j.result b → j.result = some r := by
    rintro b ⟨_, r1, hr1, h1 | h1⟩
    · rw [h1.1] at hr; cases hr
    · rw [h1.1] at hr; cases hr; exact hr1
  have key : j.result = some r ∧ j.pc ≠ BatchPC.sleeping ∧ j.pc ≠ BatchPC.drained := by
    cases hp : j.pc <;> simp only [slotOk, hp] at hslot
    · exact absurd hslot hu
    · exact absurd hslot hu
    · exact absurd hslot hu
    · by_cases h1 : n < j.i
      · simp only [h1, if_true] at hslot
        exact ⟨hd _ hslot, by simp, by simp⟩
      · simp only [h1, if_false] at hslot
        exact absurd hslot hu
    · by_cases h1 : n < j.i
      · simp only [h1, if_true] at hslot
        exact ⟨hd _ hslot, by simp, by simp⟩
      · by_cases h2 : n = j.i
        · subst h2
          simp only [Nat.lt_irrefl, if_false, if_true] at hslot
          exact ⟨hd _ hslot, by simp, by simp⟩
        · simp only [h1, h2, if_false] at hslot
          exact absurd hslot hu
    · exact ⟨hd _ hslot, by simp, by simp⟩
  exact ⟨key.1, filter_fst_eq d j.id s.fetchLog hf.logged_once
    (hf.job_logged d j hj key.2.1 key.2.2)⟩

/-- C1, witness: the two `Load("u1")` calls of `twoServed` were detached together by job 0,
which fetched once; both returned user 7. -/
theorem one_fetch_per_batch_witness :
    Reachable twoServed ∧
    twoServed.jobs[0]? = some ⟨"u1", BatchPC.done, [0, 1], some ⟨some 7, none⟩, 2⟩ ∧
    (twoServed.fetchesOf 0).length ≤ 1 ∧
    ∀ t ∈ [0, 1], ∃ c, twoServed.calls[t]? = some c ∧ c.id = "u1" ∧
      ∀ r, c.pc = LoadPC.returned r →
        some (⟨some 7, none⟩ : userResult Nat) = some r ∧ twoServed.fetchesOf 0 = [(0, "u1")] :=
  ⟨reachable_twoServed, rfl,
    one_fetch_per_batch twoServed 0 ⟨"u1", BatchPC.done, [0, 1], some ⟨some 7, none⟩, 2⟩
      reachable_twoServed rfl⟩

/-- C2, counterexample: a `Load("u1")` that arrives after the first `startBatch` has drained
the pending list and before its `GetByID` has returned starts a second `startBatch`, and the
two `GetByID("u1")` invocations are in flight at once. -/
theorem overlapping_fetches :
    ∃ s : State Nat, Reachable s ∧ s.inFlight "u1" = 2 :=
  ⟨(run (State.init Nat)
      [Event.Load "u1", Event.enqueue 0, Event.drain 0, Event.fetchCall 0,
        Event.Load "u1", Event.enqueue 1, Event.drain 1, Event.fetchCall 1]).getD
      (State.init Nat),
    ⟨[Event.Load "u1", Event.enqueue 0, Event.drain 0, Event.fetchCall 0,
        Event.Load "u1", Event.enqueue 1, Event.drain 1, Event.fetchCall 1], rfl⟩,
    by decide⟩

/-- C2, as the code has it: in every reachable state at most one `startBatch` per key is still
before its drain, and every `startBatch` has invoked `GetByID` at most once; so a key has at
most one fetch in flight per detached pending list, while the fetches of successive lists may
overlap. -/
theorem one_sleeper_per_key {α : Type} (s : State α) (hs : Reachable s) :
    (∀ k, s.sleeping k ≤ 1) ∧ ∀ d, (s.fetchesOf d).length ≤ 1 := by
  have hsl := reachable_sleepers hs
  have hf := reachable_fetchlog hs
  constructor
  · intro k
    refine countP_le_one _ s.jobs ?_
    intro d1 d2 j1 j2 h1 h2 p1 p2
    simp only [Bool.and_eq_true, decide_eq_true_eq] at p1 p2
    exact hsl.sleeper_unique d1 d2 j1 j2 h1 h2 p1.2 p2.2 (p1.1.trans p2.1.symm)
  · exact fun d => fetchesOf_length_le_one hf d

/-- C2, witness: the reachable state `twoServed`. -/
theorem one_sleeper_per_key_witness :
    Reachable twoServed ∧
    (∀ k, twoServed.sleeping k ≤ 1) ∧ ∀ d, (twoServed.fetchesOf d).length ≤ 1 :=
  ⟨reachable_twoServed, one_sleeper_per_key twoServed reachable_twoServed⟩

/-- C9: in every reachable state and for every key `k` with pending list `l`, the sleeping
`startBatch(k)` job exists and one run of it removes `k` from the pending table, invokes
`GetByID(k)` exactly once, and sends the one pair `r` that invocation returned exactly once
on every channel of `l`, which holds no channel twice, and on no other channel: each channel
of `l` was empty and now holds `r`, every other call is as it was. -/
theorem startBatch_run {α : Type} (s : State α) (k : Key) (l : List Nat) (r : userResult α)
    (hs : Reachable s) (hk : s.loader.batch k = some l) :
    ∃ d j s1, s.jobs[d]? = some j ∧ j.id = k ∧ j.pc = BatchPC.sleeping ∧
      startBatch s d r = some s1 ∧ s1.loader.batch k = none ∧
      s1.fetchLog = s.fetchLog ++ [(d, k)] ∧
      s1.sendLog = s.sendLog ++ l.map (fun t => (t, r)) ∧ l.Nodup ∧
      (∀ t ∈ l, ∃ c, s.calls[t]? = some c ∧ c.chan = none ∧
        s1.calls[t]? = some { c with chan := some r, closed := true }) ∧
      (∀ t, t ∉ l → s1.calls[t]? = s.calls[t]?) := by
  have hw := reachable_wf hs
  obtain ⟨d, j, hj, hpc, hid⟩ := (reachable_sleepers hs).entry_sleeper k (by simp [hk])
  subst hid
  have hl : s.loader.pending j.id = l := by simp [UserLoader.pending, hk]
  obtain ⟨s1, h1, hb, _, hf, _, hsl, hin, hout⟩ := startBatch_spec hw hj hpc r
  rw [hl] at hsl hin hout
  refine ⟨d, j, s1, hj, rfl, hpc, h1, by simp [hb], hf, hsl, ?_, ?_, hout⟩
  · rw [← hl]; exact hw.pending_nodup j.id
  · intro t ht
    obtain ⟨c, hc, _, hu⟩ := hw.pending_ok j.id t (hl ▸ ht)
    exact ⟨c, hc, hu.2.1, hin t ht c hc⟩

/-- C9, witness: the sleeping job of `twoWaiting` run on the pending list `[0, 1]` of `u1`. -/
theorem startBatch_run_witness :
    ∃ d j s1, twoWaiting.jobs[d]? = some j ∧ j.id = "u1" ∧ j.pc = BatchPC.sleeping ∧
      startBatch twoWaiting d ⟨some 7, none⟩ = some s1 ∧ s1.loader.batch "u1" = none ∧
      s1.fetchLog = twoWaiting.fetchLog ++ [(d, "u1")] ∧
      s1.sendLog = twoWaiting.sendLog ++ [0, 1].map (fun t => (t, ⟨some 7, none⟩)) ∧
      [0, 1].Nodup ∧
      (∀ t ∈ [0, 1], ∃ c, twoWaiting.calls[t]? = some c ∧ c.chan = none ∧
        s1.calls[t]? = some { c with chan := some ⟨some 7, none⟩, closed := true }) ∧
      (∀ t, t ∉ [0, 1] → s1.calls[t]? = twoWaiting.calls[t]?) :=
  startBatch_run twoWaiting "u1" [0, 1] ⟨some 7, none⟩ reachable_twoWaiting rfl

/-- C6, counterexample: a `Load("u1")` that read the cache before the first `startBatch`
cached user 7 registers late and is served by a second `startBatch`, whose `GetByID("u1")`
fails.  The `Load("u1")` that follows this failed dispatch finds the entry of the first one
and returns user 7 without a new `GetByID` call: the keys asked stay `["u1", "u1"]`. -/
theorem load_after_error_hits_cache :
    (run (State.init Nat)
        [Event.Load "u1", Event.enqueue 0, Event.Load "u1",
          Event.drain 0, Event.fetchCall 0, Event.fetchReturn 0 ⟨some 7, none⟩,
          Event.cacheResult 0, Event.send 0, Event.close 0, Event.receive 0,
          Event.enqueue 1,
          Event.drain 1, Event.fetchCall 1, Event.fetchReturn 1 ⟨none, some "user not found"⟩,
          Event.cacheResult 1, Event.send 1, Event.close 1, Event.receive 1]).map
        (fun s => (s.outcome 1, s.asked, (Load (fun _ _ => ⟨some 8, none⟩) s "u1").map
          fun p => (p.2, p.1.asked))) =
      some (some ⟨none, some "user not found"⟩, ["u1", "u1"],
        some (⟨some 7, none⟩, ["u1", "u1"])) := by
  decide

/-- C6, as the code has it: in every reachable state, when the `GetByID(k)` of the
`startBatch(k)` that serves the pending list `l` returns the pointer `u` with a non-nil error
`e`, the run writes no cache entry and every waiter of `l` receives exactly `(u, e)`; the
`Load(k)` that follows invokes `GetByID(k)` anew, and returns what it answers then, when `k`
has no cache entry, and returns the cached pointer without a fetch when a `Prime` or another
`startBatch(k)` has cached one in the meantime. -/
theorem fetch_error_not_cached {α : Type} (s : State α) (k : Key) (l : List Nat)
    (u : Option α) (e : String) (hs : Reachable s) (hk : s.loader.batch k = some l) :
    ∃ d s1, startBatch s d ⟨u, some e⟩ = some s1 ∧ s1.fetchLog = s.fetchLog ++ [(d, k)] ∧
      s1.loader.cache = s.loader.cache ∧
      (∀ t ∈ l, ∃ s2, doReceive s1 t = some s2 ∧ s2.outcome t = some ⟨u, some e⟩) ∧
      (s.loader.cache k = none → ∀ f : Fetcher α, ∃ s2,
        Load f s1 k = some (s2, f s1.asked k) ∧
        s2.fetchLog = s1.fetchLog ++ [(s1.jobs.length, k)]) ∧
      (∀ v, s.loader.cache k = some v → ∀ f : Fetcher α, ∃ s2,
        Load f s1 k = some (s2, ⟨v, none⟩) ∧ s2.fetchLog = s1.fetchLog) := by
  have hw := reachable_wf hs
  obtain ⟨d, j, hj, hpc, hid⟩ := (reachable_sleepers hs).entry_sleeper k (by simp [hk])
  subst hid
  have hl : s.loader.pending j.id = l := by simp [UserLoader.pending, hk]
  obtain ⟨s1, h1, hb, hc, hf, _, _, hin, _⟩ := startBatch_spec hw hj hpc ⟨u, some e⟩
  rw [hl] at hin
  have hcache : s1.loader.cache = s.loader.cache := by simpa using hc
  refine ⟨d, s1, h1, hf, hcache, ?_, ?_, ?_⟩
  · intro t ht
    obtain ⟨c, hct, _, hu⟩ := hw.pending_ok j.id t (hl ▸ ht)
    have h2 := hin t ht c hct
    have htl : t < s1.calls.length := lt_length_of_getElem? h2
    refine ⟨_, by simp [doReceive, h2, hu.1]; rfl, ?_⟩
    simp [State.outcome, htl]
  · intro hnc f
    have hmiss := Load_miss f s1 j.id (by rw [hcache]; exact hnc)
      (pending_eq_nil_of_batch_none _ _ (by simp [hb]))
    exact ⟨_, hmiss, rfl⟩
  · intro v hv f
    exact ⟨_, Load_hit f s1 j.id v (by rw [hcache]; exact hv), rfl⟩

/-- C6, witness: the sleeping job of `twoWaiting` run with a repository that answers
`user not found`. -/
theorem fetch_error_not_cached_witness :
    ∃ d s1, startBatch twoWaiting d ⟨none, some "user not found"⟩ = some s1 ∧
      s1.fetchLog = twoWaiting.fetchLog ++ [(d, "u1")] ∧
      s1.loader.cache = twoWaiting.loader.cache ∧
      (∀ t ∈ [0, 1], ∃ s2, doReceive s1 t = some s2 ∧
        s2.outcome t = some ⟨none, some "user not found"⟩) ∧
      (twoWaiting.loader.cache "u1" = none → ∀ f : Fetcher Nat, ∃ s2,
        Load f s1 "u1" = some (s2, f s1.asked "u1") ∧
        s2.fetchLog = s1.fetchLog ++ [(s1.jobs.length, "u1")]) ∧
      (∀ v, twoWaiting.loader.cache "u1" = some v → ∀ f : Fetcher Nat, ∃ s2,
        Load f s1 "u1" = some (s2, ⟨v, none⟩) ∧ s2.fetchLog = s1.fetchLog) :=
  fetch_error_not_cached twoWaiting "u1" [0, 1] none "user not found" reachable_twoWaiting rfl

/-! ## Sample runs of the sequential contract -/

/-- C3, witness: a first `Load("u1")` on a fresh loader fetches user 7; the second returns it
although the repository would fail by then. -/
theorem load_after_load_witness :
    ∃ s1 s2, Load (fun _ _ => ⟨some 7, none⟩) (State.init Nat) "u1" =
        some (s1, ⟨some 7, none⟩) ∧
      Load (fun _ _ => ⟨none, some "user not found"⟩) s1 "u1" = some (s2, ⟨some 7, none⟩) ∧
      s2.fetchLog = s1.fetchLog :=
  load_after_load (fun _ _ => ⟨some 7, none⟩) (fun _ _ => ⟨none, some "user not found"⟩)
    (State.init Nat) "u1" (some 7) (by decide)

/-- C8, witness: `u1` is cached in `twoServed`; after `Clear("u1")` a `Load("u1")` fetches
once. -/
theorem clear_then_load_witness :
    ∃ s1 s2, step twoServed (Event.Clear "u1") = some s1 ∧
      Load (fun _ _ => ⟨some 8, none⟩) s1 "u1" = some (s2, ⟨some 8, none⟩) ∧
      s2.fetchLog = twoServed.fetchLog ++ [(twoServed.jobs.length, "u1")] :=
  clear_then_load (fun _ _ => ⟨some 8, none⟩) twoServed "u1" (by decide)

/-- C10, witness: `Prime("u1", 1)` on a fresh loader changes the entry of `u1`. -/
theorem cache_entry_frame_witness :
    (∃ v, (Event.Prime "u1" (some 1) : Event Nat) = Event.Prime "u1" v ∧
      Function.update (NewUserLoader Nat).cache "u1" (some (some 1)) "u1" = some v) ∨
    ((Event.Prime "u1" (some 1) : Event Nat) = Event.Clear "u1" ∧
      Function.update (NewUserLoader Nat).cache "u1" (some (some 1)) "u1" = none) ∨
    (∃ d j r, (Event.Prime "u1" (some 1) : Event Nat) = Event.cacheResult d ∧
      (State.init Nat).jobs[d]? = some j ∧ j.id = "u1" ∧ j.result = some r ∧ r.err = none ∧
      Function.update (NewUserLoader Nat).cache "u1" (some (some 1)) "u1" = some r.user) :=
  cache_entry_frame (State.init Nat)
    { State.init Nat with loader := (NewUserLoader Nat).Prime "u1" (some 1) }
    (Event.Prime "u1" (some 1)) "u1" rfl (by decide)

/-- C5, witness: `LoadMany([a, a, b])` on a fresh loader against a repository that fails
for `a`. -/
theorem loadMany_in_order_witness :
    (LoadMany (fun _ k => if k = "a" then ⟨none, some "user not found"⟩ else ⟨some 7, none⟩)
      (State.init Nat) ["a", "a", "b"]).isSome ∧
    ∀ s1 users errors,
      LoadMany (fun _ k => if k = "a" then ⟨none, some "user not found"⟩ else ⟨some 7, none⟩)
        (State.init Nat) ["a", "a", "b"] = some (s1, users, errors) →
      users.length = ["a", "a", "b"].length ∧ errors.length = ["a", "a", "b"].length ∧
      ∀ i k, ["a", "a", "b"][i]? = some k → ∃ si sj r,
        LoadMany (fun _ k => if k = "a" then ⟨none, some "user not found"⟩ else ⟨some 7, none⟩)
          (State.init Nat) (["a", "a", "b"].take i) = some (si, users.take i, errors.take i) ∧
        Load (fun _ k => if k = "a" then ⟨none, some "user not found"⟩ else ⟨some 7, none⟩)
          si k = some (sj, r) ∧
        users[i]? = some r.user ∧ errors[i]? = some r.err :=
  ⟨(loadMany_in_order _ (State.init Nat) ["a", "a", "b"]).1 (fun _ _ => rfl),
    (loadMany_in_order _ (State.init Nat) ["a", "a", "b"]).2⟩

/-! ## The pending table -/

/-- C12: in every state, `Prime(k, v)` and `Clear(k)` leave the pending table, the `Load`
calls and the `startBatch` jobs as they are and change no cache entry but that of `k`: after
`Prime` the cache maps `k` to `v`, after `Clear` it has no entry for `k`. -/
theorem prime_clear_frame {α : Type} (s : State α) (k : Key) (v : Option α) :
    (∃ s1, step s (Event.Prime k v) = some s1 ∧ s1.loader.batch = s.loader.batch ∧
      s1.calls = s.calls ∧ s1.jobs = s.jobs ∧ s1.loader.cache k = some v ∧
      ∀ k1, k1 ≠ k → s1.loader.cache k1 = s.loader.cache k1) ∧
    (∃ s1, step s (Event.Clear k) = some s1 ∧ s1.loader.batch = s.loader.batch ∧
      s1.calls = s.calls ∧ s1.jobs = s.jobs ∧ s1.loader.cache k = none ∧
      ∀ k1, k1 ≠ k → s1.loader.cache k1 = s.loader.cache k1) := by
  refine ⟨⟨_, rfl, rfl, rfl, rfl, ?_, ?_⟩, ⟨_, rfl, rfl, rfl, rfl, ?_, ?_⟩⟩
  · simp [UserLoader.Prime]
  · intro k1 hk; simp [UserLoader.Prime, Function.update, hk]
  · simp [UserLoader.Clear]
  · intro k1 hk; simp [UserLoader.Clear, Function.update, hk]

/-- A key with a pending entry has exactly one sleeping job. -/
theorem sleeping_eq_one {α : Type} {s : State α} (hs : Sleepers s) (k : Key)
    (hk : s.loader.batch k ≠ none) : s.sleeping k = 1 := by
  have hle : s.sleeping k ≤ 1 := by
    refine countP_le_one _ s.jobs ?_
    intro d1 d2 j1 j2 h1 h2 p1 p2
    simp only [Bool.and_eq_true, decide_eq_true_eq] at p1 p2
    exact hs.sleeper_unique d1 d2 j1 j2 h1 h2 p1.2 p2.2 (p1.1.trans p2.1.symm)
  have hpos : 0 < s.sleeping k := by
    obtain ⟨d, j, hj, hp, hid⟩ := hs.entry_sleeper k hk
    unfold State.sleeping
    rw [List.countP_pos_iff]
    exact ⟨j, List.getElem?_mem hj, by simp [hp, hid]⟩
  omega

/-- A key without pending entry has no sleeping job. -/
theorem sleeping_eq_zero {α : Type} {s : State α} (hs : Sleepers s) (k : Key)
    (hk : s.loader.batch k = none) : s.sleeping k = 0 := by
  unfold State.sleeping
  rw [List.countP_eq_zero]
  intro j hj hp
  simp only [Bool.and_eq_true, decide_eq_true_eq] at hp
  obtain ⟨d, hd⟩ := List.getElem?_of_mem hj
  exact hs.sleeper_entry d j hd hp.2 (hp.1 ▸ hk)

/-- C15: in every reachable state, the registration of a `Load(k)` that missed the cache
(lines 55-63) appends its one channel to the pending list of `k` and starts a `startBatch(k)`
exactly when that append created the entry (the list has length 1 after it); a `Load` that
joins an existing entry starts none.  Before the first registration no `startBatch(k)` sleeps,
after every registration exactly one does: one dispatcher per pending entry. -/
theorem dispatcher_started_once {α : Type} (s s1 : State α) (t : Nat) (hs : Reachable s)
    (h : doEnqueue s t = some s1) :
    ∃ c, s.calls[t]? = some c ∧ c.pc = LoadPC.checked ∧
      s1.loader.pending c.id = s.loader.pending c.id ++ [t] ∧
      ((s.loader.batch c.id = none ∧ s.sleeping c.id = 0 ∧
          (s1.loader.pending c.id).length = 1 ∧
          s1.jobs = s.jobs ++ [⟨c.id, BatchPC.sleeping, [], none, 0⟩]) ∨
        (s.loader.batch c.id ≠ none ∧ s.sleeping c.id = 1 ∧
          (s1.loader.pending c.id).length ≠ 1 ∧ s1.jobs = s.jobs)) ∧
      s1.sleeping c.id = 1 := by
  have hsl := reachable_sleepers hs
  have hsl1 := sleepers_doEnqueue hsl h
  obtain ⟨c, hc, hpc, rfl⟩ := doEnqueue_some h
  refine ⟨c, hc, hpc, ?_, ?_, ?_⟩
  · simp [UserLoader.pending]
  · cases hb : s.loader.batch c.id with
    | none =>
        left
        refine ⟨rfl, sleeping_eq_zero hsl c.id hb, ?_, ?_⟩
        · simp [UserLoader.pending, hb]
        · simp [UserLoader.pending, hb]
    | some l =>
        right
        have hl := hsl.entry_nonempty c.id l hb
        have hlen : l.length ≠ 0 := fun e => hl (List.length_eq_zero.mp e)
        refine ⟨by simp, sleeping_eq_one hsl c.id (by simp [hb]), ?_, ?_⟩
        · simp [UserLoader.pending, hb, hlen]
        · simp [UserLoader.pending, hb, hlen]
  · exact sleeping_eq_one hsl1 c.id (by simp)

/-! ## Blocked callers are held by the table or by a job -/

theorem held_init (α : Type) : Held (State.init α) := by
  intro t c h; simp [State.init] at h

/-- A step that keeps every holder and every blocked call keeps the blocked calls held. -/
theorem held_mono {α : Type} {s s1 : State α} (hh : Held s)
    (hcalls : ∀ (t : Nat) (c1 : LoadCall α), s1.calls[t]? = some c1 → c1.pc = LoadPC.waiting →
      (∃ c : LoadCall α, s.calls[t]? = some c ∧ c.pc = LoadPC.waiting ∧ c.id = c1.id) ∨
        t ∈ s1.loader.pending c1.id)
    (hpend : ∀ (k : Key) (t : Nat), t ∈ s.loader.pending k →
      t ∈ s1.loader.pending k ∨
        ∃ (d : Nat) (j : BatchJob α), s1.jobs[d]? = some j ∧ t ∈ j.batch)
    (hjobs : ∀ (d : Nat) (j : BatchJob α) (t : Nat), s.jobs[d]? = some j → t ∈ j.batch →
      ∃ (d1 : Nat) (j1 : BatchJob α), s1.jobs[d1]? = some j1 ∧ t ∈ j1.batch) : Held s1 := by
  intro t c1 hc1 hpc
  rcases hcalls t c1 hc1 hpc with ⟨c, hc, hcw, hid⟩ | h
  · rcases hh t c hc hcw with h | ⟨d, j, hj, ht⟩
    · rw [hid] at h
      exact hpend c1.id t h
    · exact Or.inr (hjobs d j t hj ht)
  · exact Or.inl h

/-- A job that changes neither its slice nor anything else another holder has. -/
theorem held_job_step {α : Type} {s s1 : State α} (hh : Held s) {d : Nat} {j : BatchJob α}
    (j1 : BatchJob α) (hj : s.jobs[d]? = some j) (hb : j1.batch = j.batch)
    (h1 : s1.loader.batch = s.loader.batch) (h3 : s1.jobs = s.jobs.set d j1)
    (hcalls : ∀ (t : Nat) (c1 : LoadCall α), s1.calls[t]? = some c1 → c1.pc = LoadPC.waiting →
      ∃ c : LoadCall α, s.calls[t]? = some c ∧ c.pc = LoadPC.waiting ∧ c.id = c1.id) :
    Held s1 := by
  refine held_mono hh (fun t c1 h hp => Or.inl (hcalls t c1 h hp)) ?_ ?_
  · intro k t ht
    left
    simpa [UserLoader.pending, h1] using ht
  · intro d2 j2 t hj2 ht
    by_cases hd : d2 = d
    · subst hd
      rw [hj] at hj2
      cases hj2
      exact ⟨d2, j1, by rw [h3, List.getElem?_set_self (lt_length_of_getElem? hj)],
        by rw [hb]; exact ht⟩
    · exact ⟨d2, j2, by rw [h3, List.getElem?_set_ne (fun e => hd e.symm)]; exact hj2, ht⟩

/-- A step that rewrites the record of call `t` without changing its key or making it block. -/
theorem calls_set_waiting {α : Type} {l : List (LoadCall α)} {t : Nat} {c : LoadCall α}
    (c1 : LoadCall α) (hc : l[t]? = some c) (hid : c1.id = c.id)
    (hpc : c1.pc = LoadPC.waiting → c.pc = LoadPC.waiting) :
    ∀ (t2 : Nat) (c2 : LoadCall α), (l.set t c1)[t2]? = some c2 → c2.pc = LoadPC.waiting →
      ∃ c3 : LoadCall α, l[t2]? = some c3 ∧ c3.pc = LoadPC.waiting ∧ c3.id = c2.id := by
  intro t2 c2 h2 hp
  rcases getElem?_set_some h2 with ⟨rfl, rfl⟩ | ⟨_, h2⟩
  · exact ⟨c, hc, hpc hp, hid.symm⟩
  · exact ⟨c2, h2, hp, rfl⟩

theorem held_step {α : Type} {s s1 : State α} {e : Event α} (hw : WellFormed s) (hh : Held s)
    (h : step s e = some s1) : Held s1 := by
  cases e with
  | Load id =>
      simp only [step, Option.some.injEq] at h
      subst h
      refine held_mono hh ?_ (fun k t ht => Or.inl ?_) (fun d j t hj ht => ⟨d, j, ?_, ht⟩)
      · intro t c1 hc1 hp
        left
        have hcalls : (doLoad s id).calls = s.calls ++ [⟨id, LoadPC.checked, none, false⟩] ∨
            ∃ v, (doLoad s id).calls = s.calls ++
              [⟨id, LoadPC.returned ⟨v, none⟩, none, false⟩] := by
          unfold doLoad; split
          · exact Or.inr ⟨_, rfl⟩
          · exact Or.inl rfl
        rcases hcalls with e | ⟨v, e⟩ <;> rw [e] at hc1 <;>
          rcases getElem?_snoc_some hc1 with h2 | ⟨_, rfl⟩
        · exact ⟨c1, h2, hp, rfl⟩
        · cases hp
        · exact ⟨c1, h2, hp, rfl⟩
        · cases hp
      · have : (doLoad s id).loader = s.loader := by unfold doLoad; split <;> rfl
        rw [this]; exact ht
      · have : (doLoad s id).jobs = s.jobs := by unfold doLoad; split <;> rfl
        rw [this]; exact hj
  | enqueue t =>
      obtain ⟨c, hc, hpc, rfl⟩ := doEnqueue_some h
      refine held_mono hh ?_ ?_ ?_
      · intro t2 c2 h2 hp
        rcases getElem?_set_some h2 with ⟨rfl, rfl⟩ | ⟨_, h2⟩
        · right
          simp [UserLoader.pending]
        · exact Or.inl ⟨c2, h2, hp, rfl⟩
      · intro k t2 ht
        left
        rw [pending_update]
        split
        · rename_i hk
          subst hk
          simp [ht]
        · exact ht
      · intro d j t2 hj ht
        refine ⟨d, j, ?_, ht⟩
        show (if _ then _ else _)[d]? = _
        split
        · exact getElem?_snoc_of_some hj
        · exact hj
  | receive t =>
      obtain ⟨c, hc, hpc, hr⟩ := doReceive_some h
      rcases hr with ⟨r, _, rfl⟩ | ⟨_, _, rfl⟩
      · refine held_mono hh (fun t2 c2 h2 hp => Or.inl ?_) (fun k t2 ht => Or.inl ht)
          (fun d j t2 hj ht => ⟨d, j, hj, ht⟩)
        exact calls_set_waiting { c with pc := LoadPC.returned r, chan := none } hc rfl
          (fun hx => by cases hx) t2 c2 h2 hp
      · refine held_mono hh (fun t2 c2 h2 hp => Or.inl ?_) (fun k t2 ht => Or.inl ht)
          (fun d j t2 hj ht => ⟨d, j, hj, ht⟩)
        exact calls_set_waiting { c with pc := LoadPC.returned userResult.zero } hc rfl
          (fun hx => by cases hx) t2 c2 h2 hp
  | Prime id v =>
      simp only [step, Option.some.injEq] at h
      subst h
      exact held_mono hh (fun t c1 h1 hp => Or.inl ⟨c1, h1, hp, rfl⟩)
        (fun k t ht => Or.inl ht) (fun d j t hj ht => ⟨d, j, hj, ht⟩)
  | Clear id =>
      simp only [step, Option.some.injEq] at h
      subst h
      exact held_mono hh (fun t c1 h1 hp => Or.inl ⟨c1, h1, hp, rfl⟩)
        (fun k t ht => Or.inl ht) (fun d j t hj ht => ⟨d, j, hj, ht⟩)
  | drain d =>
      obtain ⟨j, hj, hpc, rfl⟩ := doDrain_some h
      refine held_mono hh (fun t c1 h1 hp => Or.inl ⟨c1, h1, hp, rfl⟩) ?_ ?_
      · intro k t ht
        by_cases hk : k = j.id
        · subst hk
          right
          exact ⟨d, _, List.getElem?_set_self (lt_length_of_getElem? hj), ht⟩
        · left
          rw [pending_update, if_neg hk]
          exact ht
      · intro d2 j2 t hj2 ht
        by_cases hd : d2 = d
        · subst hd
          rw [hj] at hj2
          cases hj2
          obtain ⟨n, hn⟩ := List.getElem?_of_mem ht
          obtain ⟨c, _, _, hs⟩ := hw.slot_ok d2 j n t hj hn
          simp [slotOk, hpc] at hs
        · exact ⟨d2, j2, by
            show (s.jobs.set d _)[d2]? = _
            rw [List.getElem?_set_ne (fun e => hd e.symm)]; exact hj2, ht⟩
  | fetchCall d =>
      obtain ⟨j, hj, hpc, rfl⟩ := doFetchCall_some h
      exact held_job_step hh { j with pc := BatchPC.fetching } hj rfl rfl rfl
        (fun t c1 h1 hp => ⟨c1, h1, hp, rfl⟩)
  | fetchReturn d r =>
      obtain ⟨j, hj, hpc, rfl⟩ := doFetchReturn_some h
      exact held_job_step hh { j with pc := BatchPC.fetched, result := some r } hj rfl rfl rfl
        (fun t c1 h1 hp => ⟨c1, h1, hp, rfl⟩)
  | cacheResult d =>
      obtain ⟨j, r, hj, hpc, hr, rfl⟩ := doCacheResult_some h
      refine held_job_step hh { j with pc := loopPC j.batch 0, i := 0 } hj rfl ?_ rfl
        (fun t c1 h1 hp => ⟨c1, h1, hp, rfl⟩)
      show (if r.err.isNone = true then s.loader.Prime j.id r.user else s.loader).batch = _
      split <;> rfl
  | send d =>
      obtain ⟨j, r, t, c, hj, hpc, _, _, hc, _, _, rfl⟩ := doSend_some h
      exact held_job_step hh { j with pc := BatchPC.closing } hj rfl rfl rfl
        (calls_set_waiting { c with chan := some r } hc rfl (fun hx => hx))
  | close d =>
      obtain ⟨j, t, c, hj, hpc, _, hc, _, rfl⟩ := doClose_some h
      exact held_job_step hh { j with pc := loopPC j.batch (j.i + 1), i := j.i + 1 } hj rfl
        rfl rfl (calls_set_waiting { c with closed := true } hc rfl (fun hx => hx))

theorem reachable_held {α : Type} {s : State α} (h : Reachable s) : Held s := by
  obtain ⟨es, hes⟩ := h
  have := run_invariant (fun s => WellFormed s ∧ Held s)
    (fun _ _ _ hw hs => ⟨wf_step hw.1 hs, held_step hw.1 hw.2 hs⟩) es _ s
    ⟨wf_init α, held_init α⟩ hes
  exact this.2

theorem isWaiting_iff {α : Type} (pc : LoadPC α) : pc.isWaiting = true ↔ pc = LoadPC.waiting := by
  cases pc <;> simp [LoadPC.isWaiting]

theorem mem_waiters {α : Type} (s : State α) (k : Key) (t : Nat) :
    t ∈ s.waiters k ↔ ∃ c, s.calls[t]? = some c ∧ c.id = k ∧ c.pc = LoadPC.waiting := by
  unfold State.waiters
  rw [List.mem_filter, List.mem_range]
  constructor
  · rintro ⟨hlt, h⟩
    cases hc : s.calls[t]? with
    | none => rw [hc] at h; cases h
    | some c =>
        rw [hc] at h
        simp only [Bool.and_eq_true, decide_eq_true_eq, isWaiting_iff] at h
        exact ⟨c, rfl, h.1, h.2⟩
  · rintro ⟨c, hc, hid, hpc⟩
    refine ⟨lt_length_of_getElem? hc, ?_⟩
    rw [hc]
    simp [hid, hpc, LoadPC.isWaiting]

theorem detached_eq_false {α : Type} (s : State α) (t : Nat) :
    s.detached t = false ↔ ∀ (d : Nat) (j : BatchJob α), s.jobs[d]? = some j → t ∉ j.batch := by
  unfold State.detached
  rw [Bool.eq_false_iff, Ne, List.any_eq_true]
  constructor
  · intro h d j hj ht
    exact h ⟨j, List.getElem?_mem hj, by simpa using ht⟩
  · rintro h ⟨j, hj, ht⟩
    obtain ⟨d, hd⟩ := List.getElem?_of_mem hj
    exact h d j hd (by simpa using ht)

/-- C11, counterexample: after the drain the pending table has no entry for `u1`, yet the
call that registered is still blocked on its channel. -/
theorem drained_waiter_without_entry :
    ∃ s : State Nat, Reachable s ∧ s.loader.batch "u1" = none ∧ s.waiters "u1" = [0] :=
  ⟨(run (State.init Nat) [Event.Load "u1", Event.enqueue 0, Event.drain 0]).getD
      (State.init Nat),
    ⟨[Event.Load "u1", Event.enqueue 0, Event.drain 0], rfl⟩, by decide, by decide⟩

/-- C11, as the code has it: in every reachable state the pending list of `k` holds exactly
the `Load(k)` callers that are registered, have not received their result and have not been
detached by a drain; so the pending table has an entry for `k` if and only if there is such a
caller. -/
theorem pending_entry_iff {α : Type} (s : State α) (k : Key) (hs : Reachable s) :
    (∀ t, t ∈ s.loader.pending k ↔ (t ∈ s.waiters k ∧ s.detached t = false)) ∧
    (s.loader.batch k ≠ none ↔ ∃ t, t ∈ s.waiters k ∧ s.detached t = false) := by
  have hw := reachable_wf hs
  have hsl := reachable_sleepers hs
  have hh := reachable_held hs
  have hmem : ∀ t, t ∈ s.loader.pending k ↔ (t ∈ s.waiters k ∧ s.detached t = false) := by
    intro t
    rw [mem_waiters, detached_eq_false]
    constructor
    · intro ht
      obtain ⟨c, hc, hid, hu⟩ := hw.pending_ok k t ht
      exact ⟨⟨c, hc, hid, hu.1⟩, fun d j hj => hw.pending_job k t d j ht hj⟩
    · rintro ⟨⟨c, hc, hid, hpc⟩, hnd⟩
      rcases hh t c hc hpc with h | ⟨d, j, hj, ht⟩
      · rw [hid] at h; exact h
      · exact absurd ht (hnd d j hj)
  refine ⟨hmem, ?_⟩
  constructor
  · intro hb
    cases hl : s.loader.batch k with
    | none => exact absurd hl hb
    | some l =>
        have hne := hsl.entry_nonempty k l hl
        obtain ⟨t, ht⟩ := List.exists_mem_of_ne_nil l hne
        exact ⟨t, (hmem t).mp (by simp [UserLoader.pending, hl, ht])⟩
  · rintro ⟨t, ht⟩ hb
    have := (hmem t).mpr ht
    simp [UserLoader.pending, hb] at this

/-! ## Duplicate and distinct keys in `LoadMany` -/

/-- What a solo `Load` does to a key that is cached: it returns the entry when the key is its
own, and leaves the entry in place. -/
theorem Load_cached {α : Type} (f : Fetcher α) (s s1 : State α) (id k : Key)
    (r : userResult α) (v : Option α) (h : Load f s id = some (s1, r))
    (hk : s.loader.cache k = some v) :
    s1.loader.cache k = some v ∧ (id = k → r = ⟨v, none⟩) := by
  cases hc : s.loader.cache id with
  | some w =>
      rw [Load_hit f s id w hc] at h
      simp only [Option.some.injEq, Prod.mk.injEq] at h
      rw [← h.1, ← h.2]
      refine ⟨hk, ?_⟩
      intro e
      subst e
      rw [hk] at hc
      cases hc
      rfl
  | none =>
      have hne : k ≠ id := fun e => by rw [e, hc] at hk; cases hk
      by_cases hb : s.loader.pending id = []
      · rw [Load_miss f s id hc hb] at h
        simp only [Option.some.injEq, Prod.mk.injEq] at h
        rw [← h.1]
        refine ⟨?_, fun e => absurd e.symm hne⟩
        split <;> simp [UserLoader.Prime, Function.update, hne, hk]
      · rw [Load_joined f s id hc hb] at h
        cases h

/-- A solo `Load` that returns a nil error leaves the returned pointer cached. -/
theorem Load_nil_err {α : Type} (f : Fetcher α) (s s1 : State α) (id : Key) (v : Option α)
    (h : Load f s id = some (s1, ⟨v, none⟩)) : s1.loader.cache id = some v := by
  cases hc : s.loader.cache id with
  | some w =>
      rw [Load_hit f s id w hc] at h
      simp only [Option.some.injEq, Prod.mk.injEq, userResult.mk.injEq, and_true] at h
      rw [← h.1, ← h.2]
      exact hc
  | none =>
      by_cases hb : s.loader.pending id = []
      · rw [Load_miss f s id hc hb] at h
        simp only [Option.some.injEq, Prod.mk.injEq] at h
        rw [← h.1, h.2]
        simp [UserLoader.Prime]
      · rw [Load_joined f s id hc hb] at h
        cases h

/-- Every occurrence of a cached key in the list is answered by `LoadMany` from the cache. -/
theorem loadMany_cached {α : Type} (f : Fetcher α) (k : Key) (v : Option α) :
    ∀ (keys : List Key) (s : State α) (q : State α × List (Option α) × List (Option String)),
      LoadMany f s keys = some q → s.loader.cache k = some v →
      ∀ j : Nat, keys[j]? = some k → q.2.1[j]? = some v ∧ q.2.2[j]? = some none := by
  intro keys
  induction keys with
  | nil => intro s q _ _ j hj; simp at hj
  | cons id ids ih =>
      intro s q h hk j hj
      obtain ⟨s1, r1, q1, h1, h2, rfl⟩ := loadMany_cons h
      obtain ⟨hk1, hr⟩ := Load_cached f s s1 id k r1 v h1 hk
      cases j with
      | zero =>
          simp only [List.getElem?_cons_zero, Option.some.injEq] at hj
          rw [hr hj]
          simp
      | succ n =>
          simp only [List.getElem?_cons_succ] at hj
          simpa using ih s1 q1 h2 hk1 n hj

/-- C16, counterexample: against a repository whose first answer is an error and whose later
answers are user 7, `LoadMany([a, a])` returns `(nil, unavailable)` at position 0 and
`(7, nil)` at position 1. -/
theorem loadMany_duplicates_differ :
    (LoadMany (fun asked _ => if asked = [] then ⟨none, some "unavailable"⟩ else ⟨some 7, none⟩)
      (State.init Nat) ["a", "a"]).map (fun q => q.2) =
      some ([none, some 7], [some "unavailable", none]) := by
  decide

/-- C16, as the code has it: for every list of keys and every repository behaviour, when
`LoadMany` has returned a nil error at a position `i`, every later position `j` with the same
key holds the same value and a nil error (the later `Load` is served from the cache); so
duplicate keys share one result whenever the repository fails for no key of the list.  After
a failed fetch the next occurrence of the key fetches again and may return another pair. -/
theorem loadMany_duplicates_share {α : Type} (f : Fetcher α) (keys : List Key) :
    ∀ (s s1 : State α) (users : List (Option α)) (errors : List (Option String)),
      LoadMany f s keys = some (s1, users, errors) →
      ∀ (i j : Nat) (k : Key), i < j → keys[i]? = some k → keys[j]? = some k → errors[i]? = some none →
        users[j]? = users[i]? ∧ errors[j]? = some none := by
  induction keys with
  | nil => intro s s1 users errors _ i j k _ hi; simp at hi
  | cons id ids ih =>
      intro s s2 users errors h i j k hij hi hj he
      obtain ⟨s1, r1, q1, h1, h2, hq⟩ := loadMany_cons h
      simp only [Prod.mk.injEq] at hq
      obtain ⟨_, rfl, rfl⟩ := hq
      obtain ⟨n, rfl⟩ : ∃ n, j = n + 1 := ⟨j - 1, by omega⟩
      simp only [List.getElem?_cons_succ] at hj ⊢
      cases i with
      | zero =>
          simp only [List.getElem?_cons_zero, Option.some.injEq] at hi he ⊢
          subst hi
          have hr : r1 = ⟨r1.user, none⟩ := by cases r1; simp_all
          rw [hr] at h1
          have hc := Load_nil_err f s s1 id r1.user h1
          exact loadMany_cached f id r1.user ids s1 q1 h2 hc n hj
      | succ m =>
          simp only [List.getElem?_cons_succ] at hi he ⊢
          exact ih s1 q1.1 q1.2.1 q1.2.2 h2 m n k (by omega) hi hj he

/-- A solo `Load` of a key that is neither cached nor pending returns what the repository
answers, asks the repository for that one key, and touches no other key of the loader. -/
theorem Load_fresh {α : Type} (f : Fetcher α) (s : State α) (id : Key)
    (hc : s.loader.cache id = none) (hb : s.loader.batch id = none) :
    ∃ s1, Load f s id = some (s1, f s.asked id) ∧ s1.asked = s.asked ++ [id] ∧
      s1.fetchLog.length = s.fetchLog.length + 1 ∧
      ∀ k, k ≠ id → s1.loader.cache k = s.loader.cache k ∧
        s1.loader.batch k = s.loader.batch k := by
  refine ⟨_, Load_miss f s id hc (pending_eq_nil_of_batch_none _ _ hb), ?_, ?_, ?_⟩
  · simp [State.asked]
  · simp
  · intro k hne
    dsimp only
    split <;> simp [UserLoader.Prime, Function.update, hne]

/-- C17: for every list of pairwise distinct keys none of which is cached or pending, and
every repository behaviour, `LoadMany` returns and has invoked `GetByID` exactly once per key,
in input order, each invocation with that one key: the keys asked during the call are the
list itself, and the fetch log grows by as many entries as the list has keys. -/
theorem loadMany_distinct_keys {α : Type} (f : Fetcher α) (keys : List Key) :
    ∀ s : State α, keys.Nodup →
      (∀ k ∈ keys, s.loader.cache k = none ∧ s.loader.batch k = none) →
      ∃ q, LoadMany f s keys = some q ∧ q.1.asked = s.asked ++ keys ∧
        q.1.fetchLog.length = s.fetchLog.length + keys.length := by
  induction keys with
  | nil => intro s _ _; exact ⟨(s, [], []), rfl, by simp, by simp⟩
  | cons id ids ih =>
      intro s hnd h
      rw [List.nodup_cons] at hnd
      obtain ⟨hc, hb⟩ := h id (List.mem_cons_self _ _)
      obtain ⟨s1, h1, ha1, hl1, hfr⟩ := Load_fresh f s id hc hb
      obtain ⟨q, hq, ha, hl⟩ := ih s1 hnd.2 (by
        intro k hk
        have hne : k ≠ id := fun e => hnd.1 (e ▸ hk)
        obtain ⟨hck, hbk⟩ := h k (List.mem_cons_of_mem _ hk)
        rw [(hfr k hne).1, (hfr k hne).2]
        exact ⟨hck, hbk⟩)
      refine ⟨(q.1, (f s.asked id).user :: q.2.1, (f s.asked id).err :: q.2.2), ?_, ?_, ?_⟩
      · simp [LoadMany, h1, hq]
      · simp [ha, ha1]
      · simp [hl, hl1]; omega

/-- C11, witness: in `twoWaiting` the pending list `[0, 1]` of `u1` is the two blocked calls. -/
theorem pending_entry_iff_witness :
    Reachable twoWaiting ∧
      ((∀ t, t ∈ twoWaiting.loader.pending "u1" ↔
          (t ∈ twoWaiting.waiters "u1" ∧ twoWaiting.detached t = false)) ∧
        (twoWaiting.loader.batch "u1" ≠ none ↔
          ∃ t, t ∈ twoWaiting.waiters "u1" ∧ twoWaiting.detached t = false)) :=
  ⟨reachable_twoWaiting, pending_entry_iff twoWaiting "u1" reachable_twoWaiting⟩

theorem reachable_oneWaiting : Reachable oneWaiting :=
  ⟨[Event.Load "u1", Event.Load "u1", Event.enqueue 0], rfl⟩

/-- C15, witness: the second `Load("u1")` of `oneWaiting` joins the entry of the first and
starts nothing. -/
theorem dispatcher_started_once_witness :
    Reachable oneWaiting ∧ doEnqueue oneWaiting 1 = some twoWaiting ∧
      ∃ c, oneWaiting.calls[1]? = some c ∧ c.pc = LoadPC.checked ∧
        twoWaiting.loader.pending c.id = oneWaiting.loader.pending c.id ++ [1] ∧
        ((oneWaiting.loader.batch c.id = none ∧ oneWaiting.sleeping c.id = 0 ∧
            (twoWaiting.loader.pending c.id).length = 1 ∧
            twoWaiting.jobs = oneWaiting.jobs ++ [⟨c.id, BatchPC.sleeping, [], none, 0⟩]) ∨
          (oneWaiting.loader.batch c.id ≠ none ∧ oneWaiting.sleeping c.id = 1 ∧
            (twoWaiting.loader.pending c.id).length ≠ 1 ∧ twoWaiting.jobs = oneWaiting.jobs)) ∧
        twoWaiting.sleeping c.id = 1 :=
  ⟨reachable_oneWaiting, rfl,
    dispatcher_started_once oneWaiting twoWaiting 1 reachable_oneWaiting rfl⟩

/-- C16, witness: `LoadMany([a, a])` against a repository that answers user 7. -/
theorem loadMany_duplicates_share_witness :
    LoadMany (fun _ _ => (⟨some 7, none⟩ : userResult Nat)) (State.init Nat) ["a", "a"] =
        some (((LoadMany (fun _ _ => (⟨some 7, none⟩ : userResult Nat)) (State.init Nat)
          ["a", "a"]).getD (State.init Nat, [], [])).1, [some 7, some 7], [none, none]) ∧
      ([some 7, some 7] : List (Option Nat))[1]? = ([some 7, some 7] : List (Option Nat))[0]? ∧
      ([none, none] : List (Option String))[1]? = some none :=
  ⟨rfl, loadMany_duplicates_share (fun _ _ => (⟨some 7, none⟩ : userResult Nat)) ["a", "a"]
      (State.init Nat)
      ((LoadMany (fun _ _ => (⟨some 7, none⟩ : userResult Nat)) (State.init Nat)
          ["a", "a"]).getD (State.init Nat, [], [])).1
      [some 7, some 7] [none, none] rfl 0 1 "a" (by decide)
      (by decide) (by decide) (by decide)⟩

/-- C17, witness: `LoadMany([a, b])` on a fresh loader. -/
theorem loadMany_distinct_keys_witness :
    ["a", "b"].Nodup ∧
      ∃ q, LoadMany (fun _ _ => (⟨some 7, none⟩ : userResult Nat)) (State.init Nat) ["a", "b"] =
          some q ∧ q.1.asked = (State.init Nat).asked ++ ["a", "b"] ∧
        q.1.fetchLog.length = (State.init Nat).fetchLog.length + ["a", "b"].length :=
  ⟨by decide, loadMany_distinct_keys (fun _ _ => (⟨some 7, none⟩ : userResult Nat)) ["a", "b"]
      (State.init Nat) (by decide) (by intro k _; exact ⟨rfl, rfl⟩)⟩

/-! ## No maximum batch size -/

theorem reachable_maxBatch {α : Type} {s : State α} (h : Reachable s) :
    s.loader.maxBatch = 100 := by
  obtain ⟨es, hes⟩ := h
  refine run_invariant (fun s => s.loader.maxBatch = 100) ?_ es _ s rfl hes
  intro s s1 e hp hs
  cases e with
  | Load id =>
      simp only [step, Option.some.injEq] at hs
      rw [← hs]; unfold doLoad; split <;> exact hp
  | enqueue t => obtain ⟨c, _, _, rfl⟩ := doEnqueue_some hs; exact hp
  | receive t =>
      obtain ⟨c, _, _, h | h⟩ := doReceive_some hs
      · obtain ⟨r, _, rfl⟩ := h; exact hp
      · obtain ⟨_, _, rfl⟩ := h; exact hp
  | Prime id user => simp only [step, Option.some.injEq] at hs; rw [← hs]; exact hp
  | Clear id => simp only [step, Option.some.injEq] at hs; rw [← hs]; exact hp
  | drain d => obtain ⟨j, _, _, rfl⟩ := doDrain_some hs; exact hp
  | fetchCall d => obtain ⟨j, _, _, rfl⟩ := doFetchCall_some hs; exact hp
  | fetchReturn d r => obtain ⟨j, _, _, rfl⟩ := doFetchReturn_some hs; exact hp
  | cacheResult d =>
      obtain ⟨j, r, _, _, _, rfl⟩ := doCacheResult_some hs
      dsimp only; split <;> exact hp
  | send d => obtain ⟨j, r, t, c, _, _, _, _, _, _, _, rfl⟩ := doSend_some hs; exact hp
  | close d => obtain ⟨j, t, c, _, _, _, _, _, rfl⟩ := doClose_some hs; exact hp

/-- One `Load(k)` that misses the cache and registers at once: the pending list of `k` grows
by the channel of the call, whatever its length. -/
theorem run_load_enqueue {α : Type} (s : State α) (k : Key) (hc : s.loader.cache k = none) :
    ∃ s1, run s [Event.Load k, Event.enqueue s.calls.length] = some s1 ∧
      s1.loader.cache = s.loader.cache ∧
      s1.loader.pending k = s.loader.pending k ++ [s.calls.length] ∧
      s1.calls.length = s.calls.length + 1 := by
  have hl : doLoad s k = { s with calls := s.calls ++ [⟨k, LoadPC.checked, none, false⟩] } := by
    simp [doLoad, hc]
  have he : (doEnqueue (doLoad s k) s.calls.length).isSome = true := by
    rw [hl]; simp [doEnqueue]
  obtain ⟨s1, h1⟩ := Option.isSome_iff_exists.mp he
  obtain ⟨c, hc0, _, h2⟩ := doEnqueue_some h1
  rw [hl] at hc0 h2
  simp only [List.getElem?_concat_length, Option.some.injEq] at hc0
  subst hc0
  refine ⟨s1, by simp [run, step, h1], ?_, ?_, ?_⟩
  · rw [h2]
  · rw [h2]; simp [UserLoader.pending]
  · rw [h2]; simp

theorem run_loadsBeforeDrain {α : Type} (k : Key) :
    ∀ (n : Nat) (s : State α), s.loader.cache k = none →
      ∃ s1, run s (loadsBeforeDrain α k s.calls.length n) = some s1 ∧
        s1.loader.cache = s.loader.cache ∧
        s1.loader.pending k = s.loader.pending k ++ List.range' s.calls.length n := by
  intro n
  induction n with
  | zero => intro s _; exact ⟨s, rfl, rfl, by simp⟩
  | succ n ih =>
      intro s hc
      obtain ⟨s1, h1, hc1, hp1, hl1⟩ := run_load_enqueue s k hc
      obtain ⟨s2, h2, hc2, hp2⟩ := ih s1 (by rw [hc1]; exact hc)
      refine ⟨s2, ?_, by rw [hc2, hc1], ?_⟩
      · have := run_append s [Event.Load k, Event.enqueue s.calls.length]
          (loadsBeforeDrain α k s1.calls.length n)
        rw [h1, Option.some_bind, h2, hl1] at this
        exact this
      · rw [hp2, hp1, hl1, List.append_assoc]
        rfl

/-- C18: a `Load` that registers appends its one channel to the pending list of its key and
touches no other list, in every state and whatever the length of the list; and for every `n`,
from every reachable state in which `k` is not cached, `n` calls `Load(k)` that register
before the drain leave the pending list of `k` longer by exactly their `n` channels, also for
`n` above the `maxBatch` of 100 the loader was built with, and when `n` is positive the one
sleeping `startBatch` of `k` then returns and has sent the fetched pair to all `n` channels
and closed them, after a single `GetByID(k)`. -/
theorem no_max_batch {α : Type} (s : State α) (k : Key) (n : Nat) (r : userResult α)
    (hs : Reachable s) (hc : s.loader.cache k = none) :
    (∀ (s0 s2 : State α) (t : Nat), doEnqueue s0 t = some s2 →
      ∃ c, s0.calls[t]? = some c ∧
        s2.loader.pending c.id = s0.loader.pending c.id ++ [t] ∧
        ∀ k1, k1 ≠ c.id → s2.loader.pending k1 = s0.loader.pending k1) ∧
    ∃ s1, run s (loadsBeforeDrain α k s.calls.length n) = some s1 ∧
      s1.loader.maxBatch = 100 ∧
      s1.loader.pending k = s.loader.pending k ++ List.range' s.calls.length n ∧
      (s1.loader.pending k).length = (s.loader.pending k).length + n ∧
      (0 < n → ∃ d j s2, s1.jobs[d]? = some j ∧ j.id = k ∧ j.pc = BatchPC.sleeping ∧
        startBatch s1 d r = some s2 ∧ s2.fetchLog = s1.fetchLog ++ [(d, k)] ∧
        ∀ t ∈ List.range' s.calls.length n, ∃ c, s2.calls[t]? = some c ∧ c.id = k ∧
          c.pc = LoadPC.waiting ∧ c.chan = some r ∧ c.closed = true) := by
  constructor
  · intro s0 s2 t h
    obtain ⟨c, hc0, _, rfl⟩ := doEnqueue_some h
    refine ⟨c, hc0, by simp [UserLoader.pending], ?_⟩
    intro k1 hk1
    simp [UserLoader.pending, Function.update, hk1]
  · obtain ⟨s1, h1, _, hp⟩ := run_loadsBeforeDrain k n s hc
    have hr1 : Reachable s1 := reachable_run _ hs h1
    refine ⟨s1, h1, reachable_maxBatch hr1, hp, by simp [hp], ?_⟩
    intro hn
    have hw := reachable_wf hr1
    have hne : s1.loader.batch k ≠ none := by
      intro hb
      have := pending_eq_nil_of_batch_none _ _ hb
      rw [hp] at this
      have hl := congrArg List.length this
      simp at hl
      omega
    obtain ⟨d, j, hj, hpc, hid⟩ := (reachable_sleepers hr1).entry_sleeper k hne
    subst hid
    obtain ⟨s2, h2, _, _, hf, _, _, hin, _⟩ := startBatch_spec hw hj hpc r
    refine ⟨d, j, s2, hj, rfl, hpc, h2, hf, ?_⟩
    intro t ht
    have htp : t ∈ s1.loader.pending j.id := by rw [hp]; exact List.mem_append_right _ ht
    obtain ⟨c, hc1, hid, hu⟩ := hw.pending_ok j.id t htp
    exact ⟨_, hin t htp c hc1, hid, hu.1, rfl, rfl⟩

/-- C18, witness: 101 calls `Load("u1")` on a fresh loader. -/
theorem no_max_batch_witness :
    Reachable (State.init Nat) ∧ (State.init Nat).loader.cache "u1" = none ∧
      ∃ s1, run (State.init Nat) (loadsBeforeDrain Nat "u1" (State.init Nat).calls.length 101) =
          some s1 ∧
        s1.loader.maxBatch = 100 ∧
        s1.loader.pending "u1" = (State.init Nat).loader.pending "u1" ++
          List.range' (State.init Nat).calls.length 101 ∧
        (s1.loader.pending "u1").length = ((State.init Nat).loader.pending "u1").length + 101 ∧
        (0 < 101 → ∃ d j s2, s1.jobs[d]? = some j ∧ j.id = "u1" ∧ j.pc = BatchPC.sleeping ∧
          startBatch s1 d ⟨some 7, none⟩ = some s2 ∧ s2.fetchLog = s1.fetchLog ++ [(d, "u1")] ∧
          ∀ t ∈ List.range' (State.init Nat).calls.length 101, ∃ c, s2.calls[t]? = some c ∧
            c.id = "u1" ∧ c.pc = LoadPC.waiting ∧ c.chan = some ⟨some 7, none⟩ ∧
            c.closed = true) :=
  ⟨⟨[], rfl⟩, rfl,
    (no_max_batch (State.init Nat) "u1" 101 ⟨some 7, none⟩ ⟨[], rfl⟩ rfl).2⟩

/-! ## Late arrivals -/

/-- A step of a job that has drained keeps the server of every channel. -/
theorem serves_job_step {α : Type} {s s1 : State α} {d1 t : Nat} {k : Key}
    (hv : Serves s d1 t k) {d : Nat} {j : BatchJob α} (j3 : BatchJob α)
    (hj : s.jobs[d]? = some j) (hpc : j.pc ≠ BatchPC.sleeping) (hid : j3.id = j.id)
    (hb : j3.batch = j.batch) (hpc3 : j3.pc ≠ BatchPC.sleeping)
    (h1 : s1.loader.batch = s.loader.batch) (h3 : s1.jobs = s.jobs.set d j3) :
    Serves s1 d1 t k := by
  obtain ⟨j1, hj1, hk, hcase⟩ := hv
  by_cases hd : d1 = d
  · subst hd
    rw [hj] at hj1
    cases hj1
    rcases hcase with ⟨hs, _⟩ | ⟨_, ht⟩
    · exact absurd hs hpc
    · exact ⟨j3, by rw [h3, List.getElem?_set_self (lt_length_of_getElem? hj)],
        by rw [hid, hk], Or.inr ⟨hpc3, by rw [hb]; exact ht⟩⟩
  · refine ⟨j1, by rw [h3, List.getElem?_set_ne (fun e => hd e.symm)]; exact hj1, hk, ?_⟩
    rcases hcase with ⟨hs, ht⟩ | h
    · exact Or.inl ⟨hs, by simpa [UserLoader.pending, h1] using ht⟩
    · exact Or.inr h

theorem serves_step {α : Type} {s s1 : State α} {e : Event α} {d1 t : Nat} {k : Key}
    (hs : Sleepers s) (hv : Serves s d1 t k) (h : step s e = some s1) : Serves s1 d1 t k := by
  cases e with
  | Load id =>
      simp only [step, Option.some.injEq] at h
      subst h
      have h1 : (doLoad s id).loader = s.loader := by unfold doLoad; split <;> rfl
      have h2 : (doLoad s id).jobs = s.jobs := by unfold doLoad; split <;> rfl
      unfold Serves
      rw [h1, h2]
      exact hv
  | enqueue t2 =>
      obtain ⟨c, hc, hpc, rfl⟩ := doEnqueue_some h
      obtain ⟨j1, hj1, hk, hcase⟩ := hv
      refine ⟨j1, ?_, hk, ?_⟩
      · show (if _ then _ else _)[d1]? = _
        split
        · exact getElem?_snoc_of_some hj1
        · exact hj1
      · rcases hcase with ⟨hsl, ht⟩ | h2
        · refine Or.inl ⟨hsl, ?_⟩
          rw [pending_update]
          split
          · rename_i hkc
            rw [hkc] at ht
            simp [ht]
          · exact ht
        · exact Or.inr h2
  | receive t2 =>
      obtain ⟨c, hc, hpc, hr⟩ := doReceive_some h
      rcases hr with ⟨r, _, rfl⟩ | ⟨_, _, rfl⟩ <;> exact hv
  | Prime id v =>
      simp only [step, Option.some.injEq] at h
      subst h
      exact hv
  | Clear id =>
      simp only [step, Option.some.injEq] at h
      subst h
      exact hv
  | drain d =>
      obtain ⟨j, hj, hpc, rfl⟩ := doDrain_some h
      obtain ⟨j1, hj1, hk, hcase⟩ := hv
      by_cases hd : d1 = d
      · subst hd
        rw [hj] at hj1
        cases hj1
        rcases hcase with ⟨_, ht⟩ | ⟨hns, _⟩
        · refine ⟨{ j with pc := BatchPC.drained, batch := s.loader.pending j.id }, ?_, hk,
            Or.inr ⟨by simp, ?_⟩⟩
          · show (s.jobs.set d1 _)[d1]? = _
            rw [List.getElem?_set_self (lt_length_of_getElem? hj)]
          · show t ∈ s.loader.pending j.id
            rw [hk]; exact ht
        · exact absurd hpc hns
      · refine ⟨j1, ?_, hk, ?_⟩
        · show (s.jobs.set d _)[d1]? = _
          rw [List.getElem?_set_ne (fun e => hd e.symm)]; exact hj1
        · rcases hcase with ⟨hsl, ht⟩ | h2
          · have hne : k ≠ j.id := by
              intro e
              exact hd (hs.sleeper_unique d1 d j1 j hj1 hj hsl hpc (by rw [hk, e]))
            refine Or.inl ⟨hsl, ?_⟩
            rw [pending_update, if_neg hne]
            exact ht
          · exact Or.inr h2
  | fetchCall d =>
      obtain ⟨j, hj, hpc, rfl⟩ := doFetchCall_some h
      exact serves_job_step hv { j with pc := BatchPC.fetching } hj (by simp [hpc]) rfl rfl
        (by simp) rfl rfl
  | fetchReturn d r =>
      obtain ⟨j, hj, hpc, rfl⟩ := doFetchReturn_some h
      exact serves_job_step hv { j with pc := BatchPC.fetched, result := some r } hj
        (by simp [hpc]) rfl rfl (by simp) rfl rfl
  | cacheResult d =>
      obtain ⟨j, r, hj, hpc, hr, rfl⟩ := doCacheResult_some h
      refine serves_job_step hv { j with pc := loopPC j.batch 0, i := 0 } hj (by simp [hpc])
        rfl rfl (loopPC_ne_sleeping _ _) ?_ rfl
      show (if r.err.isNone = true then s.loader.Prime j.id r.user else s.loader).batch = _
      split <;> rfl
  | send d =>
      obtain ⟨j, r, t2, c, hj, hpc, _, _, hc, _, _, rfl⟩ := doSend_some h
      exact serves_job_step hv { j with pc := BatchPC.closing } hj (by simp [hpc]) rfl rfl
        (by simp) rfl rfl
  | close d =>
      obtain ⟨j, t2, c, hj, hpc, _, hc, _, rfl⟩ := doClose_some h
      exact serves_job_step hv { j with pc := loopPC j.batch (j.i + 1), i := j.i + 1 } hj
        (by simp [hpc]) rfl rfl (loopPC_ne_sleeping _ _) rfl rfl

theorem serves_run {α : Type} {d1 t : Nat} {k : Key} :
    ∀ (es : List (Event α)) (s s2 : State α), Reachable s → Serves s d1 t k →
      run s es = some s2 → Serves s2 d1 t k := by
  intro es
  induction es with
  | nil =>
      intro s s2 _ hv h
      simp only [run, Option.some.injEq] at h
      exact h ▸ hv
  | cons e es ih =>
      intro s s2 hr hv h
      simp only [run] at h
      cases hs : step s e with
      | none => rw [hs] at h; cases h
      | some s1 =>
          rw [hs] at h
          exact ih s1 s2 (reachable_run [e] hr (by simp [run, hs]))
            (serves_step (reachable_sleepers hr) hv hs) h

/-- A channel that holds or has handed over a pair got it from the job whose slice it is in,
and that job is past its `GetByID` call. -/
theorem slotOk_result {α : Type} {j : BatchJob α} {n : Nat} {c : LoadCall α}
    {r : userResult α} (h : slotOk j n c) (hr : c.chan = some r ∨ c.pc = LoadPC.returned r) :
    j.result = some r ∧ j.pc ≠ BatchPC.sleeping ∧ j.pc ≠ BatchPC.drained := by
  have hu : ¬ c.Untouched := by
    rintro ⟨h1, h2, _⟩
    rcases hr with h3 | h3
    · rw [h2] at h3; cases h3
    · rw [h1] at h3; cases h3
  have hd : ∀ b, c.Delivered j.result b → j.result = some r := by
    rintro b ⟨_, r1, h1, h2⟩
    rw [h1]
    rcases h2 with ⟨h2, h3⟩ | ⟨h2, h3⟩ <;> rcases hr with h4 | h4
    · rw [h3] at h4; exact h4
    · rw [h2] at h4; cases h4
    · rw [h3] at h4; cases h4
    · rw [h2] at h4; cases h4; rfl
  unfold slotOk at h
  split at h
  · exact h.elim
  · exact absurd h hu
  · exact absurd h hu
  · exact absurd h hu
  · rename_i hpc
    split at h
    · exact ⟨hd _ h, by simp [hpc], by simp [hpc]⟩
    · exact absurd h hu
  · rename_i hpc
    split at h
    · exact ⟨hd _ h, by simp [hpc], by simp [hpc]⟩
    · split at h
      · exact ⟨hd _ h, by simp [hpc], by simp [hpc]⟩
      · exact absurd h hu
  · rename_i hpc
    exact ⟨hd _ h, by simp [hpc], by simp [hpc]⟩

/-- C19, counterexample: job 0 has drained the pending list of `u1`, call 1 has arrived late
and made the fresh entry `[1]`; the append of call 2, late as well, joins that entry and
starts no `startBatch`. -/
theorem late_arrival_joins_entry :
    ∃ s s1 : State Nat, Reachable s ∧
      (∃ j, s.jobs[0]? = some j ∧ j.id = "u1" ∧ j.pc = BatchPC.drained) ∧
      doEnqueue s 2 = some s1 ∧ s.loader.batch "u1" = some [1] ∧
      s1.loader.batch "u1" = some [1, 2] ∧ s1.jobs.length = s.jobs.length :=
  ⟨(run (State.init Nat) [Event.Load "u1", Event.enqueue 0, Event.drain 0, Event.Load "u1",
      Event.enqueue 1, Event.Load "u1"]).getD (State.init Nat),
    (run (State.init Nat) [Event.Load "u1", Event.enqueue 0, Event.drain 0, Event.Load "u1",
      Event.enqueue 1, Event.Load "u1", Event.enqueue 2]).getD (State.init Nat),
    ⟨[Event.Load "u1", Event.enqueue 0, Event.drain 0, Event.Load "u1",
      Event.enqueue 1, Event.Load "u1"], rfl⟩,
    ⟨_, rfl, by decide, by decide⟩, rfl, by decide, by decide, by decide⟩

/-- C19, as the code has it: when a job `d` has drained its pending list (that of `k`, or of
any key) and a `Load(k)` then appends its channel `t`, the channel goes to a pending entry
whose sleeping `startBatch` `d1` is another job than `d` and has not yet called `GetByID`;
the `Load` makes that entry and starts `d1` itself when `k` has no entry, and joins the entry
without starting anything when an earlier late arrival has made it.  In every later state `t`
is outside the slice of `d`, so `d` never sends to it, and a pair that `t` holds or has
returned is the result of `d1`, fetched by the one `GetByID(k)` of `d1`; and `d1` run now
delivers to `t` whatever the repository answers. -/
theorem late_arrival_served_by_later_batch {α : Type} (s s1 : State α) (t d : Nat)
    (j : BatchJob α) (c : LoadCall α) (hs : Reachable s) (hj : s.jobs[d]? = some j)
    (hpc : j.pc ≠ BatchPC.sleeping) (hc : s.calls[t]? = some c)
    (h : doEnqueue s t = some s1) :
    ∃ d1, d1 ≠ d ∧
      (∃ j1, s1.jobs[d1]? = some j1 ∧ j1.id = c.id ∧ j1.pc = BatchPC.sleeping) ∧
      t ∈ s1.loader.pending c.id ∧ (d1, c.id) ∉ s1.fetchLog ∧
      (s.loader.batch c.id = none → d1 = s.jobs.length ∧ s1.loader.pending c.id = [t] ∧
        s1.jobs = s.jobs ++ [⟨c.id, BatchPC.sleeping, [], none, 0⟩]) ∧
      (s.loader.batch c.id ≠ none → s1.jobs = s.jobs ∧
        s1.loader.pending c.id = s.loader.pending c.id ++ [t]) ∧
      (∀ (es : List (Event α)) (s2 : State α), run s1 es = some s2 →
        (∀ j2, s2.jobs[d]? = some j2 → t ∉ j2.batch) ∧
        ∀ (c2 : LoadCall α) (r : userResult α), s2.calls[t]? = some c2 →
          (c2.chan = some r ∨ c2.pc = LoadPC.returned r) →
          ∃ j1, s2.jobs[d1]? = some j1 ∧ j1.id = c.id ∧ t ∈ j1.batch ∧ j1.result = some r ∧
            s2.fetchesOf d1 = [(d1, c.id)]) ∧
      ∀ r : userResult α, ∃ s2 s3, startBatch s1 d1 r = some s2 ∧
        doReceive s2 t = some s3 ∧
        ∃ c3, s3.calls[t]? = some c3 ∧ c3.pc = LoadPC.returned r := by
  have hr1 : Reachable s1 := reachable_run [Event.enqueue t] hs (by simp [run, step, h])
  have hw1 := reachable_wf hr1
  have hsl1 := reachable_sleepers hr1
  obtain ⟨c0, hc0, hpcc, hs1⟩ := doEnqueue_some h
  rw [hc] at hc0
  cases hc0
  have hjobs : s1.jobs = if (s.loader.pending c.id ++ [t]).length = 1
      then s.jobs ++ [⟨c.id, BatchPC.sleeping, [], none, 0⟩] else s.jobs := by rw [hs1]
  have hpend : s1.loader.pending c.id = s.loader.pending c.id ++ [t] := by
    rw [hs1]; simp [UserLoader.pending]
  have hlog : s1.fetchLog = s.fetchLog := by rw [hs1]
  have hne : s1.loader.batch c.id ≠ none := by rw [hs1]; simp
  have htp : t ∈ s1.loader.pending c.id := by rw [hpend]; simp
  have hjd : s1.jobs[d]? = some j := by
    rw [hjobs]
    split
    · exact getElem?_snoc_of_some hj
    · exact hj
  obtain ⟨d1, j1, hj1, hpc1, hid1⟩ := hsl1.entry_sleeper c.id hne
  have hd : d1 ≠ d := by
    intro e
    subst e
    rw [hjd] at hj1
    cases hj1
    exact hpc hpc1
  have hv : Serves s1 d1 t c.id := ⟨j1, hj1, hid1, Or.inl ⟨hpc1, htp⟩⟩
  refine ⟨d1, hd, ⟨j1, hj1, hid1, hpc1⟩, htp, ?_, ?_, ?_, ?_, ?_⟩
  · intro hm
    obtain ⟨j2, hj2, _, hns, _⟩ := (reachable_fetchlog hr1).logged_job d1 c.id hm
    rw [hj1] at hj2
    cases hj2
    exact hns hpc1
  · intro hb
    have hp : s.loader.pending c.id = [] := pending_eq_nil_of_batch_none _ _ hb
    rw [hp] at hjobs hpend
    simp only [List.nil_append, List.length_singleton, if_true] at hjobs hpend
    refine ⟨?_, hpend, hjobs⟩
    have hnew : s1.jobs[s.jobs.length]? = some ⟨c.id, BatchPC.sleeping, [], none, 0⟩ := by
      rw [hjobs]; simp
    exact hsl1.sleeper_unique d1 s.jobs.length j1 _ hj1 hnew hpc1 rfl hid1
  · intro hb
    refine ⟨?_, hpend⟩
    rw [hjobs, if_neg]
    cases hl : s.loader.batch c.id with
    | none => exact absurd hl hb
    | some l =>
        have hl0 := (reachable_sleepers hs).entry_nonempty c.id l hl
        have hp : s.loader.pending c.id = l := by simp [UserLoader.pending, hl]
        rw [hp]
        cases l with
        | nil => exact absurd rfl hl0
        | cons x xs => simp
  · intro es s2 hrun
    have hr2 : Reachable s2 := reachable_run es hr1 hrun
    have hw2 := reachable_wf hr2
    obtain ⟨j3, hj3, hid3, hcase⟩ := serves_run es s1 s2 hr1 hv hrun
    constructor
    · intro j2 hj2 ht
      rcases hcase with ⟨_, hp⟩ | ⟨_, hb⟩
      · exact hw2.pending_job c.id t d j2 hp hj2 ht
      · exact hd (hw2.job_job d1 d j3 j2 t hj3 hj2 hb ht)
    · intro c2 r hc2 hres
      rcases hcase with ⟨_, hp⟩ | ⟨_, hb⟩
      · obtain ⟨c3, hc3, _, hu1, hu2, _⟩ := hw2.pending_ok c.id t hp
        rw [hc2] at hc3
        cases hc3
        rcases hres with h3 | h3
        · rw [hu2] at h3; cases h3
        · rw [hu1] at h3; cases h3
      · obtain ⟨n, hn⟩ := List.getElem?_of_mem hb
        obtain ⟨c3, hc3, _, hslot⟩ := hw2.slot_ok d1 j3 n t hj3 hn
        rw [hc2] at hc3
        cases hc3
        obtain ⟨hres3, hns, hnd⟩ := slotOk_result hslot hres
        have hm := (reachable_fetchlog hr2).job_logged d1 j3 hj3 hns hnd
        rw [hid3] at hm
        exact ⟨j3, hj3, hid3, hb, hres3,
          filter_fst_eq d1 c.id s2.fetchLog (reachable_fetchlog hr2).logged_once hm⟩
  · intro r
    obtain ⟨s2, h2, _, _, _, _, _, hin, _⟩ := startBatch_spec hw1 hj1 hpc1 r
    rw [hid1] at hin
    obtain ⟨c1, hc1, _, hu1, _, _⟩ := hw1.pending_ok c.id t htp
    have hc2 := hin t htp c1 hc1
    have he : (doReceive s2 t).isSome = true := by
      unfold doReceive
      rw [hc2]
      simp [hu1]
    obtain ⟨s3, h3⟩ := Option.isSome_iff_exists.mp he
    obtain ⟨c4, hc4, _, hr⟩ := doReceive_some h3
    rw [hc2] at hc4
    cases hc4
    rcases hr with ⟨r4, hr4, hs3⟩ | ⟨hn, _, _⟩
    · simp only [Option.some.injEq] at hr4
      subst hr4
      refine ⟨s2, s3, h2, h3, ⟨c1.id, LoadPC.returned r, none, true⟩, ?_, rfl⟩
      rw [hs3]
      exact List.getElem?_set_self (lt_length_of_getElem? hc2)
    · cases hn

/-- C19, witness: job 0 has drained `[0]`; call 1 registers late and is served by job 1. -/
theorem late_arrival_served_by_later_batch_witness :
    Reachable drainedOne ∧ doEnqueue drainedOne 1 = some lateRegistered ∧
      ∃ d1, d1 ≠ 0 ∧
        (∃ j1, lateRegistered.jobs[d1]? = some j1 ∧ j1.id = "u1" ∧ j1.pc = BatchPC.sleeping) ∧
        1 ∈ lateRegistered.loader.pending "u1" ∧ (d1, "u1") ∉ lateRegistered.fetchLog :=
  ⟨⟨[Event.Load "u1", Event.enqueue 0, Event.drain 0, Event.Load "u1"], rfl⟩, rfl,
    (late_arrival_served_by_later_batch drainedOne lateRegistered 1 0
      ⟨"u1", BatchPC.drained, [0], none, 0⟩ ⟨"u1", LoadPC.checked, none, false⟩
      ⟨[Event.Load "u1", Event.enqueue 0, Event.drain 0, Event.Load "u1"], rfl⟩ rfl
      (by decide) rfl rfl).imp fun _ h => ⟨h.1, h.2.1, h.2.2.1, h.2.2.2.1⟩⟩

/-! ## The loaders in the request context -/

/-- C14: `FromContext` panics exactly when the context holds no `*Loaders` under
`loadersKey`, and returns the stored pointer otherwise; the request that
`Middleware(loaders)` hands on carries a context from which `FromContext` returns that same
`loaders`; and on a context without loaders `GetUser`, `GetProduct`, `GetUsers` and
`GetProducts` are that panic, whatever the heap, so that no `Load` has run. -/
theorem fromContext_fails_fast {υ π β : Type} :
    (∀ ctx : Context,
      (FromContext ctx = Except.error "dataloaders not found in context" ↔
        ¬ ∃ p, ctx.Value loadersKey = some (CtxValue.loaders p)) ∧
      ∀ p, ctx.Value loadersKey = some (CtxValue.loaders p) → FromContext ctx = Except.ok p) ∧
    (∀ (loaders : Option Nat) (next : Handler β) (r : Request),
      Middleware loaders next r =
          next (r.WithContext (WithValue r.Context loadersKey (CtxValue.loaders loaders))) ∧
        FromContext (r.WithContext (WithValue r.Context loadersKey
          (CtxValue.loaders loaders))).Context = Except.ok loaders) ∧
    ∀ (ctx : Context) (h : Heap υ π), (¬ ∃ p, ctx.Value loadersKey = some (CtxValue.loaders p)) →
      (∀ id, GetUser h ctx id = Except.error "dataloaders not found in context" ∧
        GetProduct h ctx id = Except.error "dataloaders not found in context") ∧
      ∀ ids, GetUsers h ctx ids = Except.error "dataloaders not found in context" ∧
        GetProducts h ctx ids = Except.error "dataloaders not found in context" := by
  have hf : ∀ ctx : Context, (¬ ∃ p, ctx.Value loadersKey = some (CtxValue.loaders p)) →
      FromContext ctx = Except.error "dataloaders not found in context" := by
    intro ctx hn
    unfold FromContext
    split
    · rename_i p hp
      exact absurd ⟨p, hp⟩ hn
    · rfl
  refine ⟨fun ctx => ⟨⟨?_, hf ctx⟩, ?_⟩, fun loaders next r => ⟨rfl, ?_⟩, ?_⟩
  · rintro he ⟨p, hp⟩
    simp [FromContext, hp] at he
  · intro p hp
    simp [FromContext, hp]
  · simp [FromContext, Request.Context, Request.WithContext, WithValue, Context.Value]
  · intro ctx h hn
    have := hf ctx hn
    refine ⟨fun id => ⟨?_, ?_⟩, fun ids => ⟨?_, ?_⟩⟩
    · simp only [GetUser, this]
    · simp only [GetProduct, this]
    · simp only [GetUsers, this]
    · simp only [GetProducts, this]

/-- C13, counterexample: two different requests pass through the handler of one server.
Served first, the `GetUser("u1")` of the second request fetches once and leaves the user
loader with one fetch; served after the `GetUser("u1")` of the first request, which has
fetched once, it fetches nothing: the loader still has made one fetch. -/
theorem load_in_one_request_saves_fetch_in_other :
    (⟨⟨[]⟩, "a"⟩ : Request) ≠ ⟨⟨[(CtxKey.foreign "trace", CtxValue.other "t")]⟩, "b"⟩ ∧
      sampleServer.1.userFetches = [0] ∧
      observed (GetUser sampleServer.1 (sampleServer.2.ServeHTTP
        ⟨⟨[(CtxKey.foreign "trace", CtxValue.other "t")]⟩, "b"⟩) "u1") =
          some (⟨some 7, none⟩, [1]) ∧
      observed (GetUser sampleServer.1 (sampleServer.2.ServeHTTP ⟨⟨[]⟩, "a"⟩) "u1") =
          some (⟨some 7, none⟩, [1]) ∧
      observed (GetUser
        (heapAfter (GetUser sampleServer.1 (sampleServer.2.ServeHTTP ⟨⟨[]⟩, "a"⟩) "u1"))
        (sampleServer.2.ServeHTTP
          ⟨⟨[(CtxKey.foreign "trace", CtxValue.other "t")]⟩, "b"⟩) "u1") =
          some (⟨some 7, none⟩, [1]) := by
  decide

/-- C13, as the code has it: `NewServer` allocates one `Loaders` and its handler stores the
address of that one object in the context of every request it serves; so for any two
requests the loaders found in the two contexts are the same loaders, one per entity kind and
server, and `GetUser`, `GetProduct`, `GetUsers` and `GetProducts` through one context are,
on every heap, what they are through the other: they read and write the same cache and
pending table. -/
theorem loaders_shared_by_all_requests {υ π β : Type} (userRepo : Fetcher υ)
    (productRepo : Fetcher π) (gqlHandler : Option Nat → Handler β) (h : Heap υ π)
    (r1 r2 : Request) :
    ∃ ctx1 ctx2 : Context,
      (NewServer userRepo productRepo gqlHandler h).1 =
        h ++ [⟨State.init υ, userRepo, State.init π, productRepo⟩] ∧
      (NewServer userRepo productRepo gqlHandler h).2.ServeHTTP r1 =
        gqlHandler (some h.length) (r1.WithContext ctx1) ∧
      (NewServer userRepo productRepo gqlHandler h).2.ServeHTTP r2 =
        gqlHandler (some h.length) (r2.WithContext ctx2) ∧
      FromContext ctx1 = Except.ok (some h.length) ∧
      FromContext ctx2 = Except.ok (some h.length) ∧
      ∀ h1 : Heap υ π,
        (∀ id, GetUser h1 ctx1 id = GetUser h1 ctx2 id ∧
          GetProduct h1 ctx1 id = GetProduct h1 ctx2 id) ∧
        ∀ ids, GetUsers h1 ctx1 ids = GetUsers h1 ctx2 ids ∧
          GetProducts h1 ctx1 ids = GetProducts h1 ctx2 ids := by
  have hf : ∀ r : Request, FromContext (WithValue r.Context loadersKey
      (CtxValue.loaders (some h.length))) = Except.ok (some h.length) := by
    intro r
    simp [FromContext, WithValue, Context.Value]
  refine ⟨WithValue r1.Context loadersKey (CtxValue.loaders (some h.length)),
    WithValue r2.Context loadersKey (CtxValue.loaders (some h.length)),
    rfl, rfl, rfl, hf r1, hf r2, fun h1 => ⟨fun id => ⟨?_, ?_⟩, fun ids => ⟨?_, ?_⟩⟩⟩
  · simp only [GetUser, hf]
  · simp only [GetProduct, hf]
  · simp only [GetUsers, hf]
  · simp only [GetProducts, hf]

end Dataloaders

namespace UserRepository

/-! ## The user repository -/

theorem find?_key_eq_some (id : String) (u : User) :
    ∀ l : List (String × User), (l.map Prod.fst).Nodup →
      ((l.find? fun p => decide (p.1 = id)).map Prod.snd = some u ↔ (id, u) ∈ l) := by
  intro l
  induction l with
  | nil => intro _; simp
  | cons p ps ih =>
      intro h
      rw [List.map_cons, List.nodup_cons] at h
      by_cases hp : p.1 = id
      · rw [List.find?_cons_of_pos _ (by simpa using hp)]
        simp only [Option.map_some', Option.some.injEq, List.mem_cons]
        constructor
        · intro e
          left
          rw [← e, ← hp]
        · rintro (e | hm)
          · rw [← e]
          · exfalso
            apply h.1
            rw [hp]
            exact List.mem_map_of_mem Prod.fst hm
      · rw [List.find?_cons_of_neg _ (by simpa using hp), ih h.2, List.mem_cons]
        constructor
        · exact Or.inr
        · rintro (e | hm)
          · exact absurd (congrArg Prod.fst e).symm hp
          · exact hm

theorem get_eq_some_iff {r : InMemoryRepository} (h : (r.users.map Prod.fst).Nodup)
    (id : String) (u : User) : r.get id = some u ↔ (id, u) ∈ r.users :=
  find?_key_eq_some id u r.users h

theorem consistent_put {r : InMemoryRepository} (hc : Consistent r) (user : User)
    (hfree : ∀ p ∈ r.users, p.1 ≠ user.ID → p.2.Email ≠ user.Email) :
    Consistent (r.put user.ID user) := by
  have hsub : (r.users.filter fun p => decide (p.1 ≠ user.ID)).Sublist r.users :=
    List.filter_sublist _
  refine ⟨?_, ?_, ?_⟩
  · show ((user.ID, user) :: _).map Prod.fst |>.Nodup
    rw [List.map_cons, List.nodup_cons]
    refine ⟨?_, (hc.keys_nodup).sublist (hsub.map _)⟩
    intro hm
    obtain ⟨p, hp, he⟩ := List.mem_map.mp hm
    have := (List.mem_filter.mp hp).2
    simp only [decide_eq_true_eq] at this
    exact this he
  · intro p hp
    rcases List.mem_cons.mp hp with e | hp1
    · rw [e]
    · exact hc.key_is_id p (List.mem_filter.mp hp1).1
  · show ((user.ID, user) :: _).map (fun p => p.2.Email) |>.Nodup
    rw [List.map_cons, List.nodup_cons]
    refine ⟨?_, (hc.emails_nodup).sublist (hsub.map _)⟩
    intro hm
    obtain ⟨p, hp, he⟩ := List.mem_map.mp hm
    obtain ⟨hp1, hp2⟩ := List.mem_filter.mp hp
    simp only [decide_eq_true_eq] at hp2
    exact hfree p hp1 hp2 he

theorem consistent_remove {r : InMemoryRepository} (hc : Consistent r) (id : String) :
    Consistent (r.remove id) := by
  have hsub : (r.users.filter fun p => decide (p.1 ≠ id)).Sublist r.users :=
    List.filter_sublist _
  exact ⟨(hc.keys_nodup).sublist (hsub.map _),
    fun p hp => hc.key_is_id p (List.mem_filter.mp hp).1,
    (hc.emails_nodup).sublist (hsub.map _)⟩

/-- Two stored pairs with the same `Email` are one pair. -/
theorem consistent_email {r : InMemoryRepository} (hc : Consistent r) {p q : String × User}
    (hp : p ∈ r.users) (hq : q ∈ r.users) (he : p.2.Email = q.2.Email) : p = q :=
  List.inj_on_of_nodup_map hc.emails_nodup hp hq he

theorem consistent_create {r : InMemoryRepository} (hc : Consistent r) (user : User)
    (uuid : String) (now : Nat) : Consistent (Create r user uuid now).1 := by
  unfold Create
  split
  · exact hc
  · rename_i hany
    simp only [List.any_eq_true, decide_eq_true_eq, not_exists, not_and] at hany
    have := consistent_put hc
      { (if user.ID = "" then { user with ID := uuid } else user) with
        CreatedAt := now, UpdatedAt := now }
      (by
        intro p hp _
        have : (if user.ID = "" then { user with ID := uuid } else user).Email = user.Email := by
          split <;> rfl
        simp only [this]
        exact hany p hp)
    exact this

theorem consistent_update {r : InMemoryRepository} (hc : Consistent r) (user : User)
    (now : Nat) : Consistent (Update r user now).1 := by
  unfold Update
  split
  · exact hc
  · rename_i existingUser hget
    split
    · exact hc
    · rename_i hno
      have hmem := (get_eq_some_iff hc.keys_nodup _ _).mp hget
      refine consistent_put hc
        { user with CreatedAt := existingUser.CreatedAt, UpdatedAt := now } ?_
      intro p hp hne he
      simp only [ne_eq] at hne he
      by_cases hsame : user.Email = existingUser.Email
      · have := consistent_email hc hp hmem (by simp only; rw [he, hsame])
        rw [this] at hne
        exact hne rfl
      · apply hno
        refine ⟨hsame, ?_⟩
        rw [List.any_eq_true]
        refine ⟨p, hp, ?_⟩
        simp only [Bool.and_eq_true, decide_eq_true_eq]
        exact ⟨by rw [hc.key_is_id p hp]; exact hne, he⟩

theorem consistent_delete {r : InMemoryRepository} (hc : Consistent r) (id : String) :
    Consistent (Delete r id).1 := by
  unfold Delete
  split
  · exact hc
  · exact consistent_remove hc id

theorem consistent_foldl (calls : List Call) :
    ∀ r : InMemoryRepository, Consistent r → Consistent (calls.foldl Call.run r) := by
  induction calls with
  | nil => intro r h; exact h
  | cons c cs ih =>
      intro r h
      refine ih _ ?_
      cases c with
      | Create user uuid now => exact consistent_create h user uuid now
      | Update user now => exact consistent_update h user now
      | Delete id => exact consistent_delete h id

theorem consistent_runCalls (calls : List Call) : Consistent (runCalls calls) :=
  consistent_foldl calls _ ⟨List.nodup_nil, fun _ hp => (by cases hp), List.nodup_nil⟩

/-- A sample run: the second `Create` and the `Update` ask for an email that is taken and
are refused; the repository holds the first and the third user. -/
theorem sample_calls :
    (runCalls [Call.Create ⟨"", "Ann", "ann@x.org", "1", 0, 0⟩ "id-1" 10,
        Call.Create ⟨"", "Bob", "ann@x.org", "2", 0, 0⟩ "id-2" 20,
        Call.Create ⟨"", "Cid", "cid@x.org", "3", 0, 0⟩ "id-3" 30,
        Call.Update ⟨"id-3", "Cid", "ann@x.org", "3", 0, 0⟩ 40]).users.map
      (fun p => (p.1, p.2.Email)) = [("id-3", "cid@x.org"), ("id-1", "ann@x.org")] := by
  decide

/-- C20: after every sequence of `Create`, `Update` and `Delete` calls on a new repository,
no two stored users have the same `Email` (the stored emails are pairwise distinct, and two
ids that read users with one email are one id); a `Create` of a user whose email some stored
user has returns `ErrUserAlreadyExists` and leaves the repository as it is; and an `Update`
of a stored user to an email that a stored user with another id has returns
`ErrUserAlreadyExists` and leaves the repository as it is. -/
theorem emails_stay_unique (calls : List Call) :
    ((runCalls calls).users.map fun p => p.2.Email).Nodup ∧
    (∀ (id1 id2 : String) (u1 u2 : User), (runCalls calls).get id1 = some u1 →
      (runCalls calls).get id2 = some u2 → u1.Email = u2.Email → id1 = id2) ∧
    (∀ (user : User) (uuid : String) (now : Nat),
      (∃ id u, (runCalls calls).get id = some u ∧ u.Email = user.Email) →
      Create (runCalls calls) user uuid now =
        (runCalls calls, Except.error Err.ErrUserAlreadyExists)) ∧
    ∀ (user old : User) (now : Nat), (runCalls calls).get user.ID = some old →
      (∃ id u, id ≠ user.ID ∧ (runCalls calls).get id = some u ∧ u.Email = user.Email) →
      Update (runCalls calls) user now =
        (runCalls calls, Except.error Err.ErrUserAlreadyExists) := by
  have hc := consistent_runCalls calls
  have hget := get_eq_some_iff hc.keys_nodup
  have huniq : ∀ (id1 id2 : String) (u1 u2 : User), (runCalls calls).get id1 = some u1 →
      (runCalls calls).get id2 = some u2 → u1.Email = u2.Email → id1 = id2 := by
    intro id1 id2 u1 u2 h1 h2 he
    have := consistent_email hc ((hget _ _).mp h1) ((hget _ _).mp h2) he
    exact congrArg Prod.fst this
  refine ⟨hc.emails_nodup, huniq, ?_, ?_⟩
  · rintro user uuid now ⟨id, u, hu, he⟩
    unfold Create
    rw [if_pos]
    rw [List.any_eq_true]
    exact ⟨(id, u), (hget _ _).mp hu, by simpa using he⟩
  · rintro user old now hold ⟨id, u, hne, hu, he⟩
    unfold Update
    rw [hold]
    simp only
    rw [if_pos]
    refine ⟨?_, ?_⟩
    · intro hsame
      exact hne (huniq id user.ID u old hu hold (by rw [he, hsame]))
    · rw [List.any_eq_true]
      refine ⟨(id, u), (hget _ _).mp hu, ?_⟩
      simp only [Bool.and_eq_true, decide_eq_true_eq]
      exact ⟨by rw [hc.key_is_id _ ((hget _ _).mp hu)]; exact hne, he⟩

end UserRepository

namespace ProductRepository

open Golang

/-! ## Stock updates -/

theorem wrap32_of_inRange (x : Int) (h : InRange 32 x) : wrap 32 x = x := by
  unfold InRange at h
  unfold wrap
  norm_num at h ⊢
  omega

/-- What `UpdateStock` does while the sum stays an `int32`: it refuses exactly a negative
sum, and otherwise stores the sum and keeps every field but `Stock` and `UpdatedAt`. -/
theorem updateStock_in_range (r : InMemoryRepository) (productID : String) (quantity : Int)
    (now : Nat) (product : Product) (hp : mapGet r.products productID = some product)
    (hsum : InRange 32 (product.Stock + quantity)) :
    (product.Stock + quantity < 0 →
      UpdateStock r productID quantity now = (r, Except.error Err.ErrInsufficientStock)) ∧
    (0 ≤ product.Stock + quantity →
      UpdateStock r productID quantity now =
        (⟨mapPut r.products productID
            { product with Stock := product.Stock + quantity, UpdatedAt := now }⟩,
          Except.ok { product with Stock := product.Stock + quantity, UpdatedAt := now })) := by
  unfold UpdateStock
  rw [hp]
  simp only [wrap32_of_inRange _ hsum]
  constructor
  · intro h
    rw [if_pos h]
  · intro h
    rw [if_neg (by omega)]

/-- C21, the failing input: a product with stock 2147483647 and the quantity 1, through the
service and through the repository.  The sum 2147483648 is not negative, and `UpdateStock`
returns `ErrInsufficientStock` and stores nothing: the `int32` sum has wrapped around to
-2147483648. -/
theorem updateStock_overflow :
    mapGet fullShelf.products "p1" =
        some ⟨"p1", "pen", "a pen", ⟨0⟩, 2147483647, "office", 5, 5⟩ ∧
      ¬ ((2147483647 : Int) + 1 < 0) ∧
      UpdateStock fullShelf "p1" 1 9 = (fullShelf, Except.error Err.ErrInsufficientStock) ∧
      Service.UpdateStock fullShelf "p1" 1 9 =
        (fullShelf, Except.error Err.ErrInsufficientStock) :=
  ⟨by decide, by decide, rfl, rfl⟩

end ProductRepository

namespace Paging

open Golang

/-! ## Pagination -/

theorem wrap_of_inRange (bits : Nat) (hb : 0 < bits) (x : Int) (h : InRange bits x) :
    wrap bits x = x := by
  obtain ⟨n, rfl⟩ : ∃ n, bits = n + 1 := ⟨bits - 1, by omega⟩
  unfold InRange at h
  unfold wrap
  simp only [Nat.add_sub_cancel] at h ⊢
  have h2 : (2 : Int) ^ (n + 1) = 2 * 2 ^ n := by rw [pow_succ]; ring
  rw [h2, Int.emod_eq_of_lt (by omega) (by omega)]
  omega

/-- While `start + limit` stays an `int`, the pagination returns the `limit` items after the
first `offset`, or as many as there are. -/
theorem paginate_spec {β : Type} (bits : Nat) (hb : 0 < bits) (items : List β)
    (offset limit : Int) (ho : 0 ≤ offset) (hl : 0 ≤ limit)
    (hfit : min offset items.length + limit < 2 ^ (bits - 1)) :
    paginate bits items offset limit =
      Except.ok ((items.drop offset.toNat).take limit.toNat, (items.length : Int)) := by
  have hpow : (0 : Int) < 2 ^ (bits - 1) := by positivity
  unfold paginate
  simp only []
  by_cases hot : offset > (items.length : Int)
  · rw [if_pos hot, if_pos (le_refl _)]
    have : items.drop offset.toNat = [] := by
      apply List.drop_eq_nil_of_le
      omega
    rw [this, List.take_nil]
  · rw [if_neg hot]
    have hmin : min offset (items.length : Int) = offset := min_eq_left (by omega)
    rw [hmin] at hfit
    rw [wrap_of_inRange bits hb _ ⟨by omega, hfit⟩]
    by_cases hge : offset ≥ (items.length : Int)
    · rw [if_pos hge]
      have : items.drop offset.toNat = [] := by
        apply List.drop_eq_nil_of_le
        omega
      rw [this, List.take_nil]
    · rw [if_neg hge]
      by_cases hend : offset + limit > (items.length : Int)
      · rw [if_pos hend]
        unfold Golang.slice
        rw [if_pos ⟨ho, by omega, le_refl _⟩]
        simp only [Except.map]
        congr 2
        rw [List.take_of_length_le, List.take_of_length_le]
        · rw [List.length_drop]; omega
        · rw [List.length_drop]; omega
      · rw [if_neg hend]
        unfold Golang.slice
        rw [if_pos ⟨ho, by omega, by omega⟩]
        simp only [Except.map]
        congr 3
        omega

/-- The listing of a map with the filter `keep` is correct as soon as its pagination is the
window of its filtered entries. -/
theorem correct_of_window {β : Type} (stored : List (String × β)) (keep : β → Bool)
    (offset limit : Int) (ho : 0 ≤ offset) (hl : 0 ≤ limit)
    (hk : (stored.map Prod.fst).Nodup) (out : Except String (List β × Int))
    (h : out = Except.ok
      ((((stored.map Prod.snd).filter keep).drop offset.toNat).take limit.toNat,
        (((stored.map Prod.snd).filter keep).length : Int))) :
    Correct stored keep offset limit out := by
  have hmap : (stored.map Prod.snd).filter keep =
      (stored.filter fun p => keep p.2).map Prod.snd := by
    rw [List.filter_map]; rfl
  refine ⟨((stored.filter fun p => keep p.2).drop offset.toNat).take limit.toNat,
    ((stored.filter fun p => keep p.2).length : Int), ?_, rfl, ?_, ?_, ?_, ?_⟩
  · rw [h, hmap, List.map_take, List.map_drop, List.length_map]
  · rw [List.length_take, List.length_drop]
    omega
  · exact ((List.take_sublist _ _).trans (List.drop_sublist _ _)).trans (List.filter_sublist _)
  · intro e he
    have := (List.drop_sublist _ _).subset ((List.take_sublist _ _).subset he)
    exact (List.mem_filter.mp this).2
  · exact hk.sublist ((((List.take_sublist _ _).trans (List.drop_sublist _ _)).trans
      (List.filter_sublist _)).map _)

/-! ## The page window of the services -/

theorem window_snd (bits : Nat) (page pageSize : Int) :
    (window bits page pageSize).2 = claimedLimit pageSize := by
  unfold window claimedLimit
  simp only []
  split <;> split <;> simp_all

theorem claimedLimit_bounds (pageSize : Int) :
    1 ≤ claimedLimit pageSize ∧ claimedLimit pageSize ≤ 100 := by
  unfold claimedLimit
  split
  · omega
  · split <;> omega

theorem window_fst (bits : Nat) (hb : bits = 32 ∨ bits = 64) (page pageSize : Int)
    (hp : InRange bits page) (hfit : claimedOffset page pageSize < 2 ^ (bits - 1)) :
    (window bits page pageSize).1 = claimedOffset page pageSize ∧
      0 ≤ claimedOffset page pageSize := by
  have hb0 : 0 < bits := by omega
  have hl := claimedLimit_bounds pageSize
  have h2 := window_snd bits page pageSize
  have hpow : (0 : Int) < 2 ^ (bits - 1) := by positivity
  have hnn : 0 ≤ claimedOffset page pageSize := by
    unfold claimedOffset
    apply mul_nonneg
    · split <;> omega
    · omega
  refine ⟨?_, hnn⟩
  have hw : (window bits page pageSize).1 =
      wrap bits (wrap bits ((if page ≤ 0 then 1 else page) - 1) *
        (window bits page pageSize).2) := rfl
  rw [hw, h2]
  have h1 : wrap bits ((if page ≤ 0 then 1 else page) - 1) =
      (if page ≤ 0 then 1 else page) - 1 := by
    apply wrap_of_inRange bits hb0
    unfold InRange at hp ⊢
    split <;> omega
  rw [h1]
  exact wrap_of_inRange bits hb0 _ ⟨by unfold claimedOffset at hnn; omega, hfit⟩

/-- C22, counterexample: with 64-bit `int`s, page 9223372036854775807 and page size 10 make
`ListUsers` call the repository with the offset -20, where `(p - 1) * limit` is
92233720368547758060. -/
theorem window_offset_negative :
    window 64 9223372036854775807 10 = (-20, 10) ∧
      claimedOffset 9223372036854775807 10 = 92233720368547758060 ∧
      UserRepository.ListUsers 64 twoUsers 9223372036854775807 10 =
        twoUsers.List 64 (-20) 10 := by
  refine ⟨by decide, by decide, rfl⟩

/-- C22, as the code has it: the four listing services call their repository with the limit
10 for a page size of at most 0, 100 for a page size above 100 and the page size otherwise,
so with a limit from 1 to 100; and with the offset `(p - 1) * limit`, which is not negative,
whenever that product is an `int`, as it is for every page below 2147483648 where `int` has
64 bits.  (`ListOrdersByUser` calls the repository when the user id is not empty.) -/
theorem services_pass_window (bits : Nat) (page pageSize : Int) (hb : bits = 32 ∨ bits = 64)
    (hp : InRange bits page) :
    (∀ (ru : UserRepository.InMemoryRepository) (rp : ProductRepository.InMemoryRepository)
        (ro : OrderRepository.InMemoryRepository) (category userID : String)
        (status : OrderRepository.OrderStatus),
      UserRepository.ListUsers bits ru page pageSize =
        ru.List bits (window bits page pageSize).1 (window bits page pageSize).2 ∧
      ProductRepository.ListProducts bits rp page pageSize category =
        rp.List bits (window bits page pageSize).1 (window bits page pageSize).2 category ∧
      OrderRepository.ListOrders bits ro page pageSize status =
        ro.List bits (window bits page pageSize).1 (window bits page pageSize).2 status ∧
      (userID ≠ "" → OrderRepository.ListOrdersByUser bits ro userID page pageSize =
        some (ro.ListByUser bits userID (window bits page pageSize).1
          (window bits page pageSize).2))) ∧
    (window bits page pageSize).2 = claimedLimit pageSize ∧
    1 ≤ (window bits page pageSize).2 ∧ (window bits page pageSize).2 ≤ 100 ∧
    (claimedOffset page pageSize < 2 ^ (bits - 1) →
      (window bits page pageSize).1 = claimedOffset page pageSize ∧
        0 ≤ (window bits page pageSize).1) ∧
    (bits = 64 → page < 2147483648 →
      (window bits page pageSize).1 = claimedOffset page pageSize ∧
        0 ≤ (window bits page pageSize).1) := by
  have hl := claimedLimit_bounds pageSize
  have h2 := window_snd bits page pageSize
  refine ⟨?_, h2, by omega, by omega, ?_, ?_⟩
  · intro ru rp ro category userID status
    refine ⟨rfl, rfl, rfl, ?_⟩
    intro hu
    simp [OrderRepository.ListOrdersByUser, hu]
  · intro hfit
    obtain ⟨h1, h0⟩ := window_fst bits hb page pageSize hp hfit
    exact ⟨h1, h1 ▸ h0⟩
  · intro h64 hlt
    subst h64
    have hfit : claimedOffset page pageSize < 2 ^ (64 - 1) := by
      unfold claimedOffset
      have hq : (if page ≤ 0 then 1 else page) - 1 < 2147483648 := by split <;> omega
      have hq0 : 0 ≤ (if page ≤ 0 then 1 else page) - 1 := by split <;> omega
      calc ((if page ≤ 0 then 1 else page) - 1) * claimedLimit pageSize
          ≤ 2147483648 * 100 := by
            apply mul_le_mul (le_of_lt hq) hl.2 (by omega) (by norm_num)
        _ < 2 ^ (64 - 1) := by norm_num
    obtain ⟨h1, h0⟩ := window_fst 64 hb page pageSize hp hfit
    exact ⟨h1, h1 ▸ h0⟩

/-- C22, witness: page 3 with page size 250 on a 64-bit `int`. -/
theorem services_pass_window_witness :
    InRange 64 3 ∧ (window 64 3 250).2 = claimedLimit 250 ∧
      1 ≤ (window 64 3 250).2 ∧ (window 64 3 250).2 ≤ 100 :=
  ⟨by unfold InRange; norm_num,
    let h := services_pass_window 64 3 250 (Or.inr rfl) (by unfold InRange; norm_num)
    ⟨h.2.1, h.2.2.1, h.2.2.2.1⟩⟩

/-! ## The listings of the repositories -/

/-- C24, counterexample: two stored users, offset 1 and limit 9223372036854775807 on 64-bit
`int`s: `start + limit` wraps around to -9223372036854775808 and the slice expression
`users[1:-9223372036854775808]` panics. -/
theorem list_slices_out_of_range :
    (0 : Int) ≤ 1 ∧ (0 : Int) ≤ 9223372036854775807 ∧
      twoUsers.List 64 1 9223372036854775807 = Except.error "slice bounds out of range" :=
  ⟨by decide, by decide, rfl⟩

/-- C24, as the code has it: for every content of the three repositories, every offset and
limit that are not negative, the paginating `List` of the user, product and order
repositories and `ListByUser` return, whenever `min(offset, total) + limit` is an `int` (as
for every limit up to 100, which is all the services pass), exactly
`min(limit, max(0, total - offset))` items, each stored and passing the filter (category,
status or user id), none twice, and `total`, the number of stored items that pass the
filter. -/
theorem lists_return_window (bits : Nat) (ru : UserRepository.InMemoryRepository)
    (rp : ProductRepository.InMemoryRepository) (ro : OrderRepository.InMemoryRepository)
    (offset limit : Int) (category userID : String) (status : OrderRepository.OrderStatus)
    (hb : bits = 32 ∨ bits = 64) (ho : 0 ≤ offset) (hl : 0 ≤ limit)
    (hu : (ru.users.map Prod.fst).Nodup) (hp : (rp.products.map Prod.fst).Nodup)
    (hor : (ro.orders.map Prod.fst).Nodup) :
    (min offset ((ru.users.filter fun _ => true).length : Int) + limit < 2 ^ (bits - 1) →
      Correct ru.users (fun _ => true) offset limit (ru.List bits offset limit)) ∧
    (min offset ((rp.products.filter fun p =>
        decide (category = "") || decide (p.2.Category = category)).length : Int) + limit <
        2 ^ (bits - 1) →
      Correct rp.products
        (fun product => decide (category = "") || decide (product.Category = category))
        offset limit (rp.List bits offset limit category)) ∧
    (min offset ((ro.orders.filter fun p => decide (p.2.UserID = userID)).length : Int) +
        limit < 2 ^ (bits - 1) →
      Correct ro.orders (fun order => decide (order.UserID = userID)) offset limit
        (ro.ListByUser bits userID offset limit)) ∧
    (min offset ((ro.orders.filter fun p =>
        decide (status = OrderRepository.OrderStatusUnspecified) ||
          decide (p.2.Status = status)).length : Int) + limit < 2 ^ (bits - 1) →
      Correct ro.orders
        (fun order => decide (status = OrderRepository.OrderStatusUnspecified) ||
          decide (order.Status = status))
        offset limit (ro.List bits offset limit status)) := by
  have hb0 : 0 < bits := by omega
  have key : ∀ {β : Type} (stored : List (String × β)) (keep : β → Bool),
      (stored.map Prod.fst).Nodup →
      min offset ((stored.filter fun p => keep p.2).length : Int) + limit < 2 ^ (bits - 1) →
      Correct stored keep offset limit
        (paginate bits ((stored.map Prod.snd).filter keep) offset limit) := by
    intro β stored keep hk hfit
    have hlen : ((stored.map Prod.snd).filter keep).length =
        (stored.filter fun p => keep p.2).length := by
      rw [List.filter_map, List.length_map]; rfl
    apply correct_of_window stored keep offset limit ho hl hk
    exact paginate_spec bits hb0 _ offset limit ho hl (by rw [hlen]; exact hfit)
  refine ⟨fun h => ?_, fun h => key _ _ hp h, fun h => key _ _ hor h, fun h => key _ _ hor h⟩
  have := key ru.users (fun _ => true) hu h
  simpa [UserRepository.InMemoryRepository.List] using this

/-- C24, witness: the second page of size 1 of the sample repositories. -/
theorem lists_return_window_witness :
    (twoUsers.users.map Prod.fst).Nodup ∧ (twoProducts.products.map Prod.fst).Nodup ∧
      (twoOrders.orders.map Prod.fst).Nodup ∧
      Correct twoUsers.users (fun _ => true) 1 1 (twoUsers.List 64 1 1) ∧
      Correct twoProducts.products
        (fun product => decide ("office" = "") || decide (product.Category = "office")) 1 1
        (twoProducts.List 64 1 1 "office") :=
  ⟨by decide, by decide, by decide,
    (lists_return_window 64 twoUsers twoProducts twoOrders 1 1 "office" "id-1" 4 (Or.inr rfl)
      (by decide) (by decide) (by decide) (by decide) (by decide)).1 (by decide),
    (lists_return_window 64 twoUsers twoProducts twoOrders 1 1 "office" "id-1" 4 (Or.inr rfl)
      (by decide) (by decide) (by decide) (by decide) (by decide)).2.1 (by decide)⟩

end Paging

namespace Golang

/-! ## Maps -/

theorem mapGet_mapPut_self {β : Type} (m : List (String × β)) (key : String) (v : β) :
    mapGet (mapPut m key v) key = some v := by
  simp [mapGet, mapPut]

theorem mapGet_mapPut_ne {β : Type} (m : List (String × β)) (key k : String) (v : β)
    (h : k ≠ key) : mapGet (mapPut m key v) k = mapGet m k := by
  unfold mapGet mapPut
  rw [List.find?_cons_of_neg _ (by simpa using fun e => h e.symm)]
  congr 1
  induction m with
  | nil => rfl
  | cons p ps ih =>
      by_cases hp : p.1 = key
      · rw [List.filter_cons_of_neg (by simpa using hp),
          List.find?_cons_of_neg _ (by simpa using fun e : p.1 = k => h (e.symm.trans hp)), ih]
      · rw [List.filter_cons_of_pos (by simpa using hp)]
        by_cases hk : p.1 = k
        · rw [List.find?_cons_of_pos _ (by simpa using hk),
            List.find?_cons_of_pos _ (by simpa using hk)]
        · rw [List.find?_cons_of_neg _ (by simpa using hk),
            List.find?_cons_of_neg _ (by simpa using hk), ih]

end Golang

namespace OrderRepository

open Golang

/-! ## The order repository -/

/-- C23: `UpdateStatus` returns `ErrOrderNotFound` exactly when no order is stored under the
id, and then leaves the repository as it is; otherwise it returns the stored order with
`Status` set to the given status and `UpdatedAt` to the time of the call and every other
field as it was, the repository then reads that order under the id, and it reads every other
id as before. -/
theorem updateStatus_frame (r : InMemoryRepository) (id : String) (status : OrderStatus)
    (now : Nat) :
    ((UpdateStatus r id status now).2 = Except.error Err.ErrOrderNotFound ↔
      mapGet r.orders id = none) ∧
    (mapGet r.orders id = none →
      UpdateStatus r id status now = (r, Except.error Err.ErrOrderNotFound)) ∧
    ∀ order, mapGet r.orders id = some order →
      (UpdateStatus r id status now).2 =
        Except.ok { order with Status := status, UpdatedAt := now } ∧
      mapGet (UpdateStatus r id status now).1.orders id =
        some { order with Status := status, UpdatedAt := now } ∧
      ∀ k, k ≠ id → mapGet (UpdateStatus r id status now).1.orders k = mapGet r.orders k := by
  refine ⟨?_, ?_, ?_⟩
  · cases h : mapGet r.orders id with
    | none => simp [UpdateStatus, h]
    | some order => simp [UpdateStatus, h]
  · intro h
    simp [UpdateStatus, h]
  · intro order h
    refine ⟨by simp [UpdateStatus, h], ?_, ?_⟩
    · simp only [UpdateStatus, h]
      exact mapGet_mapPut_self _ _ _
    · intro k hk
      simp only [UpdateStatus, h]
      exact mapGet_mapPut_ne _ _ _ _ hk

/-! ## `CreateOrder` -/

theorem create_spec (r : InMemoryRepository) (order : Order) (uuid : String)
    (itemIDs : Nat → String) (now : Nat) (hid : order.ID = "") :
    (∀ err, (Create r order uuid itemIDs now).2 = Except.error err →
      (Create r order uuid itemIDs now).1 = r ∧ mapGet r.orders uuid ≠ none) ∧
    ∀ o, (Create r order uuid itemIDs now).2 = Except.ok o →
      mapGet r.orders uuid = none ∧ o.ID = uuid ∧
      (Create r order uuid itemIDs now).1 = ⟨mapPut r.orders o.ID o⟩ ∧
      o.Items.map (fun item => (item.ProductID, item.Quantity)) =
        order.Items.map (fun item => (item.ProductID, item.Quantity)) := by
  have hitems : ∀ (l : List OrderItem) (ns : List Nat), ns.length = l.length →
      (List.zipWith
        (fun i (item : OrderItem) => if item.ID = "" then { item with ID := itemIDs i } else item)
        ns l).map (fun item => (item.ProductID, item.Quantity)) =
      l.map (fun item => (item.ProductID, item.Quantity)) := by
    intro l
    induction l with
    | nil => intro ns _; simp
    | cons x xs ih =>
        intro ns hns
        cases ns with
        | nil => simp at hns
        | cons n ns =>
            simp only [List.zipWith_cons_cons, List.map_cons]
            rw [ih ns (by simpa using hns)]
            congr 1
            split <;> rfl
  unfold Create
  simp only [hid, if_true]
  cases h : mapGet r.orders uuid with
  | some x =>
      dsimp only
      exact ⟨fun err _ => ⟨rfl, by simp⟩, fun o ho => by cases ho⟩
  | none =>
      dsimp only
      refine ⟨fun err he => (by cases he), ?_⟩
      intro o ho
      simp only [Except.ok.injEq] at ho
      subst ho
      exact ⟨rfl, rfl, rfl, hitems _ _ (by simp)⟩

theorem processItems_ok (c : Clients) :
    ∀ (items : List OrderItemRequest) (n : Nat) (orderItems out : List OrderItem)
      (totalAmount t : float64),
      processItems c n items orderItems totalAmount = Except.ok (out, t) →
      ∃ new, out = orderItems ++ new ∧ new.length = items.length ∧
        ∀ (i : Nat) (req : OrderItemRequest), items[i]? = some req →
          req.ProductID ≠ "" ∧ 0 < req.Quantity ∧
          ∃ p item, c.GetProduct (n + i) req.ProductID = Except.ok p ∧
            req.Quantity ≤ p.Stock ∧ new[i]? = some item ∧ item.ProductID = p.Id ∧
            item.Quantity = req.Quantity := by
  intro items
  induction items with
  | nil =>
      intro n orderItems out totalAmount t h
      simp only [processItems, Except.ok.injEq, Prod.mk.injEq] at h
      exact ⟨[], by simp [h.1], rfl, fun i req hi => by simp at hi⟩
  | cons itemReq items ih =>
      intro n orderItems out totalAmount t h
      unfold processItems at h
      split at h
      · cases h
      · rename_i hpid
        split at h
        · cases h
        · rename_i hq
          split at h
          · split at h <;> cases h
          · rename_i product hprod
            split at h
            · cases h
            · rename_i hstock
              obtain ⟨new, hout, hlen, hall⟩ := ih _ _ _ _ _ h
              refine ⟨_ :: new, by rw [hout, List.append_assoc]; rfl, by simp [hlen], ?_⟩
              intro i req hi
              cases i with
              | zero =>
                  simp only [List.getElem?_cons_zero, Option.some.injEq] at hi
                  subst hi
                  exact ⟨hpid, by omega, product,
                    ⟨"", product.Id, product.Name, product.Price, itemReq.Quantity,
                      c.mul product.Price (c.ofInt32 itemReq.Quantity)⟩,
                    hprod, by omega, List.getElem?_cons_zero, rfl, rfl⟩
              | succ i =>
                  simp only [List.getElem?_cons_succ] at hi
                  obtain ⟨h1, h2, p, item, h3, h4, h5, h6, h7⟩ := hall i req hi
                  refine ⟨h1, h2, p, item, ?_, h4, by simpa using h5, h6, h7⟩
                  rw [← h3]
                  congr 1
                  omega

theorem createOrder_cases (r : InMemoryRepository) (c : Clients) (userID : String)
    (items : List OrderItemRequest) (uuid : String) (itemIDs : Nat → String) (now : Nat) :
    (∃ err, (CreateOrder r c userID items uuid itemIDs now).result = Except.error err ∧
      (CreateOrder r c userID items uuid itemIDs now).repo = r ∧
      (CreateOrder r c userID items uuid itemIDs now).effects = []) ∨
    ∃ o, (CreateOrder r c userID items uuid itemIDs now).result = Except.ok o ∧
      userID ≠ "" ∧ items ≠ [] ∧ c.GetUser userID = Except.ok () ∧
      mapGet r.orders uuid = none ∧ o.ID = uuid ∧
      (CreateOrder r c userID items uuid itemIDs now).repo = ⟨mapPut r.orders o.ID o⟩ ∧
      (CreateOrder r c userID items uuid itemIDs now).effects =
        Effect.saved o.ID :: o.Items.map (fun item =>
          Effect.UpdateStock item.ProductID (wrap 32 (-item.Quantity))) ∧
      Checked c items o := by
  unfold CreateOrder
  split
  · exact Or.inl ⟨_, rfl, rfl, rfl⟩
  · rename_i hu
    split
    · exact Or.inl ⟨_, rfl, rfl, rfl⟩
    · rename_i hi
      split
      · split <;> exact Or.inl ⟨_, rfl, rfl, rfl⟩
      · rename_i x hx
        split
        · exact Or.inl ⟨_, rfl, rfl, rfl⟩
        · rename_i orderItems totalAmount hproc
          obtain ⟨new, hout, hlen, hall⟩ := processItems_ok c items 0 [] orderItems ⟨0⟩
            totalAmount hproc
          rw [List.nil_append] at hout
          subst hout
          obtain ⟨herr, hok⟩ := create_spec r
            ⟨"", userID, orderItems, totalAmount, OrderStatusPending, 0, 0⟩ uuid itemIDs now rfl
          split
          · rename_i r1 err hc
            have h2 : (Create r ⟨"", userID, orderItems, totalAmount, OrderStatusPending, 0, 0⟩
                uuid itemIDs now).2 = Except.error err := by rw [hc]
            have h1 := (herr err h2).1
            rw [hc] at h1
            exact Or.inl ⟨_, rfl, h1, rfl⟩
          · rename_i r1 savedOrder hc
            have h2 : (Create r ⟨"", userID, orderItems, totalAmount, OrderStatusPending, 0, 0⟩
                uuid itemIDs now).2 = Except.ok savedOrder := by rw [hc]
            obtain ⟨hnone, hid, hrepo, hitems⟩ := hok savedOrder h2
            rw [hc] at hrepo
            refine Or.inr ⟨savedOrder, rfl, hu, ?_, ?_, hnone, hid, hrepo, ?_, ?_, ?_⟩
            · intro e; exact hi (by simp [e])
            · cases x; exact hx
            · dsimp only
              congr 1
              have := congrArg (List.map fun (q : String × Int) =>
                Effect.UpdateStock q.1 (wrap 32 (-q.2))) hitems
              simpa [List.map_map, Function.comp] using this.symm
            · have := congrArg List.length hitems
              simpa [hlen] using this
            · intro i req hreq
              obtain ⟨h1, h3, p, item, h4, h5, h6, h7, h8⟩ := hall i req hreq
              have hi2 : (savedOrder.Items.map fun item => (item.ProductID, item.Quantity))[i]? =
                  some (item.ProductID, item.Quantity) := by
                rw [hitems, List.getElem?_map, h6]; rfl
              rw [List.getElem?_map] at hi2
              cases hs : savedOrder.Items[i]? with
              | none => rw [hs] at hi2; cases hi2
              | some item2 =>
                  rw [hs] at hi2
                  simp only [Option.map_some', Option.some.injEq, Prod.mk.injEq] at hi2
                  refine ⟨h1, h3, p, item2, ?_, h5, rfl, by rw [hi2.1, h7], by rw [hi2.2, h8]⟩
                  simpa using h4

/-- A successful sample call: one request for two pens, stored under the generated id, then
one `UpdateStock` by -2. -/
theorem createOrder_sample :
    (CreateOrder ⟨[]⟩ sampleClients "u1" [⟨"p1", 2⟩] "o1" (fun _ => "i1") 7).effects =
        [Effect.saved "o1", Effect.UpdateStock "p1" (-2)] ∧
      (CreateOrder ⟨[]⟩ sampleClients "u1" [⟨"p1", 2⟩] "o1" (fun _ => "i1") 7).repo =
        ⟨[("o1", ⟨"o1", "u1", [⟨"i1", "p1", "pen", ⟨0⟩, 2, ⟨0⟩⟩], ⟨0⟩, 1, 7, 7⟩)]⟩ ∧
      (CreateOrder ⟨[]⟩ sampleClients "u1" [⟨"p1", 9⟩] "o1" (fun _ => "i1") 7).effects = [] ∧
      (CreateOrder ⟨[]⟩ sampleClients "u1" [⟨"p1", 9⟩] "o1" (fun _ => "i1") 7).repo = ⟨[]⟩ := by
  decide

/-- C25: whenever `CreateOrder` returns an error, the repository is as it was and no
`UpdateStock` call has been made; whenever it returns an order, the repository has stored
that order under a new id and then, after the save, `UpdateStock` has been called once per
item of the order, in their order, with the item's product and minus its quantity, and every
requested item has passed the checks; and each of the listed causes (empty user id, no items,
a user the user service does not return, an item with an empty product id or a quantity of
at most 0, a product the product service does not return, a stock below the quantity, an
order id the repository already holds) makes it return an error. -/
theorem createOrder_effects (r : InMemoryRepository) (c : Clients) (userID : String)
    (items : List OrderItemRequest) (uuid : String) (itemIDs : Nat → String) (now : Nat)
    (hq : ∀ req ∈ items, InRange 32 req.Quantity) :
    (∀ err, (CreateOrder r c userID items uuid itemIDs now).result = Except.error err →
      (CreateOrder r c userID items uuid itemIDs now).repo = r ∧
      (CreateOrder r c userID items uuid itemIDs now).effects = []) ∧
    (∀ o, (CreateOrder r c userID items uuid itemIDs now).result = Except.ok o →
      mapGet r.orders o.ID = none ∧
      (CreateOrder r c userID items uuid itemIDs now).repo = ⟨mapPut r.orders o.ID o⟩ ∧
      (CreateOrder r c userID items uuid itemIDs now).effects =
        Effect.saved o.ID :: o.Items.map (fun item =>
          Effect.UpdateStock item.ProductID (-item.Quantity)) ∧
      Checked c items o) ∧
    ((userID = "" ∨ items = [] ∨ (∃ e, c.GetUser userID = Except.error e) ∨
        (∃ (i : Nat) (req : OrderItemRequest), items[i]? = some req ∧
          (req.ProductID = "" ∨ req.Quantity ≤ 0 ∨
            (∃ e, c.GetProduct i req.ProductID = Except.error e) ∨
            ∃ p, c.GetProduct i req.ProductID = Except.ok p ∧ p.Stock < req.Quantity)) ∨
        mapGet r.orders uuid ≠ none) →
      ∃ err, (CreateOrder r c userID items uuid itemIDs now).result = Except.error err) := by
  rcases createOrder_cases r c userID items uuid itemIDs now with
    ⟨err, he, hr, hf⟩ | ⟨o, ho, hu, hi, hg, hnone, hid, hrepo, heff, hchk⟩
  · refine ⟨fun _ _ => ⟨hr, hf⟩, ?_, fun _ => ⟨err, he⟩⟩
    intro o ho
    rw [he] at ho
    cases ho
  · refine ⟨?_, ?_, ?_⟩
    · intro err he
      rw [ho] at he
      cases he
    · intro o2 ho2
      rw [ho] at ho2
      simp only [Except.ok.injEq] at ho2
      subst ho2
      refine ⟨by rw [hid]; exact hnone, hrepo, ?_, hchk⟩
      rw [heff]
      congr 1
      apply List.map_congr_left
      intro item hitem
      obtain ⟨i, hi2⟩ := List.getElem?_of_mem hitem
      have hlt : i < items.length := by
        rw [← hchk.1]
        exact Dataloaders.lt_length_of_getElem? hi2
      obtain ⟨_, hpos, p, item2, _, _, h6, _, h8⟩ := hchk.2 i items[i]
        (List.getElem?_eq_getElem hlt)
      rw [hi2] at h6
      simp only [Option.some.injEq] at h6
      subst h6
      have hin := hq items[i] (List.getElem_mem hlt)
      rw [← h8] at hpos hin
      congr 1
      apply Paging.wrap_of_inRange 32 (by norm_num)
      unfold InRange at hin ⊢
      omega
    · rintro (h | h | ⟨e, h⟩ | ⟨i, req, hreq, h⟩ | h)
      · exact absurd h hu
      · exact absurd h hi
      · rw [hg] at h; cases h
      · obtain ⟨h1, h2, p, item, h3, h4, _⟩ := hchk.2 i req hreq
        rcases h with h | h | ⟨e, h⟩ | ⟨p2, h, hlt⟩
        · exact absurd h h1
        · omega
        · rw [h3] at h; cases h
        · rw [h3] at h
          simp only [Except.ok.injEq] at h
          subst h
          omega
      · exact absurd hnone h

/-- C25, witness: the sample order for two pens, whose quantity is an `int32`. -/
theorem createOrder_effects_witness :
    (∀ req ∈ [(⟨"p1", 2⟩ : OrderItemRequest)], InRange 32 req.Quantity) ∧
      (CreateOrder ⟨[]⟩ sampleClients "u1" [⟨"p1", 2⟩] "o1" (fun _ => "i1") 7).result =
        Except.ok ⟨"o1", "u1", [⟨"i1", "p1", "pen", ⟨0⟩, 2, ⟨0⟩⟩], ⟨0⟩, 1, 7, 7⟩ ∧
      (CreateOrder ⟨[]⟩ sampleClients "u1" [⟨"p1", 2⟩] "o1" (fun _ => "i1") 7).effects =
        [Effect.saved "o1", Effect.UpdateStock "p1" (-2)] :=
  ⟨by intro req hreq; simp at hreq; subst hreq; unfold InRange; norm_num, rfl,
    ((createOrder_effects ⟨[]⟩ sampleClients "u1" [⟨"p1", 2⟩] "o1" (fun _ => "i1") 7
      (by intro req hreq; simp at hreq; subst hreq; unfold InRange; norm_num)).2.1
      ⟨"o1", "u1", [⟨"i1", "p1", "pen", ⟨0⟩, 2, ⟨0⟩⟩], ⟨0⟩, 1, 7, 7⟩ rfl).2.2.1⟩

end OrderRepository

namespace UserRepository

/-! ## Email validation -/

theorem dropWhile_eq_self {p : Char → Bool} {l : List Char}
    (h : ∀ c, l.head? = some c → p c = false) : l.dropWhile p = l := by
  cases l with
  | nil => rfl
  | cons x xs => rw [List.dropWhile_cons_of_neg]; simp [h x rfl]

theorem head?_dropWhile_false (p : Char → Bool) (l : List Char) (c : Char)
    (h : (l.dropWhile p).head? = some c) : p c = false := by
  have := List.head?_dropWhile_not p l
  rw [h] at this
  exact this

theorem trimmed_TrimSpace (e : List Char) : Trimmed (TrimSpace e) := by
  constructor
  · intro c hc
    have hpre : TrimSpace e <+: e.dropWhile isSpace := by
      unfold TrimSpace
      rw [← List.reverse_suffix, List.reverse_reverse]
      exact List.dropWhile_suffix _
    obtain ⟨t, ht⟩ := hpre
    apply head?_dropWhile_false isSpace e c
    rw [← ht]
    cases hx : TrimSpace e with
    | nil => rw [hx] at hc; cases hc
    | cons x xs => rw [hx] at hc; simpa using hc
  · intro c hc
    unfold TrimSpace at hc
    rw [List.reverse_reverse] at hc
    exact head?_dropWhile_false isSpace _ c hc

theorem TrimSpace_of_trimmed {t : List Char} (h : Trimmed t) : TrimSpace t = t := by
  unfold TrimSpace
  rw [dropWhile_eq_self h.1, dropWhile_eq_self h.2, List.reverse_reverse]

theorem trimmed_map {lower : Char → Char} (hl : LowerOk lower) {t : List Char}
    (h : Trimmed t) : Trimmed (t.map lower) := by
  constructor
  · intro c hc
    rw [List.head?_map] at hc
    cases hx : t.head? with
    | none => rw [hx] at hc; cases hc
    | some x =>
        rw [hx] at hc
        simp only [Option.map_some', Option.some.injEq] at hc
        rw [← hc]
        exact hl.no_space x (h.1 x hx)
  · intro c hc
    rw [← List.map_reverse, List.head?_map] at hc
    cases hx : t.reverse.head? with
    | none => rw [hx] at hc; cases hc
    | some x =>
        rw [hx] at hc
        simp only [Option.map_some', Option.some.injEq] at hc
        rw [← hc]
        exact hl.no_space x (h.2 x hx)

theorem split_of_not_mem (sep : Char) : ∀ s : List Char, sep ∉ s → Split s sep = [s] := by
  intro s
  induction s with
  | nil => intro _; rfl
  | cons c cs ih =>
      intro h
      rw [List.mem_cons, not_or] at h
      rw [Split, if_neg (fun e => h.1 e.symm), ih h.2]

theorem split_append (sep : Char) (b : List Char) :
    ∀ a : List Char, sep ∉ a → Split (a ++ sep :: b) sep = a :: Split b sep := by
  intro a
  induction a with
  | nil => intro _; simp [Split]
  | cons c cs ih =>
      intro h
      rw [List.mem_cons, not_or] at h
      rw [List.cons_append, Split, if_neg (fun e => h.1 e.symm), ih h.2]

theorem split_length (sep : Char) : ∀ s : List Char, (Split s sep).length = s.count sep + 1 := by
  intro s
  induction s with
  | nil => rfl
  | cons c cs ih =>
      rw [Split]
      by_cases h : c = sep
      · rw [if_pos h, List.length_cons, ih, h, List.count_cons_self]
      · rw [if_neg h, List.count_cons_of_ne (fun e => h e.symm)]
        cases hs : Split cs sep with
        | nil => rw [hs] at ih; simp at ih
        | cons part parts => rw [hs] at ih; simpa using ih

theorem count_one_split (sep : Char) :
    ∀ s : List Char, s.count sep = 1 → ∃ a b, s = a ++ sep :: b ∧ sep ∉ a ∧ sep ∉ b := by
  intro s
  induction s with
  | nil => intro h; simp at h
  | cons c cs ih =>
      intro h
      by_cases hc : c = sep
      · subst hc
        rw [List.count_cons_self] at h
        exact ⟨[], cs, rfl, by simp, List.count_eq_zero.mp (by omega)⟩
      · rw [List.count_cons_of_ne (fun e => hc e.symm)] at h
        obtain ⟨a, b, hs, ha, hb⟩ := ih h
        refine ⟨c :: a, b, by rw [hs]; rfl, ?_, hb⟩
        rw [List.mem_cons, not_or]
        exact ⟨fun e => hc e.symm, ha⟩

/-- `isValidEmail` on a trimmed string, by the decomposition at its one `@`. -/
theorem isValidEmail_iff (e : List Char) : isValidEmail e = true ↔ WellFormedEmail e := by
  unfold isValidEmail WellFormedEmail
  generalize TrimSpace e = t
  simp only []
  constructor
  · intro h
    split at h
    · cases h
    · split at h
      · cases h
      · rename_i hlen
        simp only [ne_eq, Decidable.not_not] at hlen
        have hcount : t.count '@' = 1 := by
          have := split_length '@' t
          omega
        obtain ⟨a, b, ht, ha, hb⟩ := count_one_split '@' t hcount
        have hsplit : Split t '@' = [a, b] := by
          rw [ht, split_append '@' b a ha, split_of_not_mem '@' b hb]
        rw [hsplit] at h
        simp only [List.getElem?_cons_zero, List.getElem?_cons_succ, Option.getD_some] at h
        split at h
        · cases h
        · rename_i hne
          split at h
          · cases h
          · rename_i hdot
            refine ⟨hcount, a, b, ht, ?_, ?_, ?_⟩
            · intro e; apply hne; left; rw [e]; rfl
            · intro e; apply hne; right; rw [e]; rfl
            · simpa [Contains] using hdot
  · rintro ⟨hcount, a, b, ht, ha, hb, hdot⟩
    have hcnt : a.count '@' = 0 ∧ b.count '@' = 0 := by
      rw [ht, List.count_append, List.count_cons_self] at hcount
      omega
    have hsplit : Split t '@' = [a, b] := by
      rw [ht, split_append '@' b a (List.count_eq_zero.mp hcnt.1),
        split_of_not_mem '@' b (List.count_eq_zero.mp hcnt.2)]
    have htne : t ≠ [] := by rw [ht]; simp
    rw [if_neg htne, hsplit]
    simp only [List.length_cons, List.length_nil, ne_eq, not_true_eq_false, if_false,
      List.getElem?_cons_zero, List.getElem?_cons_succ, Option.getD_some]
    rw [if_neg, if_neg]
    · simp [Contains, hdot]
    · rintro (h | h)
      · exact ha (List.length_eq_zero.mp h)
      · exact hb (List.length_eq_zero.mp h)

theorem lowerOk_toLower : LowerOk Char.toLower := by
  have key : ∀ c : Char, Char.toLower c = c ∨
      ∃ n, 65 ≤ n ∧ n ≤ 90 ∧ c = Char.ofNat n ∧ Char.toLower c = Char.ofNat (n + 32) := by
    intro c
    by_cases h : c.toNat ≥ 65 ∧ c.toNat ≤ 90
    · right
      refine ⟨c.toNat, h.1, h.2, (Char.ofNat_toNat c).symm, ?_⟩
      simp [Char.toLower, h]
    · left
      simp only [Char.toLower]
      rw [if_neg h]
  refine ⟨by decide, by decide, ?_, ?_⟩
  · intro c hc
    rcases key c with h | ⟨n, h1, h2, h3, h4⟩
    · rw [← h]; exact hc
    · exfalso
      rw [h4] at hc
      clear h3 h4
      interval_cases n <;> revert hc <;> decide
  · intro c hc
    rcases key c with h | ⟨n, h1, h2, h3, h4⟩
    · rw [h]; exact hc
    · rw [h4]
      clear h3 h4 hc
      interval_cases n <;> decide

/-- C26: `isValidEmail(e)` is true exactly when `e` without its surrounding white space
contains exactly one `@`, with at least one character before it and at least one after it,
and a `.` in the part after it; so whenever `validateUser` accepts an email, `isValidEmail`
accepts the trimmed and lower-cased form as well, which is the email of the user that a
successful `CreateUser` returns. -/
theorem valid_email_normalised (lower : Char → Char) (hl : LowerOk lower) :
    (∀ e, isValidEmail e = true ↔ WellFormedEmail e) ∧
    (∀ name email phone, validateUser name email phone = none →
      isValidEmail (ToLower lower (TrimSpace email)) = true) ∧
    ∀ (r : InMemoryRepository) (name email phone : List Char) (uuid : String) (now : Nat)
      (u : User), (CreateUser lower r name email phone uuid now).2 = Except.ok u →
      u.Email = String.mk (ToLower lower (TrimSpace email)) ∧
        isValidEmail u.Email.data = true := by
  have hnorm : ∀ name email phone, validateUser name email phone = none →
      isValidEmail (ToLower lower (TrimSpace email)) = true := by
    intro name email phone h
    have hv : isValidEmail email = true := by
      unfold validateUser at h
      split at h
      · cases h
      · split at h
        · cases h
        · split at h
          · cases h
          · rename_i hv
            simpa using hv
    obtain ⟨hcount, a, b, ht, ha, hb, hdot⟩ := (isValidEmail_iff email).mp hv
    have hcnt : a.count '@' = 0 ∧ b.count '@' = 0 := by
      rw [ht, List.count_append, List.count_cons_self] at hcount
      omega
    have hnot : ∀ l : List Char, l.count '@' = 0 → (l.map lower).count '@' = 0 := by
      intro l h0
      rw [List.count_eq_zero] at h0 ⊢
      intro hm
      obtain ⟨c, hc, he⟩ := List.mem_map.mp hm
      exact h0 (hl.only_at c he ▸ hc)
    have htrim : TrimSpace (ToLower lower (TrimSpace email)) =
        ToLower lower (TrimSpace email) :=
      TrimSpace_of_trimmed (trimmed_map hl (trimmed_TrimSpace email))
    have hmap : ToLower lower (TrimSpace email) = a.map lower ++ '@' :: b.map lower := by
      unfold ToLower
      rw [ht, List.map_append, List.map_cons, hl.at_fixed]
    rw [isValidEmail_iff]
    unfold WellFormedEmail
    rw [htrim, hmap]
    refine ⟨?_, a.map lower, b.map lower, rfl, by simpa using ha, by simpa using hb, ?_⟩
    · rw [List.count_append, List.count_cons_self, hnot a hcnt.1, hnot b hcnt.2]
    · exact List.mem_map.mpr ⟨'.', hdot, hl.dot_fixed⟩
  refine ⟨isValidEmail_iff, hnorm, ?_⟩
  intro r name email phone uuid now u h
  unfold CreateUser at h
  split at h
  · cases h
  · rename_i hval
    have he : ∀ (x : User) (q : InMemoryRepository × Except Err User),
        q = Create r x uuid now → ∀ v, q.2 = Except.ok v → v.Email = x.Email := by
      intro x q hq v hv
      subst hq
      unfold Create at hv
      split at hv
      · cases hv
      · simp only [Except.ok.injEq] at hv
        rw [← hv]
        simp only []
        split <;> rfl
    split at h
    · cases h
    · rename_i r1 user hc
      simp only [Except.ok.injEq] at h
      subst h
      have := he _ _ hc.symm user rfl
      refine ⟨this, ?_⟩
      rw [this]
      exact hnorm name email phone hval

/-- Sample emails: surrounding white space is ignored; a second `@`, a missing part and a
domain without a dot are refused. -/
theorem isValidEmail_samples :
    isValidEmail " ann@x.org ".data = true ∧ isValidEmail "ann@@x.org".data = false ∧
      isValidEmail "@x.org".data = false ∧ isValidEmail "ann@xorg".data = false ∧
      isValidEmail "ann.b@xorg".data = false := by
  decide

/-- C26, witness: the lower-casing of the basic Latin letters. -/
theorem valid_email_normalised_witness :
    LowerOk Char.toLower ∧
      (validateUser "Ann".data " Ann@X.org ".data "1".data = none →
        isValidEmail (ToLower Char.toLower (TrimSpace " Ann@X.org ".data)) = true) :=
  ⟨lowerOk_toLower,
    (valid_email_normalised Char.toLower lowerOk_toLower).2.1 "Ann".data " Ann@X.org ".data
      "1".data⟩

end UserRepository

namespace Resolvers

open Golang

/-! ## The converters -/

/-- C27, counterexample: for a product with stock -1 the GraphQL product has
`IsInStock = false` and the stock status `LOW_STOCK`, not `OUT_OF_STOCK`. -/
theorem negative_stock_is_low_stock :
    (domainProductToGraphQL stockNames (fun _ => "")
        (some ⟨"p1", "pen", "a pen", ⟨0⟩, -1, "office", 5, 5⟩)).map
      (fun g => (g.IsInStock, g.StockStatus)) = some (false, "LOW_STOCK") ∧
    stockNames.StockStatusOutOfStock ≠ "LOW_STOCK" := by
  decide

/-- C27, as the code has it: for every product whose stock is not negative, the GraphQL
product built by `domainProductToGraphQL` has `IsInStock = false` exactly when its
`StockStatus` is `OUT_OF_STOCK`; `getStockStatus` returns `OUT_OF_STOCK` for stock 0,
`LOW_STOCK` for a stock from 1 to 10 and `IN_STOCK` for a stock above 10. -/
theorem stock_status_of_stock {σ : Type} (m : StockStatusNames σ) (format : Nat → String)
    (p : ProductRepository.Product)
    (hm : m.StockStatusOutOfStock ≠ m.StockStatusLowStock ∧
      m.StockStatusOutOfStock ≠ m.StockStatusInStock)
    (hs : 0 ≤ p.Stock) :
    (∃ g, domainProductToGraphQL m format (some p) = some g ∧
      (g.IsInStock = false ↔ g.StockStatus = m.StockStatusOutOfStock)) ∧
    getStockStatus m 0 = m.StockStatusOutOfStock ∧
    (∀ stock : Int, 1 ≤ stock → stock ≤ 10 → getStockStatus m stock = m.StockStatusLowStock) ∧
    ∀ stock : Int, 10 < stock → getStockStatus m stock = m.StockStatusInStock := by
  refine ⟨⟨_, rfl, ?_⟩, by simp [getStockStatus], ?_, ?_⟩
  · simp only [decide_eq_false_iff_not, not_lt]
    unfold getStockStatus
    constructor
    · intro h
      rw [if_pos (by omega)]
    · intro h
      split at h
      · omega
      · split at h
        · exact absurd h.symm hm.1
        · exact absurd h.symm hm.2
  · intro stock h1 h2
    unfold getStockStatus
    rw [if_neg (by omega), if_pos h2]
  · intro stock h
    unfold getStockStatus
    rw [if_neg (by omega), if_neg (by omega)]

/-- C27, witness: a product with a stock of 3. -/
theorem stock_status_of_stock_witness :
    (stockNames.StockStatusOutOfStock ≠ stockNames.StockStatusLowStock ∧
      stockNames.StockStatusOutOfStock ≠ stockNames.StockStatusInStock) ∧ (0 : Int) ≤ 3 ∧
      getStockStatus stockNames 0 = stockNames.StockStatusOutOfStock :=
  ⟨by decide, by decide,
    (stock_status_of_stock stockNames (fun _ => "")
      ⟨"p1", "pen", "a pen", ⟨0⟩, 3, "office", 5, 5⟩ (by decide) (by decide)).2.1⟩

/-- C28: when the six constants of `models.OrderStatus` are pairwise distinct (as the
`case`s of a Go `switch` must be), `graphQLOrderStatusToDomain` after
`domainOrderStatusToGraphQL` returns each of the six named order statuses unchanged, and
returns `OrderStatusPending` for every other status value, `OrderStatusUnspecified`
included. -/
theorem order_status_round_trip {σ : Type} [DecidableEq σ] (m : OrderStatusNames σ)
    (hm : m.all.Nodup) :
    (∀ s ∈ [OrderRepository.OrderStatusPending, OrderRepository.OrderStatusConfirmed,
        OrderRepository.OrderStatusProcessing, OrderRepository.OrderStatusShipped,
        OrderRepository.OrderStatusDelivered, OrderRepository.OrderStatusCancelled],
      graphQLOrderStatusToDomain m (domainOrderStatusToGraphQL m s) = s) ∧
    (∀ s : OrderRepository.OrderStatus,
      s ∉ [OrderRepository.OrderStatusPending, OrderRepository.OrderStatusConfirmed,
        OrderRepository.OrderStatusProcessing, OrderRepository.OrderStatusShipped,
        OrderRepository.OrderStatusDelivered, OrderRepository.OrderStatusCancelled] →
      graphQLOrderStatusToDomain m (domainOrderStatusToGraphQL m s) =
        OrderRepository.OrderStatusPending) ∧
    graphQLOrderStatusToDomain m
      (domainOrderStatusToGraphQL m OrderRepository.OrderStatusUnspecified) =
      OrderRepository.OrderStatusPending := by
  simp only [OrderStatusNames.all, List.nodup_cons, List.mem_cons, List.mem_singleton,
    List.not_mem_nil, or_false, not_or, List.nodup_nil, and_true, not_false_eq_true] at hm
  obtain ⟨⟨h12, h13, h14, h15, h16⟩, ⟨h23, h24, h25, h26⟩, ⟨h34, h35, h36⟩, ⟨h45, h46⟩, h56⟩ := hm
  have hother : ∀ s : OrderRepository.OrderStatus,
      s ∉ [OrderRepository.OrderStatusPending, OrderRepository.OrderStatusConfirmed,
        OrderRepository.OrderStatusProcessing, OrderRepository.OrderStatusShipped,
        OrderRepository.OrderStatusDelivered, OrderRepository.OrderStatusCancelled] →
      graphQLOrderStatusToDomain m (domainOrderStatusToGraphQL m s) =
        OrderRepository.OrderStatusPending := by
    intro s hs
    simp only [List.mem_cons, List.mem_singleton, List.not_mem_nil, or_false, not_or] at hs
    simp [domainOrderStatusToGraphQL, graphQLOrderStatusToDomain, hs]
  refine ⟨?_, hother, hother _ (by decide)⟩
  intro s hs
  simp only [List.mem_cons, List.mem_singleton, List.not_mem_nil, or_false] at hs
  rcases hs with rfl | rfl | rfl | rfl | rfl | rfl <;>
    simp [domainOrderStatusToGraphQL, graphQLOrderStatusToDomain,
      OrderRepository.OrderStatusPending, OrderRepository.OrderStatusConfirmed,
      OrderRepository.OrderStatusProcessing, OrderRepository.OrderStatusShipped,
      OrderRepository.OrderStatusDelivered, OrderRepository.OrderStatusCancelled,
      Ne.symm h12, Ne.symm h13, Ne.symm h14, Ne.symm h15, Ne.symm h16, Ne.symm h23,
      Ne.symm h24, Ne.symm h25, Ne.symm h26, Ne.symm h34, Ne.symm h35, Ne.symm h36,
      Ne.symm h45, Ne.symm h46, Ne.symm h56]

/-- C28, witness: the GraphQL enum names of the six statuses, and the round trip of
`OrderStatusShipped`. -/
theorem order_status_round_trip_witness :
    orderNames.all.Nodup ∧
      graphQLOrderStatusToDomain orderNames
        (domainOrderStatusToGraphQL orderNames OrderRepository.OrderStatusShipped) =
        OrderRepository.OrderStatusShipped :=
  ⟨by decide,
    (order_status_round_trip orderNames (by decide)).1 OrderRepository.OrderStatusShipped
      (by decide)⟩

end Resolvers
